import Mathlib

/-!
# Verification of the Algorithm-Visualizer trace engines

This file gives a shallow embedding, in Lean 4, of the algorithm
execution-trace engines of the Algorithm-Visualizer repository
(Dijkstra, Bellman-Ford, Floyd-Warshall, Kruskal, Naive / KMP /
Rabin-Karp string matching, Huffman coding), together with proofs of
the specification claims about them.

Modelling conventions, shared by all engines:

* JavaScript numbers holding edge weights and distances are modelled as
  `ℤ`; the JavaScript `Infinity` used by Dijkstra and Bellman-Ford is
  modelled as `⊤` in `WithTop ℤ` (addition and comparison on
  `WithTop ℤ` agree with the JavaScript behaviour of `Infinity` on the
  operations the code performs).
* Mutable JavaScript arrays indexed by vertices are modelled as total
  functions from `ℕ`, updated with `Function.update`; a step snapshot
  (`[...distances]`) materialises the first `vertexCount` entries into
  an immutable list.
* The human-readable `description` string of each step is abstracted
  into a `kind` tag recording which of the push-sites of the source
  produced the step; the `id` string of an edge and the 1-based `step`
  counter (which always equals the position in the trace plus one) are
  dropped.  All other step fields are kept.
* `[...edges].sort((a, b) => a.weight - b.weight)` (a stable sort) is
  modelled by `List.mergeSort`, which is also stable.
* Strings are modelled as `List Char`, `charCodeAt` as `Char.toNat`,
  and the JavaScript remainder operator `%` (which truncates towards
  zero) as `Int.tmod`.
-/

/-- An edge of the graph model, as in every visualizer's `Edge`
interface; the `id` display string is dropped. -/
structure Edge where
  «from» : ℕ
  «to» : ℕ
  weight : ℤ
deriving DecidableEq, Repr

/-- Distance values: a JavaScript number or `Infinity`. -/
abbrev DistVal := WithTop ℤ

/-- Snapshot of the first `n` entries of a distance array. -/
def snapDist (n : ℕ) (d : ℕ → DistVal) : List DistVal :=
  (List.range n).map d

/-- Snapshot of the first `n` entries of a `previous` array. -/
def snapPrev (n : ℕ) (p : ℕ → Option ℕ) : List (Option ℕ) :=
  (List.range n).map p

/-! ## Bellman-Ford (`BellmanFordVisualizer.tsx`, `bellmanFordAlgorithm`) -/

/-- The mutable state of `bellmanFordAlgorithm`: the `distances` and
`previous` arrays. -/
structure BFState where
  dist : ℕ → DistVal
  prev : ℕ → Option ℕ

/-- Which push-site of `bellmanFordAlgorithm` produced a step. -/
inductive BFKind where
  | init
  | passStart
  | relax
  | earlyStop
  | checkStart
  | negCycleFound
  | noNegCycle
deriving DecidableEq, Repr

/-- One `BellmanFordStep` of the trace. -/
structure BFStep where
  kind : BFKind
  distances : List DistVal
  previous : List (Option ℕ)
  currentEdge : Option Edge
  relaxationCount : ℕ
  hasNegativeCycle : Bool
deriving DecidableEq, Repr

/-- The relaxation test of the source:
`distances[edge.from] !== Infinity && distances[edge.from] + edge.weight < distances[edge.to]`. -/
def bfRelaxable (d : ℕ → DistVal) (e : Edge) : Prop :=
  d e.«from» ≠ ⊤ ∧ d e.«from» + (e.weight : DistVal) < d e.«to»

instance (d : ℕ → DistVal) (e : Edge) : Decidable (bfRelaxable d e) := by
  unfold bfRelaxable; infer_instance

/-- Relax the edge `e`, updating `distances[e.to]` and `previous[e.to]`. -/
def bfRelax (s : BFState) (e : Edge) : BFState :=
  { dist := Function.update s.dist e.«to» (s.dist e.«from» + (e.weight : DistVal)),
    prev := Function.update s.prev e.«to» (some e.«from») }

/-- The inner `for (const edge of edges)` loop of one relaxation pass.
Returns the state, whether any edge was relaxed, the updated
`relaxationCount` and the emitted steps. -/
def bfRelaxEdges (n : ℕ) (rc : ℕ) (s : BFState) :
    List Edge → BFState × Bool × ℕ × List BFStep
  | [] => (s, false, rc, [])
  | e :: es =>
    if bfRelaxable s.dist e then
      let s' := bfRelax s e
      let st : BFStep :=
        { kind := .relax, distances := snapDist n s'.dist,
          previous := snapPrev n s'.prev, currentEdge := some e,
          relaxationCount := rc + 1, hasNegativeCycle := false }
      let r := bfRelaxEdges n (rc + 1) s' es
      (r.1, true, r.2.2.1, st :: r.2.2.2)
    else
      bfRelaxEdges n rc s es

/-- The outer `for (let i = 0; i < vertices - 1; i++)` loop,
with its early `break` when a pass relaxes nothing. -/
def bfPasses (n : ℕ) (edges : List Edge) :
    ℕ → BFState → ℕ → BFState × ℕ × List BFStep
  | 0, s, rc => (s, rc, [])
  | iters + 1, s, rc =>
    let startStep : BFStep :=
      { kind := .passStart, distances := snapDist n s.dist,
        previous := snapPrev n s.prev, currentEdge := none,
        relaxationCount := rc, hasNegativeCycle := false }
    let r := bfRelaxEdges n rc s edges
    if r.2.1 then
      let r' := bfPasses n edges iters r.1 r.2.2.1
      (r'.1, r'.2.1, startStep :: (r.2.2.2 ++ r'.2.2))
    else
      (r.1, r.2.2.1,
        startStep :: (r.2.2.2 ++
          [{ kind := .earlyStop, distances := snapDist n r.1.dist,
             previous := snapPrev n r.1.prev, currentEdge := none,
             relaxationCount := r.2.2.1, hasNegativeCycle := false }]))

/-- The initial state: `distances` all `Infinity` except the source at
`0`, `previous` all `null`. -/
def bfInitState (sv : ℕ) : BFState :=
  { dist := fun v => if v = sv then (0 : DistVal) else ⊤,
    prev := fun _ => none }

/-- The whole of `bellmanFordAlgorithm`: the trace, together with the
state reached after the main relaxation passes (which the
negative-cycle check reads but never modifies). -/
def bfRun (n : ℕ) (edges : List Edge) (sv : ℕ) :
    List BFStep × BFState :=
  let s0 := bfInitState sv
  let initStep : BFStep :=
    { kind := .init, distances := snapDist n s0.dist,
      previous := snapPrev n s0.prev, currentEdge := none,
      relaxationCount := 0, hasNegativeCycle := false }
  let r := bfPasses n edges (n - 1) s0 0
  let checkStep : BFStep :=
    { kind := .checkStart, distances := snapDist n r.1.dist,
      previous := snapPrev n r.1.prev, currentEdge := none,
      relaxationCount := r.2.1, hasNegativeCycle := false }
  let finalStep : BFStep :=
    match edges.find? (fun e => decide (bfRelaxable r.1.dist e)) with
    | some e =>
      { kind := .negCycleFound, distances := snapDist n r.1.dist,
        previous := snapPrev n r.1.prev, currentEdge := some e,
        relaxationCount := r.2.1, hasNegativeCycle := true }
    | none =>
      { kind := .noNegCycle, distances := snapDist n r.1.dist,
        previous := snapPrev n r.1.prev, currentEdge := none,
        relaxationCount := r.2.1, hasNegativeCycle := false }
  ((initStep :: r.2.2) ++ [checkStep, finalStep], r.1)

/-- The trace of `bellmanFordAlgorithm`. -/
def bellmanFordAlgorithm (n : ℕ) (edges : List Edge) (sv : ℕ) :
    List BFStep :=
  (bfRun n edges sv).1

/-- The `distances`/`previous` state after the main relaxation passes. -/
def bfMainState (n : ℕ) (edges : List Edge) (sv : ℕ) : BFState :=
  (bfRun n edges sv).2

/-- The last element of a trace of the form `init :: (main ++ [check, final])`. -/
theorem getLast?_cons_append_pair {α : Type} (x a b : α) (l : List α) :
    (x :: (l ++ [a, b])).getLast? = some b := by
  rw [show x :: (l ++ [a, b]) = (x :: (l ++ [a])) ++ [b] by simp]
  exact List.getLast?_concat _

/-- C5: the Bellman-Ford trace always ends with a negative-cycle
verdict step, its `hasNegativeCycle` flag is `true` exactly when some
edge of the input list is still relaxable after the main passes
(`distances[from] ≠ ∞` and `distances[from] + weight < distances[to]`),
and the kind of the last step matches the flag. -/
theorem bellmanFord_last_step_negcycle (n : ℕ) (edges : List Edge) (sv : ℕ) :
    ∃ last, (bellmanFordAlgorithm n edges sv).getLast? = some last ∧
      (last.hasNegativeCycle = true ↔
        ∃ e ∈ edges, bfRelaxable (bfMainState n edges sv).dist e) ∧
      (last.hasNegativeCycle = true → last.kind = BFKind.negCycleFound) ∧
      (last.hasNegativeCycle = false → last.kind = BFKind.noNegCycle) := by
  simp only [bellmanFordAlgorithm, bfMainState, bfRun]
  cases h : edges.find? (fun e => decide (bfRelaxable (bfPasses n edges (n - 1) (bfInitState sv) 0).1.dist e)) with
  | some ed =>
    simp only [h, List.cons_append]
    refine ⟨_, getLast?_cons_append_pair _ _ _ _, ?_, fun _ => rfl, by simp⟩
    constructor
    · intro _
      have hp := List.find?_some h
      exact ⟨ed, List.mem_of_find?_eq_some h, of_decide_eq_true hp⟩
    · intro _; rfl
  | none =>
    simp only [h, List.cons_append]
    refine ⟨_, getLast?_cons_append_pair _ _ _ _, ?_, by simp, fun _ => rfl⟩
    constructor
    · intro hc; cases hc
    · rintro ⟨e, he, hrel⟩
      have := List.find?_eq_none.mp h e he
      simp [hrel] at this

/-- C10: the negative-cycle check of Bellman-Ford does not modify the
algorithm state: the trace ends with the "check for negative cycles"
step followed by the verdict step, and both record identical
`distances` and `previous` arrays. -/
theorem bellmanFord_check_preserves_state (n : ℕ) (edges : List Edge) (sv : ℕ) :
    ∃ pre check last, bellmanFordAlgorithm n edges sv = pre ++ [check, last] ∧
      check.kind = BFKind.checkStart ∧
      (last.kind = BFKind.negCycleFound ∨ last.kind = BFKind.noNegCycle) ∧
      last.distances = check.distances ∧ last.previous = check.previous := by
  simp only [bellmanFordAlgorithm, bfRun]
  cases h : edges.find? (fun e => decide (bfRelaxable (bfPasses n edges (n - 1) (bfInitState sv) 0).1.dist e)) with
  | some ed =>
    simp only [h, List.cons_append]
    exact ⟨_ :: _, _, _, rfl, rfl, Or.inl rfl, rfl, rfl⟩
  | none =>
    simp only [h, List.cons_append]
    exact ⟨_ :: _, _, _, rfl, rfl, Or.inr rfl, rfl, rfl⟩

/-! ## Naive string matching (`NaiveVisualizer.tsx`, `naiveSearch`)

JavaScript character accesses `text[i] === pattern[j]` are modelled as
`text.get? i = pattern.get? j`: an out-of-range access yields
`undefined` in JavaScript, which is `===`-equal to no character, and
`none` here.  The step fields `textIndex`/`patternIndex`/`windowStart`
are natural numbers; in the degenerate final steps where the source
stores `-1` (empty text) the value is truncated to `0`. -/

/-- Which push-site of `naiveSearch` produced a step. -/
inductive NaiveKind where
  | init
  | windowStart
  | charMatch
  | completeMatch
  | mismatch
  | shift
  | complete
deriving DecidableEq, Repr

/-- One `NaiveStep` of the trace. -/
structure NaiveStep where
  kind : NaiveKind
  textIndex : ℕ
  patternIndex : ℕ
  windowStart : ℕ
  isMatch : Bool
  isCompleteMatch : Bool
  «matches» : List ℕ
  comparisons : ℕ
deriving DecidableEq, Repr

/-- The inner `while (j < m && text[i + j] === pattern[j])` loop of
`naiveSearch`.  `fuel` is called with `pattern.length`, which is
exactly enough since `j` starts at `0` and the loop stops at
`j = pattern.length` at the latest.  Returns the emitted steps, the
final `j` and the updated comparison counter. -/
def naiveScan (t p : List Char) (i : ℕ) (ms : List ℕ) :
    ℕ → ℕ → ℕ → List NaiveStep × ℕ × ℕ
  | 0, j, comps => ([], j, comps)
  | fuel + 1, j, comps =>
    if j < p.length ∧ t.get? (i + j) = p.get? j then
      let st : NaiveStep :=
        { kind := .charMatch, textIndex := i + j, patternIndex := j,
          windowStart := i, isMatch := true, isCompleteMatch := false,
          «matches» := ms, comparisons := comps + 1 }
      let r := naiveScan t p i ms fuel (j + 1) (comps + 1)
      (st :: r.1, r.2)
    else ([], j, comps)

/-- One window of the outer loop of `naiveSearch`: the "starting new
window" step, the inner comparison loop, the complete-match or
mismatch step, and the shift step.  Returns steps, updated matches and
updated comparison counter. -/
def naiveWindow (t p : List Char) (i : ℕ) (ms : List ℕ) (comps : ℕ) :
    List NaiveStep × List ℕ × ℕ :=
  let n := t.length
  let m := p.length
  let startStep : NaiveStep :=
    { kind := .windowStart, textIndex := i, patternIndex := 0,
      windowStart := i, isMatch := false, isCompleteMatch := false,
      «matches» := ms, comparisons := comps }
  let r := naiveScan t p i ms m 0 comps
  let j := r.2.1
  let comps' := r.2.2
  let after :
      List NaiveStep × List ℕ × ℕ :=
    if j = m then
      let ms' := ms ++ [i]
      ([{ kind := .completeMatch, textIndex := i + j - 1,
          patternIndex := j - 1, windowStart := i, isMatch := true,
          isCompleteMatch := true, «matches» := ms',
          comparisons := comps' }], ms', comps')
    else if i + j < n then
      ([{ kind := .mismatch, textIndex := i + j, patternIndex := j,
          windowStart := i, isMatch := false, isCompleteMatch := false,
          «matches» := ms, comparisons := comps' + 1 }], ms, comps' + 1)
    else ([], ms, comps')
  let shiftSteps : List NaiveStep :=
    if i < n - m then
      [{ kind := .shift, textIndex := i + 1, patternIndex := 0,
         windowStart := i + 1, isMatch := false,
         isCompleteMatch := false, «matches» := after.2.1,
         comparisons := after.2.2 }]
    else []
  (startStep :: (r.1 ++ after.1 ++ shiftSteps), after.2.1, after.2.2)

/-- The outer `for (let i = 0; i <= n - m; i++)` loop of
`naiveSearch`, iterated `count` times from window start `i`. -/
def naiveWindows (t p : List Char) :
    ℕ → ℕ → List ℕ → ℕ → List NaiveStep × List ℕ × ℕ
  | 0, _, ms, comps => ([], ms, comps)
  | count + 1, i, ms, comps =>
    let r := naiveWindow t p i ms comps
    let r' := naiveWindows t p count (i + 1) r.2.1 r.2.2
    (r.1 ++ r'.1, r'.2)

/-- The trace and matches of `naiveSearch`.  The outer loop runs for
window starts `0 .. n - m` when `m ≤ n` and not at all otherwise
(in JavaScript `n - m` is then negative). -/
def naiveSearch (t p : List Char) : List NaiveStep × List ℕ :=
  let n := t.length
  let m := p.length
  let initStep : NaiveStep :=
    { kind := .init, textIndex := 0, patternIndex := 0,
      windowStart := 0, isMatch := false, isCompleteMatch := false,
      «matches» := [], comparisons := 0 }
  let r :=
    if m ≤ n then naiveWindows t p (n - m + 1) 0 [] 0
    else ([], [], 0)
  let finalStep : NaiveStep :=
    { kind := .complete, textIndex := n - 1, patternIndex := 0,
      windowStart := n - m, isMatch := false, isCompleteMatch := false,
      «matches» := r.2.1, comparisons := r.2.2 }
  (initStep :: (r.1 ++ [finalStep]), r.2.1)

/-! ## KMP (`KMPVisualizer.tsx`, `buildFailureFunction` / `kmpSearch`) -/

/-- The `while (i < pattern.length)` loop of `buildFailureFunction`.
`fuel` decreases on every iteration; `2 * pattern.length + 1` is
enough, since every iteration either advances `i` (at most
`pattern.length` times) or strictly decreases `len`, which only ever
grows together with `i`. -/
def buildLpsAux (p : List Char) : ℕ → ℕ → ℕ → List ℕ → List ℕ
  | 0, _, _, lps => lps
  | fuel + 1, i, len, lps =>
    if i < p.length then
      if p.get? i = p.get? len then
        buildLpsAux p fuel (i + 1) (len + 1) (lps.set i (len + 1))
      else if len ≠ 0 then
        buildLpsAux p fuel i (lps.getD (len - 1) 0) lps
      else
        buildLpsAux p fuel (i + 1) len (lps.set i 0)
    else lps

/-- `buildFailureFunction`: the LPS (failure-function) array of the
pattern. -/
def buildFailureFunction (p : List Char) : List ℕ :=
  buildLpsAux p (2 * p.length + 1) 1 0 (List.replicate p.length 0)

/-- Which push-site of `kmpSearch` produced a step. -/
inductive KMPKind where
  | init
  | charMatch
  | completeMatch
  | mismatch
  | fallback
  | complete
deriving DecidableEq, Repr

/-- One `KMPStep` of the trace. -/
structure KMPStep where
  kind : KMPKind
  textIndex : ℕ
  patternIndex : ℕ
  isMatch : Bool
  «matches» : List ℕ
deriving DecidableEq, Repr

/-- The `while (textIndex < text.length)` loop of `kmpSearch`.
`fuel` decreases on every iteration; `2 * text.length + 1` is enough
(the measure `2 * (text.length - textIndex) + patternIndex` strictly
decreases, since the failure function satisfies `lps[k] ≤ k`). -/
def kmpLoop (t p : List Char) (lps : List ℕ) :
    ℕ → ℕ → ℕ → List ℕ → List KMPStep × List ℕ
  | 0, _, _, ms => ([], ms)
  | fuel + 1, ti, pi, ms =>
    if ti < t.length then
      if t.get? ti = p.get? pi then
        let st : KMPStep :=
          { kind := .charMatch, textIndex := ti, patternIndex := pi,
            isMatch := true, «matches» := ms }
        if pi + 1 = p.length then
          let ms' := ms ++ [ti + 1 - (pi + 1)]
          let st2 : KMPStep :=
            { kind := .completeMatch, textIndex := ti,
              patternIndex := pi, isMatch := true, «matches» := ms' }
          let r := kmpLoop t p lps fuel (ti + 1) (lps.getD pi 0) ms'
          (st :: st2 :: r.1, r.2)
        else
          let r := kmpLoop t p lps fuel (ti + 1) (pi + 1) ms
          (st :: r.1, r.2)
      else
        let st : KMPStep :=
          { kind := .mismatch, textIndex := ti, patternIndex := pi,
            isMatch := false, «matches» := ms }
        if pi ≠ 0 then
          let pi' := lps.getD (pi - 1) 0
          let st2 : KMPStep :=
            { kind := .fallback, textIndex := ti, patternIndex := pi',
              isMatch := false, «matches» := ms }
          let r := kmpLoop t p lps fuel ti pi' ms
          (st :: st2 :: r.1, r.2)
        else
          let r := kmpLoop t p lps fuel (ti + 1) pi ms
          (st :: r.1, r.2)
    else ([], ms)

/-- The trace and matches of `kmpSearch`. -/
def kmpSearch (t p : List Char) : List KMPStep × List ℕ :=
  let lps := buildFailureFunction p
  let initStep : KMPStep :=
    { kind := .init, textIndex := 0, patternIndex := 0,
      isMatch := false, «matches» := [] }
  let r := kmpLoop t p lps (2 * t.length + 1) 0 0 []
  let finalStep : KMPStep :=
    { kind := .complete, textIndex := t.length - 1, patternIndex := 0,
      isMatch := false, «matches» := r.2 }
  (initStep :: (r.1 ++ [finalStep]), r.2)

/-! ## Rabin-Karp (`RabinKarpVisualizer.tsx` source, `rabinKarpSearch`)

`charCodeAt(0)` is `Char.toNat`; the JavaScript remainder `%`
(truncating towards zero) is `Int.tmod`. -/

/-- `charToNum`. -/
def charToNum (c : Char) : ℤ := c.toNat

/-- `calculateHash(str, length)`: Horner-rule hash of the first
`length` characters, reducing `% prime` at every step. -/
def calculateHash (base prime : ℤ) (str : List Char) (length : ℕ) : ℤ :=
  (str.take length).foldl (fun hash c => Int.tmod (hash * base + charToNum c) prime) 0

/-- `calculateRollingHash(oldHash, oldChar, newChar, pow)`. -/
def calculateRollingHash (base prime : ℤ) (oldHash : ℤ)
    (oldChar newChar : Char) (pow : ℤ) : ℤ :=
  let newHash := oldHash - Int.tmod (charToNum oldChar * pow) prime
  let newHash2 := Int.tmod (newHash * base + charToNum newChar) prime
  if newHash2 < 0 then newHash2 + prime else newHash2

/-- The `pow = (pow * base) % prime` loop, iterated `k` times from `1`. -/
def rkPowAux (base prime : ℤ) : ℕ → ℤ
  | 0 => 1
  | k + 1 => Int.tmod (rkPowAux base prime k * base) prime

/-- The power used by the rolling hash: `base^(m-1) % prime`,
computed by `m - 1` modular multiplications. -/
def rkPow (base prime : ℤ) (m : ℕ) : ℤ := rkPowAux base prime (m - 1)

/-- The chain of window hashes of `rabinKarpSearch`: window `0` is
hashed directly, window `i + 1` is obtained from window `i` by
`calculateRollingHash` with `oldChar = text[i]` and
`newChar = text[i + m]`.  (Out-of-range accesses, which the claims
exclude, default to `'A'`.) -/
def rkWindowHash (base prime : ℤ) (text : List Char) (m : ℕ) : ℕ → ℤ
  | 0 => calculateHash base prime text m
  | i + 1 =>
    calculateRollingHash base prime (rkWindowHash base prime text m i)
      (text.getD i 'A') (text.getD (i + m) 'A') (rkPow base prime m)

/-- Which push-site of `rabinKarpSearch` produced a step. -/
inductive RKKind where
  | init
  | checkResult
  | rolling
  | complete
deriving DecidableEq, Repr

/-- One `RabinKarpStep` of the trace. -/
structure RKStep where
  kind : RKKind
  windowStart : ℕ
  currentWindow : List Char
  windowHash : ℤ
  patternHash : ℤ
  isHashMatch : Bool
  isExactMatch : Bool
  «matches» : List ℕ
deriving DecidableEq, Repr

/-- The `for (let i = 1; i <= n - m; i++)` rolling loop of
`rabinKarpSearch`, with `count` windows remaining. -/
def rkWindows (base prime : ℤ) (text pattern : List Char) (m : ℕ)
    (patternHash pow : ℤ) :
    ℕ → ℕ → ℤ → List ℕ → List RKStep × ℤ × List ℕ
  | 0, _, h, ms => ([], h, ms)
  | count + 1, i, h, ms =>
    let oldChar := text.getD (i - 1) 'A'
    let newChar := text.getD (i + m - 1) 'A'
    let currentWindow := (text.drop i).take m
    let h' := calculateRollingHash base prime h oldChar newChar pow
    let isHashMatch : Bool := h' = patternHash
    let rollStep : RKStep :=
      { kind := .rolling, windowStart := i, currentWindow := currentWindow,
        windowHash := h', patternHash := patternHash,
        isHashMatch := isHashMatch, isExactMatch := false,
        «matches» := ms }
    if isHashMatch then
      let isExact : Bool := currentWindow = pattern
      let ms' := if isExact then ms ++ [i] else ms
      let checkStep : RKStep :=
        { kind := .checkResult, windowStart := i,
          currentWindow := currentWindow, windowHash := h',
          patternHash := patternHash, isHashMatch := true,
          isExactMatch := isExact, «matches» := ms' }
      let r := rkWindows base prime text pattern m patternHash pow count (i + 1) h' ms'
      (rollStep :: checkStep :: r.1, r.2)
    else
      let r := rkWindows base prime text pattern m patternHash pow count (i + 1) h' ms
      (rollStep :: r.1, r.2)

/-- The trace and matches of `rabinKarpSearch`.  A pattern longer than
the text yields the empty trace and no matches. -/
def rabinKarpSearch (base prime : ℤ) (text pattern : List Char) :
    List RKStep × List ℕ :=
  let n := text.length
  let m := pattern.length
  if m > n then ([], [])
  else
    let patternHash := calculateHash base prime pattern m
    let pow := rkPow base prime m
    let windowHash := calculateHash base prime text m
    let firstWindow := text.take m
    let initStep : RKStep :=
      { kind := .init, windowStart := 0, currentWindow := firstWindow,
        windowHash := windowHash, patternHash := patternHash,
        isHashMatch := windowHash = patternHash, isExactMatch := false,
        «matches» := [] }
    let firstCheck : List RKStep × List ℕ :=
      if windowHash = patternHash then
        let isExact : Bool := firstWindow = pattern
        let ms := if isExact then [0] else []
        ([{ kind := .checkResult, windowStart := 0,
            currentWindow := firstWindow, windowHash := windowHash,
            patternHash := patternHash, isHashMatch := true,
            isExactMatch := isExact, «matches» := ms }], ms)
      else ([], [])
    let r := rkWindows base prime text pattern m patternHash pow (n - m) 1
      windowHash firstCheck.2
    let finalStep : RKStep :=
      { kind := .complete, windowStart := n - m,
        currentWindow := text.drop (n - m), windowHash := r.2.1,
        patternHash := patternHash, isHashMatch := false,
        isExactMatch := false, «matches» := r.2.2 }
    (initStep :: (firstCheck.1 ++ r.1 ++ [finalStep]), r.2.2)

/-! ### Correctness of the rolling hash (C7) -/

/-- `a.tmod b` is congruent to `a` modulo `b`. -/
theorem tmod_emod (a b : ℤ) : a.tmod b % b = a % b := by
  rw [Int.tmod_def, Int.sub_emod, Int.mul_emod_right]
  simp [Int.sub_emod]

/-- Truncating remainder of a negated dividend. -/
theorem neg_tmod' (a b : ℤ) : (-a).tmod b = -(a.tmod b) := by
  rw [Int.tmod_def, Int.tmod_def, Int.neg_tdiv]
  ring

/-- Lower bound of the truncating remainder. -/
theorem neg_lt_tmod (a : ℤ) {b : ℤ} (hb : 0 < b) : -b < a.tmod b := by
  rcases le_or_lt 0 a with h | h
  · have := Int.tmod_nonneg b h; omega
  · have h1 : (-a).tmod b < b := Int.tmod_lt_of_pos (-a) hb
    have h2 := neg_tmod' a b
    omega

/-- Reference Horner evaluation, with no modular reduction, starting
from accumulator `acc`. -/
def hornerAcc (base acc : ℤ) : List Char → ℤ
  | [] => acc
  | c :: w => hornerAcc base (acc * base + charToNum c) w

theorem hornerAcc_shift (base : ℤ) :
    ∀ (w : List Char) (a : ℤ),
      hornerAcc base a w = a * base ^ w.length + hornerAcc base 0 w := by
  intro w
  induction w with
  | nil => intro a; simp [hornerAcc]
  | cons c w ih =>
    intro a
    rw [hornerAcc, hornerAcc, ih (a * base + charToNum c), ih (0 * base + charToNum c)]
    rw [List.length_cons, pow_succ]
    ring

theorem hornerAcc_append (base a : ℤ) :
    ∀ (w : List Char) (c : Char),
      hornerAcc base a (w ++ [c]) = hornerAcc base a w * base + charToNum c := by
  intro w
  induction w generalizing a with
  | nil => intro c; simp [hornerAcc]
  | cons d w ih => intro c; rw [List.cons_append, hornerAcc, hornerAcc, ih]

theorem hornerAcc_mod_congr (base p : ℤ) (w : List Char) {a₁ a₂ : ℤ}
    (h : a₁ % p = a₂ % p) :
    hornerAcc base a₁ w % p = hornerAcc base a₂ w % p := by
  rw [hornerAcc_shift base w a₁, hornerAcc_shift base w a₂]
  exact Int.ModEq.add_right _ (Int.ModEq.mul_right _ h)

theorem charToNum_nonneg (c : Char) : 0 ≤ charToNum c := by
  simp [charToNum]

/-- The modular Horner fold used by `calculateHash` stays in
`[0, prime)` and is congruent to the reference evaluation. -/
theorem calcFold_spec (b p : ℤ) (hb : 0 < b) (hp : 0 < p) :
    ∀ (w : List Char) (h : ℤ), 0 ≤ h → h < p →
      0 ≤ w.foldl (fun hash c => Int.tmod (hash * b + charToNum c) p) h ∧
      w.foldl (fun hash c => Int.tmod (hash * b + charToNum c) p) h < p ∧
      w.foldl (fun hash c => Int.tmod (hash * b + charToNum c) p) h % p =
        hornerAcc b h w % p := by
  intro w
  induction w with
  | nil => intro h h0 hlt; exact ⟨h0, hlt, rfl⟩
  | cons c w ih =>
    intro h h0 hlt
    have hx : 0 ≤ h * b + charToNum c :=
      add_nonneg (mul_nonneg h0 hb.le) (charToNum_nonneg c)
    have h0' : 0 ≤ (h * b + charToNum c).tmod p := Int.tmod_nonneg p hx
    have hlt' : (h * b + charToNum c).tmod p < p := Int.tmod_lt_of_pos _ hp
    obtain ⟨r0, rlt, rmod⟩ := ih ((h * b + charToNum c).tmod p) h0' hlt'
    refine ⟨r0, rlt, ?_⟩
    rw [List.foldl_cons] at *
    rw [rmod, hornerAcc]
    exact hornerAcc_mod_congr b p w (tmod_emod _ _)

/-- `calculateHash` stays in `[0, prime)` and is congruent to the
reference Horner value of the hashed prefix. -/
theorem calculateHash_spec (b p : ℤ) (hb : 0 < b) (hp : 0 < p)
    (s : List Char) (len : ℕ) :
    0 ≤ calculateHash b p s len ∧ calculateHash b p s len < p ∧
    calculateHash b p s len % p = hornerAcc b 0 (s.take len) % p :=
  calcFold_spec b p hb hp (s.take len) 0 le_rfl hp

/-- `rkPowAux` is non-negative and congruent to `base ^ k`. -/
theorem rkPowAux_spec (b p : ℤ) (hb : 0 < b) (hp : 0 < p) :
    ∀ k : ℕ, 0 ≤ rkPowAux b p k ∧ rkPowAux b p k % p = b ^ k % p := by
  intro k
  induction k with
  | zero => simp [rkPowAux]
  | succ k ih =>
    obtain ⟨h0, hmod⟩ := ih
    constructor
    · exact Int.tmod_nonneg p (mul_nonneg h0 hb.le)
    · rw [rkPowAux, tmod_emod, pow_succ]
      exact Int.ModEq.mul_right b hmod

/-- The chain of rolling hashes stays in `[0, prime)` and each hash is
congruent to the reference Horner value of its window. -/
theorem rkWindowHash_spec (b p : ℤ) (hb : 0 < b) (hp : 0 < p)
    (t : List Char) (m : ℕ) (hm : 1 ≤ m) :
    ∀ i, i + m ≤ t.length →
      0 ≤ rkWindowHash b p t m i ∧ rkWindowHash b p t m i < p ∧
      rkWindowHash b p t m i % p = hornerAcc b 0 ((t.drop i).take m) % p := by
  intro i
  induction i with
  | zero =>
    intro hin
    have h := calculateHash_spec b p hb hp t m
    simpa [rkWindowHash] using h
  | succ i ih =>
    intro hin
    obtain ⟨H0, Hlt, Hmod⟩ := ih (by omega)
    obtain ⟨m', rfl⟩ : ∃ m', m = m' + 1 := ⟨m - 1, by omega⟩
    have hi : i < t.length := by omega
    have hiN : i + (m' + 1) < t.length := by omega
    have hdrop : t.drop i = t[i] :: t.drop (i + 1) :=
      List.drop_eq_getElem_cons hi
    have hlen' : m' ≤ (t.drop (i + 1)).length := by
      rw [List.length_drop]; omega
    have hm'lt : m' < (t.drop (i + 1)).length := by
      rw [List.length_drop]; omega
    -- the old window is the new window's head char plus a shared body
    have hwin_old : (t.drop i).take (m' + 1) = t[i] :: (t.drop (i + 1)).take m' := by
      rw [hdrop, List.take_succ_cons]
    -- the new window is the shared body plus the incoming char
    have hwin_new :
        (t.drop (i + 1)).take (m' + 1) =
          (t.drop (i + 1)).take m' ++ [t[i + (m' + 1)]] := by
      rw [List.take_succ, List.getElem?_eq_getElem hm'lt]
      congr 1
      simp [List.getElem_drop]
      congr 1
      omega
    have hgd_old : t.getD i 'A' = t[i] := List.getD_eq_getElem t 'A' hi
    have hgd_new : t.getD (i + (m' + 1)) 'A' = t[i + (m' + 1)] :=
      List.getD_eq_getElem t 'A' hiN
    obtain ⟨pow0, powmod⟩ := rkPowAux_spec b p hb hp m'
    set H := rkWindowHash b p t (m' + 1) i with hH
    set c₀ : ℤ := charToNum t[i] with hc₀
    have c₀0 : 0 ≤ c₀ := charToNum_nonneg _
    -- unfold one step of the chain
    have hstep : rkWindowHash b p t (m' + 1) (i + 1) =
        calculateRollingHash b p H (t.getD i 'A') (t.getD (i + (m' + 1)) 'A')
          (rkPow b p (m' + 1)) := rfl
    rw [hstep, hgd_old, hgd_new]
    set pw := rkPowAux b p m' with hpw
    have hrkpow : rkPow b p (m' + 1) = pw := by
      simp [rkPow, hpw]
    rw [hrkpow]
    simp only [calculateRollingHash]
    set cN : ℤ := charToNum t[i + (m' + 1)] with hcN
    have cN0 : 0 ≤ cN := charToNum_nonneg _
    set sub := Int.tmod (c₀ * pw) p with hsub
    have sub0 : 0 ≤ sub := Int.tmod_nonneg p (mul_nonneg c₀0 pow0)
    have sublt : sub < p := Int.tmod_lt_of_pos _ hp
    set n1 := H - sub with hn1
    set n2 := Int.tmod (n1 * b + cN) p with hn2
    have n2lt : n2 < p := Int.tmod_lt_of_pos _ hp
    have n2gt : -p < n2 := neg_lt_tmod _ hp
    -- congruences
    have hsubmod : sub % p = (c₀ * b ^ m') % p := by
      rw [hsub, tmod_emod]
      exact Int.ModEq.mul_left c₀ powmod
    have hbody :
        hornerAcc b 0 ((t.drop i).take (m' + 1)) =
          c₀ * b ^ m' + hornerAcc b 0 ((t.drop (i + 1)).take m') := by
      rw [hwin_old, hornerAcc, zero_mul, zero_add,
        hornerAcc_shift b _ c₀, List.length_take, min_eq_left hlen']
    have hn1mod : n1 % p = hornerAcc b 0 ((t.drop (i + 1)).take m') % p := by
      have h1 : n1 % p = (hornerAcc b 0 ((t.drop i).take (m' + 1)) - c₀ * b ^ m') % p := by
        rw [hn1]
        exact Int.ModEq.sub Hmod hsubmod
      rw [h1, hbody]
      ring_nf
    have hn2mod : n2 % p = hornerAcc b 0 ((t.drop (i + 1)).take (m' + 1)) % p := by
      rw [hn2, tmod_emod, hwin_new, hornerAcc_append]
      exact Int.ModEq.add_right cN (Int.ModEq.mul_right b hn1mod)
    by_cases hneg : n2 < 0
    · have hmodp : (n2 + p) % p = n2 % p := by
        simpa using Int.add_mul_emod_self_left (a := n2) (b := p) (c := 1)
      rw [if_pos hneg]
      exact ⟨by omega, by omega, by rw [hmodp, hn2mod]⟩
    · rw [if_neg hneg]
      exact ⟨by omega, n2lt, hn2mod⟩

/-- C7, counterexample: as stated the claim includes the empty pattern
(`m = 0`), where the rolling-hash update does not reproduce the direct
hash of the (empty) window: with text `"A"`, `m = 0`, `base = 256`,
`prime = 101`, window start `i = 1` (which satisfies every side
condition of the claim), the rolling value is `90` but the direct
Horner hash of the empty window is `0`. -/
theorem calculateRollingHash_empty_pattern_cex :
    (0 : ℤ) < 256 ∧ (0 : ℤ) < 101 ∧ (0 : ℕ) + 1 ≤ (['A'] : List Char).length ∧
    1 + 0 ≤ (['A'] : List Char).length ∧
    rkWindowHash 256 101 ['A'] 0 1 ≠
      calculateHash 256 101 (List.drop 1 ['A']) 0 := by decide

/-- C7 (amended: the pattern must be non-empty, `1 ≤ m`): for every
text, positive base and prime, and window start `1 ≤ i` with
`i + m ≤ text.length`, the rolling-hash value computed by
`calculateRollingHash` from the previous window's hash equals the
direct Horner-rule hash of the window `text[i..i+m)` modulo the prime,
and lies in `[0, prime)`. -/
theorem calculateRollingHash_window_correct (base prime : ℤ) (text : List Char)
    (m : ℕ) (hb : 0 < base) (hp : 0 < prime) (hm : 1 ≤ m) (i : ℕ)
    (hi : 1 ≤ i) (hin : i + m ≤ text.length) :
    rkWindowHash base prime text m i = calculateHash base prime (text.drop i) m ∧
    0 ≤ rkWindowHash base prime text m i ∧
    rkWindowHash base prime text m i < prime := by
  obtain ⟨h0, hlt, hmod⟩ := rkWindowHash_spec base prime hb hp text m hm i hin
  obtain ⟨h0', hlt', hmod'⟩ := calculateHash_spec base prime hb hp (text.drop i) m
  refine ⟨?_, h0, hlt⟩
  have hmm : rkWindowHash base prime text m i % prime =
      calculateHash base prime (text.drop i) m % prime := by
    rw [hmod, hmod']
  rw [Int.emod_eq_of_lt h0 hlt, Int.emod_eq_of_lt h0' hlt'] at hmm
  exact hmm

/-- Witness for the amended C7 at text `"AB"`, pattern length `1`,
base `256`, prime `101`, window start `1`. -/
theorem calculateRollingHash_window_correct_witness :
    (0 : ℤ) < 256 ∧ (0 : ℤ) < 101 ∧ 1 ≤ 1 ∧
    1 + 1 ≤ (['A', 'B'] : List Char).length ∧
    (rkWindowHash 256 101 ['A', 'B'] 1 1 =
       calculateHash 256 101 (List.drop 1 ['A', 'B']) 1 ∧
     0 ≤ rkWindowHash 256 101 ['A', 'B'] 1 1 ∧
     rkWindowHash 256 101 ['A', 'B'] 1 1 < 101) :=
  ⟨by decide, by decide, by decide, by decide,
   calculateRollingHash_window_correct 256 101 ['A', 'B'] 1 (by decide)
     (by decide) (by decide) 1 (by decide) (by decide)⟩

/-! ### Pattern longer than text (C4) and KMP groundwork -/

/-- `getD` after `set`. -/
theorem getD_set (l : List ℕ) (i k v d : ℕ) :
    (l.set i v).getD k d =
      if i = k ∧ i < l.length then v else l.getD k d := by
  rw [List.getD_eq_getElem?_getD, List.getD_eq_getElem?_getD, List.getElem?_set]
  by_cases h1 : i = k
  · subst h1
    by_cases h2 : i < l.length
    · simp [h2]
    · have : l[i]? = none := List.getElem?_eq_none (by omega)
      simp [h2, this]
  · simp [h1]

/-- Every entry of `replicate n 0` read through `getD _ 0` is `0`. -/
theorem getD_replicate_zero (n k : ℕ) :
    (List.replicate n (0 : ℕ)).getD k 0 = 0 := by
  rw [List.getD_eq_getElem?_getD, List.getElem?_replicate]
  by_cases h : k < n <;> simp [h]

/-- Invariant of the failure-function loop: every stored LPS entry is
at most its index. -/
theorem buildLpsAux_le (p : List Char) :
    ∀ (fuel i len : ℕ) (lps : List ℕ),
      (∀ k, lps.getD k 0 ≤ k) → len < i →
      ∀ k, (buildLpsAux p fuel i len lps).getD k 0 ≤ k := by
  intro fuel
  induction fuel with
  | zero => intro i len lps hinv hlen k; exact hinv k
  | succ fuel ih =>
    intro i len lps hinv hlen k
    rw [buildLpsAux]
    by_cases hi : i < p.length
    · rw [if_pos hi]
      by_cases hc : p.get? i = p.get? len
      · rw [if_pos hc]
        refine ih (i + 1) (len + 1) _ ?_ (by omega) k
        intro k'
        rw [getD_set]
        by_cases hk : i = k' ∧ i < lps.length
        · rw [if_pos hk]; omega
        · rw [if_neg hk]; exact hinv k'
      · rw [if_neg hc]
        by_cases hlz : len ≠ 0
        · rw [if_pos hlz]
          refine ih i (lps.getD (len - 1) 0) lps hinv ?_ k
          have := hinv (len - 1)
          omega
        · rw [if_neg hlz]
          refine ih (i + 1) len _ ?_ (by omega) k
          intro k'
          rw [getD_set]
          by_cases hk : i = k' ∧ i < lps.length
          · rw [if_pos hk]; omega
          · rw [if_neg hk]; exact hinv k'
    · rw [if_neg hi]; exact hinv k

/-- The failure function satisfies `lps[k] ≤ k` at every index. -/
theorem buildFailureFunction_le (p : List Char) (k : ℕ) :
    (buildFailureFunction p).getD k 0 ≤ k := by
  unfold buildFailureFunction
  exact buildLpsAux_le p _ 1 0 _ (fun k' => by rw [getD_replicate_zero]; omega)
    (by omega) k

/-- If the pattern is longer than the text, the KMP search loop never
records a match (the pattern index can never reach the pattern
length). -/
theorem kmpLoop_matches_of_long (t p : List Char) (hlong : t.length < p.length) :
    ∀ (fuel ti pi : ℕ) (ms : List ℕ), pi ≤ ti →
      (kmpLoop t p (buildFailureFunction p) fuel ti pi ms).2 = ms := by
  intro fuel
  induction fuel with
  | zero => intro ti pi ms hpt; rfl
  | succ fuel ih =>
    intro ti pi ms hpt
    rw [kmpLoop]
    by_cases hti : ti < t.length
    · rw [if_pos hti]
      by_cases hc : t.get? ti = p.get? pi
      · rw [if_pos hc]
        have hne : ¬(pi + 1 = p.length) := by omega
        rw [if_neg hne]
        exact ih (ti + 1) (pi + 1) ms (by omega)
      · rw [if_neg hc]
        by_cases hpz : pi ≠ 0
        · rw [if_pos hpz]
          refine ih ti ((buildFailureFunction p).getD (pi - 1) 0) ms ?_
          have := buildFailureFunction_le p (pi - 1)
          omega
        · rw [if_neg hpz]
          exact ih (ti + 1) pi ms (by omega)
    · rw [if_neg hti]

/-- C4, counterexample: with text `"A"` and pattern `"AB"` (pattern
strictly longer), the Naive and KMP engines do *not* return an empty
trace — only Rabin-Karp does. -/
theorem pattern_longer_empty_trace_cex :
    (['A'] : List Char).length < (['A', 'B'] : List Char).length ∧
    (naiveSearch ['A'] ['A', 'B']).1 ≠ [] ∧
    (kmpSearch ['A'] ['A', 'B']).1 ≠ [] := by decide

/-- C4 (amended): when the pattern is strictly longer than the text,
Rabin-Karp returns an empty trace (and no matches); Naive returns a
trace of exactly two steps (initialization and completion) and no
matches; KMP returns a non-empty trace and no matches.  All three
engines return normally. -/
theorem pattern_longer_than_text_traces (base prime : ℤ) (t p : List Char)
    (h : t.length < p.length) :
    (rabinKarpSearch base prime t p).1 = [] ∧
    (rabinKarpSearch base prime t p).2 = [] ∧
    (naiveSearch t p).1.length = 2 ∧
    (naiveSearch t p).2 = [] ∧
    (kmpSearch t p).1 ≠ [] ∧
    (kmpSearch t p).2 = [] := by
  have hrk : (rabinKarpSearch base prime t p) = ([], []) := by
    rw [rabinKarpSearch]
    simp only [if_pos (show p.length > t.length from h)]
  have hnv : ¬(p.length ≤ t.length) := by omega
  have hkmp : (kmpSearch t p).2 = [] :=
    kmpLoop_matches_of_long t p h _ 0 0 [] le_rfl
  refine ⟨by rw [hrk], by rw [hrk], ?_, ?_, ?_, hkmp⟩
  · simp only [naiveSearch, if_neg hnv]
    rfl
  · simp only [naiveSearch, if_neg hnv]
  · simp only [kmpSearch]
    exact List.cons_ne_nil _ _

/-- Witness for the amended C4 at text `"A"`, pattern `"AB"`,
base `256`, prime `101`. -/
theorem pattern_longer_than_text_traces_witness :
    (['A'] : List Char).length < (['A', 'B'] : List Char).length ∧
    ((rabinKarpSearch 256 101 ['A'] ['A', 'B']).1 = [] ∧
     (rabinKarpSearch 256 101 ['A'] ['A', 'B']).2 = [] ∧
     (naiveSearch ['A'] ['A', 'B']).1.length = 2 ∧
     (naiveSearch ['A'] ['A', 'B']).2 = [] ∧
     (kmpSearch ['A'] ['A', 'B']).1 ≠ [] ∧
     (kmpSearch ['A'] ['A', 'B']).2 = []) :=
  ⟨by decide, pattern_longer_than_text_traces 256 101 ['A'] ['A', 'B'] (by decide)⟩

/-! ## Dijkstra (`part_000` source, `dijkstraAlgorithm`)

The `shortestPaths` display field of each step (paths reconstructed
from `previous` for rendering) is dropped; every other field is kept. -/

/-- The mutable state of `dijkstraAlgorithm`. -/
structure DState where
  dist : ℕ → DistVal
  visited : ℕ → Bool
  prev : ℕ → Option ℕ

/-- Snapshot of the first `n` entries of a `visited` array. -/
def snapVisited (n : ℕ) (vis : ℕ → Bool) : List Bool :=
  (List.range n).map vis

/-- Which push-site of `dijkstraAlgorithm` produced a step. -/
inductive DKind where
  | init
  | select
  | mark
  | relax
  | complete
deriving DecidableEq, Repr

/-- One `DijkstraStep` of the trace (minus `shortestPaths`). -/
structure DStep where
  kind : DKind
  distances : List DistVal
  visited : List Bool
  previous : List (Option ℕ)
  currentVertex : Option ℕ
  minVertex : Option ℕ
deriving DecidableEq, Repr

/-- The symmetric adjacency view: each edge contributes a
`(to, weight)` entry to its `from` vertex's list and a reversed
`(from, weight)` entry to its `to` vertex's list, in edge-list
order. -/
def adjList (edges : List Edge) (u : ℕ) : List (ℕ × ℤ) :=
  edges.foldl
    (fun acc e =>
      (acc ++ (if e.«from» = u then [(e.«to», e.weight)] else [])) ++
        (if e.«to» = u then [(e.«from», e.weight)] else []))
    []

/-- The scan for the unvisited vertex of minimum distance
(`distances[v] < minDistance`, ties keep the earlier vertex);
`none` models `minVertex === -1`. -/
def dijkstraFindMin (n : ℕ) (d : ℕ → DistVal) (vis : ℕ → Bool) : Option ℕ :=
  ((List.range n).foldl
    (fun acc v => if vis v = false ∧ d v < acc.1 then (d v, some v) else acc)
    ((⊤ : DistVal), none)).2

/-- The `adjList[minVertex].forEach` relaxation loop. -/
def dijkstraRelaxNeighbors (n u : ℕ) :
    List (ℕ × ℤ) → DState → DState × List DStep
  | [], st => (st, [])
  | (v, w) :: rest, st =>
    if st.visited v = false ∧ st.dist u + (w : DistVal) < st.dist v then
      let st' : DState :=
        { st with dist := Function.update st.dist v (st.dist u + (w : DistVal)),
                  prev := Function.update st.prev v (some u) }
      let step : DStep :=
        { kind := .relax, distances := snapDist n st'.dist,
          visited := snapVisited n st'.visited,
          previous := snapPrev n st'.prev, currentVertex := some u,
          minVertex := none }
      let r := dijkstraRelaxNeighbors n u rest st'
      (r.1, step :: r.2)
    else dijkstraRelaxNeighbors n u rest st

/-- The `for (let count = 0; count < vertices; count++)` loop of
`dijkstraAlgorithm`, with its early `break` when no unvisited vertex
has finite distance. -/
def dijkstraLoop (n : ℕ) (edges : List Edge) :
    ℕ → DState → DState × List DStep
  | 0, st => (st, [])
  | count + 1, st =>
    match dijkstraFindMin n st.dist st.visited with
    | none => (st, [])
    | some u =>
      let selectStep : DStep :=
        { kind := .select, distances := snapDist n st.dist,
          visited := snapVisited n st.visited,
          previous := snapPrev n st.prev, currentVertex := none,
          minVertex := some u }
      let st' : DState := { st with visited := Function.update st.visited u true }
      let markStep : DStep :=
        { kind := .mark, distances := snapDist n st'.dist,
          visited := snapVisited n st'.visited,
          previous := snapPrev n st'.prev, currentVertex := some u,
          minVertex := none }
      let r := dijkstraRelaxNeighbors n u (adjList edges u) st'
      let r' := dijkstraLoop n edges count r.1
      (r'.1, selectStep :: markStep :: (r.2 ++ r'.2))

/-- The initial Dijkstra state. -/
def dijkstraInit (sv : ℕ) : DState :=
  { dist := fun v => if v = sv then (0 : DistVal) else ⊤,
    visited := fun _ => false,
    prev := fun _ => none }

/-- The whole of `dijkstraAlgorithm`: the trace and the final state. -/
def dijkstraRun (n : ℕ) (edges : List Edge) (sv : ℕ) :
    List DStep × DState :=
  let st0 := dijkstraInit sv
  let initStep : DStep :=
    { kind := .init, distances := snapDist n st0.dist,
      visited := snapVisited n st0.visited,
      previous := snapPrev n st0.prev, currentVertex := none,
      minVertex := none }
  let r := dijkstraLoop n edges n st0
  let completeStep : DStep :=
    { kind := .complete, distances := snapDist n r.1.dist,
      visited := snapVisited n r.1.visited,
      previous := snapPrev n r.1.prev, currentVertex := none,
      minVertex := none }
  ((initStep :: r.2) ++ [completeStep], r.1)

/-- The trace of `dijkstraAlgorithm`. -/
def dijkstraAlgorithm (n : ℕ) (edges : List Edge) (sv : ℕ) : List DStep :=
  (dijkstraRun n edges sv).1

/-- The final Dijkstra state. -/
def dijkstraFinal (n : ℕ) (edges : List Edge) (sv : ℕ) : DState :=
  (dijkstraRun n edges sv).2

/-! ### The visited-freeze invariant of Dijkstra (C9) -/

/-- Reading a materialised snapshot. -/
theorem getD_snap {α : Type} (n v : ℕ) (f : ℕ → α) (d : α) :
    ((List.range n).map f).getD v d = if v < n then f v else d := by
  rw [List.getD_eq_getElem?_getD, List.getElem?_map]
  by_cases h : v < n
  · rw [List.getElem?_range h]; simp [h]
  · rw [List.getElem?_eq_none (by simpa using h)]; simp [h]

/-- State evolution preserves a visited vertex together with its
distance and predecessor. -/
def dFrozen (s t : DState) : Prop :=
  ∀ v, s.visited v = true →
    t.visited v = true ∧ t.dist v = s.dist v ∧ t.prev v = s.prev v

theorem dFrozen_refl (s : DState) : dFrozen s s := fun _ h => ⟨h, rfl, rfl⟩

theorem dFrozen_trans {s t u : DState} (h₁ : dFrozen s t) (h₂ : dFrozen t u) :
    dFrozen s u := by
  intro v hv
  obtain ⟨h1, h2, h3⟩ := h₁ v hv
  obtain ⟨h4, h5, h6⟩ := h₂ v h1
  exact ⟨h4, h5.trans h2, h6.trans h3⟩

/-- The step `x` is a snapshot of the state `st`. -/
def dSnapOf (n : ℕ) (st : DState) (x : DStep) : Prop :=
  x.distances = snapDist n st.dist ∧ x.visited = snapVisited n st.visited ∧
    x.previous = snapPrev n st.prev

/-- The step-level version of `dFrozen`, on recorded snapshots. -/
def dStepR (x y : DStep) : Prop :=
  ∀ v, x.visited.getD v false = true →
    y.visited.getD v false = true ∧
    y.distances.getD v ⊤ = x.distances.getD v ⊤ ∧
    y.previous.getD v none = x.previous.getD v none

instance : IsTrans DStep dStepR := by
  constructor
  intro a b c hab hbc v hv
  obtain ⟨h1, h2, h3⟩ := hab v hv
  obtain ⟨h4, h5, h6⟩ := hbc v h1
  exact ⟨h4, h5.trans h2, h6.trans h3⟩

theorem dStepR_of_frozen {n : ℕ} {a b : DState} {x y : DStep}
    (hx : dSnapOf n a x) (hy : dSnapOf n b y) (h : dFrozen a b) :
    dStepR x y := by
  intro v hv
  rw [hx.2.1, snapVisited, getD_snap] at hv
  by_cases hvn : v < n
  · rw [if_pos hvn] at hv
    obtain ⟨h1, h2, h3⟩ := h v hv
    rw [hx.1, hx.2.2, hy.1, hy.2.1, hy.2.2]
    simp only [snapDist, snapVisited, snapPrev, getD_snap, if_pos hvn]
    exact ⟨h1, h2, h3⟩
  · rw [if_neg hvn] at hv
    exact absurd hv (by simp)

/-- A block of steps emitted while the state evolves from `s` to `t`:
the block is internally chained by `dStepR` and every step is the
snapshot of an intermediate state. -/
def dBlocked (n : ℕ) (s t : DState) (l : List DStep) : Prop :=
  dFrozen s t ∧ l.Chain' dStepR ∧
    ∀ x ∈ l, ∃ sx : DState, dSnapOf n sx x ∧ dFrozen s sx ∧ dFrozen sx t

theorem dBlocked_nil {n : ℕ} {s t : DState} (h : dFrozen s t) :
    dBlocked n s t [] :=
  ⟨h, List.chain'_nil, by simp⟩

theorem dBlocked_append {n : ℕ} {s t u : DState} {l₁ l₂ : List DStep}
    (h₁ : dBlocked n s t l₁) (h₂ : dBlocked n t u l₂) :
    dBlocked n s u (l₁ ++ l₂) := by
  obtain ⟨hst, hc₁, hm₁⟩ := h₁
  obtain ⟨htu, hc₂, hm₂⟩ := h₂
  refine ⟨dFrozen_trans hst htu, ?_, ?_⟩
  · rw [List.chain'_append]
    refine ⟨hc₁, hc₂, ?_⟩
    intro x hx y hy
    obtain ⟨sx, hsx, _, hsxt⟩ := hm₁ x (List.mem_of_mem_getLast? hx)
    obtain ⟨sy, hsy, htsy, _⟩ := hm₂ y (List.mem_of_mem_head? hy)
    exact dStepR_of_frozen hsx hsy (dFrozen_trans hsxt htsy)
  · intro x hx
    rcases List.mem_append.mp hx with h | h
    · obtain ⟨sx, h1, h2, h3⟩ := hm₁ x h
      exact ⟨sx, h1, h2, dFrozen_trans h3 htu⟩
    · obtain ⟨sx, h1, h2, h3⟩ := hm₂ x h
      exact ⟨sx, h1, dFrozen_trans hst h2, h3⟩

theorem dBlocked_cons {n : ℕ} {s s₁ t : DState} {x : DStep} {l : List DStep}
    (hx : dSnapOf n s₁ x) (h₁ : dFrozen s s₁) (h : dBlocked n s₁ t l) :
    dBlocked n s t (x :: l) := by
  obtain ⟨hst, hc, hm⟩ := h
  refine ⟨dFrozen_trans h₁ hst, ?_, ?_⟩
  · rw [List.chain'_cons']
    refine ⟨?_, hc⟩
    intro y hy
    obtain ⟨sy, hsy, hs₁y, _⟩ := hm y (List.mem_of_mem_head? hy)
    exact dStepR_of_frozen hx hsy hs₁y
  · intro y hy
    rcases List.mem_cons.mp hy with h | h
    · exact h ▸ ⟨s₁, hx, h₁, hst⟩
    · obtain ⟨sy, h1, h2, h3⟩ := hm y h
      exact ⟨sy, h1, dFrozen_trans h₁ h2, h3⟩

/-- Relaxing an unvisited vertex does not disturb visited vertices. -/
theorem dFrozen_relax {st : DState} {v : ℕ} {dv : DistVal} {pv : Option ℕ}
    (hv : st.visited v = false) :
    dFrozen st { st with dist := Function.update st.dist v dv,
                         prev := Function.update st.prev v pv } := by
  intro u hu
  have huv : u ≠ v := fun h => by rw [h, hv] at hu; cases hu
  exact ⟨hu, Function.update_noteq huv _ _, Function.update_noteq huv _ _⟩

/-- Marking a vertex visited does not disturb previously visited
vertices. -/
theorem dFrozen_mark (st : DState) (u : ℕ) :
    dFrozen st { st with visited := Function.update st.visited u true } := by
  intro v hv
  refine ⟨?_, rfl, rfl⟩
  by_cases h : v = u
  · subst h
    show Function.update st.visited v true v = true
    simp
  · show Function.update st.visited u true v = true
    rw [Function.update_noteq h]; exact hv

/-- The relaxation loop of one Dijkstra iteration forms a block. -/
theorem dijkstraRelaxNeighbors_blocked (n u : ℕ) :
    ∀ (l : List (ℕ × ℤ)) (st : DState),
      dBlocked n st (dijkstraRelaxNeighbors n u l st).1
        (dijkstraRelaxNeighbors n u l st).2 := by
  intro l
  induction l with
  | nil => intro st; exact dBlocked_nil (dFrozen_refl st)
  | cons vw rest ih =>
    intro st
    obtain ⟨v, w⟩ := vw
    rw [dijkstraRelaxNeighbors]
    by_cases hc : st.visited v = false ∧ st.dist u + (w : DistVal) < st.dist v
    · rw [if_pos hc]
      exact dBlocked_cons ⟨rfl, rfl, rfl⟩ (dFrozen_relax hc.1) (ih _)
    · rw [if_neg hc]
      exact ih st

/-- The main Dijkstra loop forms a block. -/
theorem dijkstraLoop_blocked (n : ℕ) (edges : List Edge) :
    ∀ (count : ℕ) (st : DState),
      dBlocked n st (dijkstraLoop n edges count st).1
        (dijkstraLoop n edges count st).2 := by
  intro count
  induction count with
  | zero => intro st; exact dBlocked_nil (dFrozen_refl st)
  | succ count ih =>
    intro st
    rw [dijkstraLoop]
    cases hmin : dijkstraFindMin n st.dist st.visited with
    | none => exact dBlocked_nil (dFrozen_refl st)
    | some u =>
      refine dBlocked_cons ⟨rfl, rfl, rfl⟩ (dFrozen_refl st) ?_
      refine dBlocked_cons ⟨rfl, rfl, rfl⟩ (dFrozen_mark st u) ?_
      exact dBlocked_append (dijkstraRelaxNeighbors_blocked n u _ _) (ih _)

/-- The whole Dijkstra trace is pairwise related by `dStepR`. -/
theorem dijkstraAlgorithm_pairwise (n : ℕ) (edges : List Edge) (sv : ℕ) :
    (dijkstraAlgorithm n edges sv).Pairwise dStepR := by
  rw [← List.chain'_iff_pairwise]
  have hb : dBlocked n (dijkstraInit sv) (dijkstraFinal n edges sv)
      (dijkstraAlgorithm n edges sv) := by
    simp only [dijkstraAlgorithm, dijkstraFinal, dijkstraRun, List.cons_append]
    refine dBlocked_cons ⟨rfl, rfl, rfl⟩ (dFrozen_refl _) ?_
    refine dBlocked_append (dijkstraLoop_blocked n edges n _) ?_
    exact dBlocked_cons ⟨rfl, rfl, rfl⟩ (dFrozen_refl _)
      (dBlocked_nil (dFrozen_refl _))
  exact hb.2.1

/-- C9: once a step of the Dijkstra trace records `visited[v] = true`,
every later step records the same `distances[v]` and `previous[v]`
(and still records `visited[v] = true`): relaxation only updates
unvisited vertices. -/
theorem dijkstra_visited_frozen (n : ℕ) (edges : List Edge) (sv : ℕ)
    (i j : ℕ) (hi : i < (dijkstraAlgorithm n edges sv).length)
    (hj : j < (dijkstraAlgorithm n edges sv).length) (hij : i ≤ j) (v : ℕ)
    (hv : ((dijkstraAlgorithm n edges sv).get ⟨i, hi⟩).visited.getD v false = true) :
    ((dijkstraAlgorithm n edges sv).get ⟨j, hj⟩).visited.getD v false = true ∧
    ((dijkstraAlgorithm n edges sv).get ⟨j, hj⟩).distances.getD v ⊤ =
      ((dijkstraAlgorithm n edges sv).get ⟨i, hi⟩).distances.getD v ⊤ ∧
    ((dijkstraAlgorithm n edges sv).get ⟨j, hj⟩).previous.getD v none =
      ((dijkstraAlgorithm n edges sv).get ⟨i, hi⟩).previous.getD v none := by
  rcases Nat.lt_or_ge i j with hlt | hge
  · have hp := dijkstraAlgorithm_pairwise n edges sv
    rw [List.pairwise_iff_get] at hp
    exact hp ⟨i, hi⟩ ⟨j, hj⟩ hlt v hv
  · have hij' : i = j := le_antisymm hij hge
    subst hij'
    exact ⟨hv, rfl, rfl⟩

/-- Witness for C9 on the one-vertex graph: step 2 (mark) records
vertex 0 visited; step 3 (complete) preserves its entries. -/
theorem dijkstra_visited_frozen_witness :
    (2 < (dijkstraAlgorithm 1 [] 0).length ∧
     3 < (dijkstraAlgorithm 1 [] 0).length ∧ 2 ≤ 3 ∧
     ((dijkstraAlgorithm 1 [] 0).get ⟨2, by decide⟩).visited.getD 0 false = true) ∧
    (((dijkstraAlgorithm 1 [] 0).get ⟨3, by decide⟩).visited.getD 0 false = true ∧
     ((dijkstraAlgorithm 1 [] 0).get ⟨3, by decide⟩).distances.getD 0 ⊤ =
       ((dijkstraAlgorithm 1 [] 0).get ⟨2, by decide⟩).distances.getD 0 ⊤ ∧
     ((dijkstraAlgorithm 1 [] 0).get ⟨3, by decide⟩).previous.getD 0 none =
       ((dijkstraAlgorithm 1 [] 0).get ⟨2, by decide⟩).previous.getD 0 none) :=
  ⟨⟨by decide, by decide, by decide, by decide⟩,
   dijkstra_visited_frozen 1 [] 0 2 3 (by decide) (by decide) (by decide) 0 (by decide)⟩

/-! ## Kruskal (`KruskalVisualizer.tsx`, `find` / `union` / `kruskalMST`) -/

/-- Path-compressing `find`.  The JavaScript recursion terminates
because the parent array is a rooted forest; here `fuel` bounds the
recursion depth, and `fuel = vertices` is always sufficient (a parent
chain visits distinct vertices).  Returns the root and the compressed
parent array. -/
def findAux : ℕ → (ℕ → ℕ) → ℕ → ℕ × (ℕ → ℕ)
  | 0, p, i => (i, p)
  | fuel + 1, p, i =>
    if p i = i then (i, p)
    else
      let r := findAux fuel p (p i)
      (r.1, Function.update r.2 i r.1)

/-- `union(parent, rank, x, y)` with union by rank; returns the new
parent and rank arrays. -/
def unionFn (n : ℕ) (p : ℕ → ℕ) (rank : ℕ → ℕ) (x y : ℕ) :
    (ℕ → ℕ) × (ℕ → ℕ) :=
  let fx := findAux n p x
  let fy := findAux n fx.2 y
  let xroot := fx.1
  let yroot := fy.1
  let p' := fy.2
  if rank xroot < rank yroot then (Function.update p' xroot yroot, rank)
  else if rank yroot < rank xroot then (Function.update p' yroot xroot, rank)
  else (Function.update p' yroot xroot, Function.update rank xroot (rank xroot + 1))

/-- The mutable state of `kruskalMST`. -/
structure KState where
  parent : ℕ → ℕ
  rank : ℕ → ℕ
  mst : List Edge
  total : ℤ

/-- Which push-site of `kruskalMST` produced a step. -/
inductive KKind where
  | init
  | examine
  | accepted
  | rejected
  | complete
deriving DecidableEq, Repr

/-- One `KruskalStep` of the trace. -/
structure KStep where
  kind : KKind
  sortedEdges : List Edge
  currentEdge : Option Edge
  mstEdges : List Edge
  parent : List ℕ
  isValidEdge : Bool
  totalWeight : ℤ
deriving DecidableEq, Repr

/-- Snapshot of the first `n` entries of the parent array. -/
def snapParent (n : ℕ) (p : ℕ → ℕ) : List ℕ :=
  (List.range n).map p

/-- The comparison used to sort edges
(`[...edges].sort((a, b) => a.weight - b.weight)`). -/
def leWeight (a b : Edge) : Bool := a.weight ≤ b.weight

/-- The `for (const edge of sortedEdges)` loop of `kruskalMST`, with
the early `break` once `vertexCount - 1` edges are accepted (the
JavaScript length comparison happens on exact numbers, hence the cast
to `ℤ`).  Returns the emitted steps and the final state. -/
def kruskalLoop (n : ℕ) (sorted : List Edge) :
    List Edge → KState → List KStep × KState
  | [], st => ([], st)
  | e :: rest, st =>
    let f1 := findAux n st.parent e.«from»
    let f2 := findAux n f1.2 e.«to»
    let rootX := f1.1
    let rootY := f2.1
    let pc := f2.2
    let exStep : KStep :=
      { kind := .examine, sortedEdges := sorted, currentEdge := some e,
        mstEdges := st.mst, parent := snapParent n pc,
        isValidEdge := false, totalWeight := st.total }
    if rootX ≠ rootY then
      let u := unionFn n pc st.rank rootX rootY
      let mst' := st.mst ++ [e]
      let total' := st.total + e.weight
      let accStep : KStep :=
        { kind := .accepted, sortedEdges := sorted, currentEdge := some e,
          mstEdges := mst', parent := snapParent n u.1,
          isValidEdge := true, totalWeight := total' }
      let st' : KState := ⟨u.1, u.2, mst', total'⟩
      if (mst'.length : ℤ) = (n : ℤ) - 1 then ([exStep, accStep], st')
      else
        let r := kruskalLoop n sorted rest st'
        (exStep :: accStep :: r.1, r.2)
    else
      let rejStep : KStep :=
        { kind := .rejected, sortedEdges := sorted, currentEdge := some e,
          mstEdges := st.mst, parent := snapParent n pc,
          isValidEdge := false, totalWeight := st.total }
      let st' : KState := { st with parent := pc }
      if (st.mst.length : ℤ) = (n : ℤ) - 1 then ([exStep, rejStep], st')
      else
        let r := kruskalLoop n sorted rest st'
        (exStep :: rejStep :: r.1, r.2)

/-- The trace of `kruskalMST`. -/
def kruskalMST (n : ℕ) (edges : List Edge) : List KStep :=
  let sorted := edges.mergeSort leWeight
  let st0 : KState := ⟨fun i => i, fun _ => 0, [], 0⟩
  let initStep : KStep :=
    { kind := .init, sortedEdges := sorted, currentEdge := none,
      mstEdges := [], parent := snapParent n st0.parent,
      isValidEdge := false, totalWeight := 0 }
  let r := kruskalLoop n sorted sorted st0
  let finalStep : KStep :=
    { kind := .complete, sortedEdges := sorted, currentEdge := none,
      mstEdges := r.2.mst, parent := snapParent n r.2.parent,
      isValidEdge := false, totalWeight := r.2.total }
  (initStep :: r.1) ++ [finalStep]

/-- Pure (non-compressing) walk to the root of a recorded parent
snapshot: the union-find component of a vertex. -/
def rootIterL (P : List ℕ) : ℕ → ℕ → ℕ
  | 0, i => i
  | fuel + 1, i => if P.getD i i = i then i else rootIterL P fuel (P.getD i i)

/-! ### Union-find groundwork: rooted parent forests -/

/-- A parent array over `[0, n)` in which every chain reaches a
fixpoint (a root). -/
def Rooted (p : ℕ → ℕ) (n : ℕ) : Prop :=
  (∀ i < n, p i < n) ∧ ∀ i < n, ∃ r k, p^[k] i = r ∧ p r = r

/-- Two roots reached from the same vertex coincide. -/
theorem root_unique (p : ℕ → ℕ) {i r r' : ℕ} {k k' : ℕ}
    (h : p^[k] i = r) (hr : p r = r) (h' : p^[k'] i = r') (hr' : p r' = r') :
    r = r' := by
  rcases le_total k k' with hle | hle
  · obtain ⟨d, rfl⟩ := Nat.exists_eq_add_of_le hle
    rw [Nat.add_comm, Function.iterate_add_apply, h, Function.iterate_fixed hr] at h'
    exact h'
  · obtain ⟨d, rfl⟩ := Nat.exists_eq_add_of_le hle
    rw [Nat.add_comm, Function.iterate_add_apply, h', Function.iterate_fixed hr'] at h
    exact h.symm

/-- All iterates of an in-range vertex stay in range. -/
theorem iterate_mem_range (p : ℕ → ℕ) (n : ℕ) (hrange : ∀ i < n, p i < n)
    {i : ℕ} (hi : i < n) : ∀ t, p^[t] i < n := by
  intro t
  induction t with
  | zero => simpa using hi
  | succ t ih => rw [Function.iterate_succ_apply']; exact hrange _ ih

/-- In a range-closed parent array, a root reachable at all is
reachable in fewer than `n` steps. -/
theorem root_bound (p : ℕ → ℕ) (n : ℕ) (hrange : ∀ i < n, p i < n)
    {i : ℕ} (hi : i < n) {r k : ℕ} (hk : p^[k] i = r) (hr : p r = r) :
    ∃ k' < n, p^[k'] i = r := by
  have hQ : ∃ t, p (p^[t] i) = p^[t] i := ⟨k, by rw [hk, hr]⟩
  classical
  set k₀ := Nat.find hQ with hk₀
  have hQ₀ : p (p^[k₀] i) = p^[k₀] i := Nat.find_spec hQ
  have hroot : p^[k₀] i = r :=
    root_unique p rfl hQ₀ hk hr
  refine ⟨k₀, ?_, hroot⟩
  by_contra hge
  push_neg at hge
  have hmaps : ∀ t ∈ Finset.range (n + 1), p^[t] i ∈ Finset.range n := by
    intro t _
    exact Finset.mem_range.mpr (iterate_mem_range p n hrange hi t)
  obtain ⟨a, ha, b, hb, hab, heq⟩ :=
    Finset.exists_ne_map_eq_of_card_lt_of_maps_to
      (by simp) hmaps
  rw [Finset.mem_range] at ha hb
  -- make a < b
  rcases Nat.lt_or_ge a b with hlt | hge'
  · have hs : p^[(k₀ - b) + a] i = p^[k₀] i := by
      rw [Function.iterate_add_apply, heq, ← Function.iterate_add_apply]
      congr 1
      omega
    have : p (p^[(k₀ - b) + a] i) = p^[(k₀ - b) + a] i := by
      rw [hs]; exact hQ₀
    exact absurd this (Nat.find_min hQ (by omega))
  · have hlt : b < a := by omega
    have hs : p^[(k₀ - a) + b] i = p^[k₀] i := by
      rw [Function.iterate_add_apply, ← heq, ← Function.iterate_add_apply]
      congr 1
      omega
    have : p (p^[(k₀ - a) + b] i) = p^[(k₀ - a) + b] i := by
      rw [hs]; exact hQ₀
    exact absurd this (Nat.find_min hQ (by omega))

/-- `findAux` with enough fuel returns the root of its argument's
chain, and only redirects (to that root) vertices that reach it. -/
theorem findAux_spec (p : ℕ → ℕ) {r : ℕ} (hr : p r = r) :
    ∀ (fuel k i : ℕ), k < fuel → p^[k] i = r →
      (findAux fuel p i).1 = r ∧
      ∀ j, (findAux fuel p i).2 j = p j ∨
        ((findAux fuel p i).2 j = r ∧ ∃ t, p^[t] j = r) := by
  intro fuel
  induction fuel with
  | zero => intro k i hk; omega
  | succ fuel ih =>
    intro k i hk hik
    rw [findAux]
    by_cases hroot : p i = i
    · rw [if_pos hroot]
      have : r = i := by
        rw [Function.iterate_fixed hroot] at hik; exact hik.symm
      exact ⟨this.symm, fun j => Or.inl rfl⟩
    · rw [if_neg hroot]
      have hk1 : 1 ≤ k := by
        rcases Nat.eq_zero_or_pos k with h | h
        · subst h; simp at hik; subst hik; exact absurd hr hroot
        · exact h
      have hik' : p^[k - 1] (p i) = r := by
        have h2 : p^[k] i = p^[k - 1] (p i) := by
          conv_lhs => rw [show k = (k - 1) + 1 by omega]
          rw [Function.iterate_succ_apply]
        rw [← h2]; exact hik
      obtain ⟨hfst, hshape⟩ := ih (k - 1) (p i) (by omega) hik'
      refine ⟨hfst, ?_⟩
      intro j
      show Function.update (findAux fuel p (p i)).2 i (findAux fuel p (p i)).1 j = p j ∨
        (Function.update (findAux fuel p (p i)).2 i (findAux fuel p (p i)).1 j = r ∧
          ∃ t, p^[t] j = r)
      by_cases hj : j = i
      · subst hj
        rw [Function.update_same]
        exact Or.inr ⟨hfst, k, hik⟩
      · rw [Function.update_noteq hj]
        rcases hshape j with h | h
        · exact Or.inl h
        · exact Or.inr ⟨by rw [h.1], h.2⟩

/-- The shape of a compressed parent array: identical to `p` except
that some vertices that reach the root `r` now point to it directly. -/
def CompressShape (p p' : ℕ → ℕ) (r : ℕ) : Prop :=
  ∀ j, p' j = p j ∨ (p' j = r ∧ ∃ t, p^[t] j = r)

/-- Compression preserves every root. -/
theorem compress_root {p p' : ℕ → ℕ} {r : ℕ} (hshape : CompressShape p p' r)
    (hr : p r = r) {rj : ℕ} (hrj : p rj = rj) : p' rj = rj := by
  rcases hshape rj with h | h
  · rw [h, hrj]
  · obtain ⟨h1, t, ht⟩ := h
    rw [Function.iterate_fixed hrj] at ht
    rw [h1, ← ht]

/-- Compression preserves reachability of each vertex's root. -/
theorem compress_reach {p p' : ℕ → ℕ} {r : ℕ} (hshape : CompressShape p p' r)
    (hr : p r = r) :
    ∀ (k j rj : ℕ), p^[k] j = rj → p rj = rj → ∃ k', p'^[k'] j = rj := by
  intro k
  induction k with
  | zero =>
    intro j rj hk hrj
    simp only [Function.iterate_zero, id] at hk
    subst hk
    exact ⟨0, rfl⟩
  | succ k ih =>
    intro j rj hk hrj
    rcases hshape j with h | h
    · obtain ⟨k', hk'⟩ := ih (p j) rj (by rwa [← Function.iterate_succ_apply]) hrj
      exact ⟨k' + 1, by rw [Function.iterate_succ_apply, h, hk']⟩
    · obtain ⟨h1, t, ht⟩ := h
      have hrrj : r = rj := root_unique p ht hr hk hrj
      exact ⟨1, by rw [Function.iterate_one, h1, hrrj]⟩

/-- Compression preserves being a rooted forest, provided the root is
in range. -/
theorem compress_rooted {p p' : ℕ → ℕ} {r n : ℕ} (hshape : CompressShape p p' r)
    (hr : p r = r) (hrn : r < n) (hp : Rooted p n) : Rooted p' n := by
  obtain ⟨hrange, hreach⟩ := hp
  constructor
  · intro i hi
    rcases hshape i with h | h
    · rw [h]; exact hrange i hi
    · rw [h.1]; exact hrn
  · intro i hi
    obtain ⟨rj, k, hk, hrj⟩ := hreach i hi
    obtain ⟨k', hk'⟩ := compress_reach hshape hr k i rj hk hrj
    exact ⟨rj, k', hk', compress_root hshape hr hrj⟩

/-- Re-pointing any vertex at a root preserves being a rooted
forest. -/
theorem update_root_rooted {p : ℕ → ℕ} {n a : ℕ} (hp : Rooted p n)
    (ha : p a = a) (han : a < n) (v : ℕ) : Rooted (Function.update p v a) n := by
  obtain ⟨hrange, hreach⟩ := hp
  have hroot' : Function.update p v a a = a := by
    by_cases hav : a = v
    · rw [hav, Function.update_same]
    · rw [Function.update_noteq hav]; exact ha
  constructor
  · intro i hi
    by_cases hiv : i = v
    · subst hiv; rw [Function.update_same]; exact han
    · rw [Function.update_noteq hiv]; exact hrange i hi
  · intro i hi
    obtain ⟨rj, k, hk, hrj⟩ := hreach i hi
    clear hi
    induction k generalizing i with
    | zero =>
      simp only [Function.iterate_zero, id] at hk
      subst hk
      by_cases hiv : i = v
      · subst hiv
        exact ⟨a, 1, by rw [Function.iterate_one, Function.update_same], hroot'⟩
      · exact ⟨i, 0, rfl, by rw [Function.update_noteq hiv]; exact hrj⟩
    | succ k ih =>
      by_cases hiv : i = v
      · subst hiv
        exact ⟨a, 1, by rw [Function.iterate_one, Function.update_same], hroot'⟩
      · obtain ⟨r', k', hk', hr'⟩ := ih (p i) (by rwa [← Function.iterate_succ_apply])
        exact ⟨r', k' + 1,
          by rw [Function.iterate_succ_apply, Function.update_noteq hiv, hk'], hr'⟩

/-- `rootIterL` on a snapshot of a range-closed parent array computes
the root of the underlying chain, given enough fuel. -/
theorem rootIterL_snap_root (p : ℕ → ℕ) (n : ℕ) (hrange : ∀ i < n, p i < n) :
    ∀ (fuel k i r : ℕ), i < n → k < fuel → p^[k] i = r → p r = r →
      rootIterL (snapParent n p) fuel i = r := by
  intro fuel
  induction fuel with
  | zero => intro k i r _ h; omega
  | succ fuel ih =>
    intro k i r hi hk hik hr
    rw [rootIterL]
    have hgd : (snapParent n p).getD i i = p i := by
      rw [snapParent, getD_snap, if_pos hi]
    rw [hgd]
    by_cases hroot : p i = i
    · rw [if_pos hroot]
      rw [Function.iterate_fixed hroot] at hik
      exact hik
    · rw [if_neg hroot]
      have hk1 : 1 ≤ k := by
        rcases Nat.eq_zero_or_pos k with h | h
        · subst h; simp at hik; subst hik; exact absurd hr hroot
        · exact h
      have hik' : p^[k - 1] (p i) = r := by
        have h2 : p^[k] i = p^[k - 1] (p i) := by
          conv_lhs => rw [show k = (k - 1) + 1 by omega]
          rw [Function.iterate_succ_apply]
        rw [← h2]; exact hik
      exact ih (k - 1) (p i) r (hrange i hi) (by omega) hik' hr

/-- `findAux` with fuel `n` on a rooted forest: the returned vertex is
a root of the chain, the array is only compressed, and the result
stays a rooted forest. -/
theorem findAux_rooted (n : ℕ) {p : ℕ → ℕ} (hp : Rooted p n) {i : ℕ}
    (hi : i < n) :
    p (findAux n p i).1 = (findAux n p i).1 ∧ (findAux n p i).1 < n ∧
    (∃ k, p^[k] i = (findAux n p i).1) ∧
    CompressShape p (findAux n p i).2 (findAux n p i).1 ∧
    Rooted (findAux n p i).2 n := by
  obtain ⟨r, k, hk, hr⟩ := hp.2 i hi
  obtain ⟨k', hk'n, hk'⟩ := root_bound p n hp.1 hi hk hr
  obtain ⟨hfst, hshape⟩ := findAux_spec p hr n k' i hk'n hk'
  have hrn : r < n := by
    rw [← hk]; exact iterate_mem_range p n hp.1 hi k
  rw [hfst]
  exact ⟨hr, hrn, ⟨k, hk⟩, hshape,
    compress_rooted (hfst ▸ hshape) hr hrn hp⟩

/-- The double `find` performed when examining an edge: both returned
roots are genuine roots of the compressed array, and the pure root
walk on the recorded snapshot recomputes exactly them. -/
theorem kruskalFind_spec (n : ℕ) {p : ℕ → ℕ} (hp : Rooted p n) {a b : ℕ}
    (ha : a < n) (hb : b < n) :
    Rooted (findAux n (findAux n p a).2 b).2 n ∧
    (findAux n (findAux n p a).2 b).2 (findAux n p a).1 = (findAux n p a).1 ∧
    (findAux n (findAux n p a).2 b).2 (findAux n (findAux n p a).2 b).1 =
      (findAux n (findAux n p a).2 b).1 ∧
    (findAux n p a).1 < n ∧ (findAux n (findAux n p a).2 b).1 < n ∧
    rootIterL (snapParent n (findAux n (findAux n p a).2 b).2) n a =
      (findAux n p a).1 ∧
    rootIterL (snapParent n (findAux n (findAux n p a).2 b).2) n b =
      (findAux n (findAux n p a).2 b).1 := by
  obtain ⟨hr1, hr1n, ⟨k1, hk1⟩, hshape1, hrooted1⟩ := findAux_rooted n hp ha
  obtain ⟨hr2, hr2n, ⟨k2, hk2⟩, hshape2, hrooted2⟩ := findAux_rooted n hrooted1 hb
  set r1 := (findAux n p a).1
  set q := (findAux n p a).2
  set r2 := (findAux n q b).1
  set pc := (findAux n q b).2
  -- r1 is a root of q, and a reaches it there
  have hr1q : q r1 = r1 := compress_root hshape1 hr1 hr1
  obtain ⟨ka, hka⟩ := compress_reach hshape1 hr1 k1 a r1 hk1 hr1
  -- roots and reaches in pc
  have hr1pc : pc r1 = r1 := compress_root hshape2 hr2 hr1q
  have hr2pc : pc r2 = r2 := compress_root hshape2 hr2 hr2
  obtain ⟨ka', hka'⟩ := compress_reach hshape2 hr2 ka a r1 hka hr1q
  obtain ⟨kb', hkb'⟩ := compress_reach hshape2 hr2 k2 b r2 hk2 hr2
  obtain ⟨ka'', hka''n, hka''⟩ := root_bound pc n hrooted2.1 ha hka' hr1pc
  obtain ⟨kb'', hkb''n, hkb''⟩ := root_bound pc n hrooted2.1 hb hkb' hr2pc
  exact ⟨hrooted2, hr1pc, hr2pc, hr1n, hr2n,
    rootIterL_snap_root pc n hrooted2.1 n ka'' a r1 ha hka''n hka'' hr1pc,
    rootIterL_snap_root pc n hrooted2.1 n kb'' b r2 hb hkb''n hkb'' hr2pc⟩

/-- `union` on two in-range roots of a rooted forest keeps the parent
array a rooted forest. -/
theorem unionFn_rooted (n : ℕ) {p : ℕ → ℕ} (rank : ℕ → ℕ) {x y : ℕ}
    (hp : Rooted p n) (hx : p x = x) (hy : p y = y) (hxn : x < n)
    (hyn : y < n) : Rooted (unionFn n p rank x y).1 n := by
  obtain ⟨m, rfl⟩ : ∃ m, n = m + 1 := ⟨n - 1, by omega⟩
  have hfx : findAux (m + 1) p x = (x, p) := by rw [findAux, if_pos hx]
  have hfy : findAux (m + 1) p y = (y, p) := by rw [findAux, if_pos hy]
  rw [unionFn, hfx]
  simp only
  rw [hfy]
  by_cases h1 : rank x < rank y
  · rw [if_pos h1]
    exact update_root_rooted hp hy hyn x
  · rw [if_neg h1]
    by_cases h2 : rank y < rank x
    · rw [if_pos h2]
      exact update_root_rooted hp hx hxn y
    · rw [if_neg h2]
      exact update_root_rooted hp hx hxn y

/-- Push a property of the last element through a leading `cons`. -/
theorem getLast?_cons_prop {α : Type} {P : α → Prop} (a : α) (l : List α)
    (ha : P a) (hl : ∀ x ∈ l.getLast?, P x) :
    ∀ x ∈ (a :: l).getLast?, P x := by
  cases l with
  | nil =>
    intro x hx
    simp only [List.getLast?_singleton, Option.mem_def, Option.some_inj] at hx
    rwa [← hx]
  | cons b bs =>
    intro x hx
    rw [List.getLast?_cons_cons] at hx
    exact hl x hx

/-- The last of `a :: b :: l` is the last of `b :: l`. -/
theorem getLast?_cons_cons_prop {α : Type} {P : α → Prop} (a b : α)
    (l : List α) (h : ∀ x ∈ (b :: l).getLast?, P x) :
    ∀ x ∈ (a :: b :: l).getLast?, P x := by
  intro x hx
  rw [List.getLast?_cons_cons] at hx
  exact h x hx

/-- The decision relation between an "examining" step and its
successor: the successor concerns the same edge and is an acceptance
(endpoint components differ, edge appended to `mstEdges`) or a
rejection (same component, `mstEdges` unchanged), where components
are read off the examining step's recorded `parent` snapshot. -/
def kDecision (n : ℕ) (a b : KStep) : Prop :=
  a.kind = KKind.examine →
    ∃ e, a.currentEdge = some e ∧ b.currentEdge = some e ∧
      ((b.kind = KKind.accepted ∧
        rootIterL a.parent n e.«from» ≠ rootIterL a.parent n e.«to» ∧
        b.mstEdges = a.mstEdges ++ [e]) ∨
       (b.kind = KKind.rejected ∧
        rootIterL a.parent n e.«from» = rootIterL a.parent n e.«to» ∧
        b.mstEdges = a.mstEdges))

/-- Main induction over the Kruskal loop: the emitted steps are
chained by `kDecision`, the parent array stays a rooted forest, and
the block never ends in a bare "examining" step. -/
theorem kruskalLoop_spec (n : ℕ) (sorted : List Edge) :
    ∀ (l : List Edge) (st : KState), Rooted st.parent n →
      (∀ e ∈ l, e.«from» < n ∧ e.«to» < n) →
      (kruskalLoop n sorted l st).1.Chain' (kDecision n) ∧
      Rooted (kruskalLoop n sorted l st).2.parent n ∧
      ∀ x ∈ (kruskalLoop n sorted l st).1.getLast?, x.kind ≠ KKind.examine := by
  intro l
  induction l with
  | nil =>
    intro st hst hrange
    exact ⟨List.chain'_nil, hst, by simp [kruskalLoop]⟩
  | cons e rest ih =>
    intro st hst hrange
    obtain ⟨hfrom, hto⟩ := hrange e (List.mem_cons_self e rest)
    have hrest : ∀ e' ∈ rest, e'.«from» < n ∧ e'.«to» < n :=
      fun e' he' => hrange e' (List.mem_cons_of_mem e he')
    obtain ⟨hpc, hr1pc, hr2pc, hr1n, hr2n, hwalkA, hwalkB⟩ :=
      kruskalFind_spec n hst hfrom hto
    rw [kruskalLoop]
    set r1 := (findAux n st.parent e.«from»).1 with hr1def
    set r2 := (findAux n (findAux n st.parent e.«from»).2 e.«to»).1 with hr2def
    set pc := (findAux n (findAux n st.parent e.«from»).2 e.«to»).2 with hpcdef
    by_cases hroots : r1 ≠ r2
    · rw [if_pos hroots]
      have hdec : ∀ b : KStep, b.currentEdge = some e → b.kind = KKind.accepted →
          b.mstEdges = st.mst ++ [e] →
          kDecision n
            { kind := KKind.examine, sortedEdges := sorted, currentEdge := some e,
              mstEdges := st.mst, parent := snapParent n pc,
              isValidEdge := false, totalWeight := st.total } b := by
        intro b hb1 hb2 hb3 _
        exact ⟨e, rfl, hb1, Or.inl ⟨hb2, by rw [hwalkA, hwalkB]; exact hroots, by rw [hb3]⟩⟩
      have hrootedU : Rooted (unionFn n pc st.rank r1 r2).1 n :=
        unionFn_rooted n st.rank hpc hr1pc hr2pc hr1n hr2n
      by_cases hbreak : ((st.mst ++ [e]).length : ℤ) = (n : ℤ) - 1
      · rw [if_pos hbreak]
        refine ⟨?_, hrootedU, ?_⟩
        · exact List.chain'_cons.mpr ⟨hdec _ rfl rfl rfl, List.chain'_singleton _⟩
        · exact getLast?_cons_cons_prop _ _ _
            (getLast?_cons_prop _ _ (by simp) (by simp))
      · rw [if_neg hbreak]
        obtain ⟨hchain, hrooted', hlast⟩ :=
          ih ⟨(unionFn n pc st.rank r1 r2).1, (unionFn n pc st.rank r1 r2).2,
            st.mst ++ [e], st.total + e.weight⟩ hrootedU hrest
        refine ⟨?_, hrooted', ?_⟩
        · refine List.chain'_cons.mpr ⟨hdec _ rfl rfl rfl, ?_⟩
          rw [List.chain'_cons']
          refine ⟨fun y _ => ?_, hchain⟩
          intro hy
          cases hy
        · exact getLast?_cons_cons_prop _ _ _
            (getLast?_cons_prop _ _ (by simp) hlast)
    · rw [if_neg hroots]
      push_neg at hroots
      have hdec : ∀ b : KStep, b.currentEdge = some e → b.kind = KKind.rejected →
          b.mstEdges = st.mst →
          kDecision n
            { kind := KKind.examine, sortedEdges := sorted, currentEdge := some e,
              mstEdges := st.mst, parent := snapParent n pc,
              isValidEdge := false, totalWeight := st.total } b := by
        intro b hb1 hb2 hb3 _
        exact ⟨e, rfl, hb1, Or.inr ⟨hb2, by rw [hwalkA, hwalkB]; exact hroots, by rw [hb3]⟩⟩
      by_cases hbreak : ((st.mst).length : ℤ) = (n : ℤ) - 1
      · rw [if_pos hbreak]
        refine ⟨?_, by exact hpc, ?_⟩
        · exact List.chain'_cons.mpr ⟨hdec _ rfl rfl rfl, List.chain'_singleton _⟩
        · exact getLast?_cons_cons_prop _ _ _
            (getLast?_cons_prop _ _ (by simp) (by simp))
      · rw [if_neg hbreak]
        obtain ⟨hchain, hrooted', hlast⟩ :=
          ih { st with parent := pc } (by exact hpc) hrest
        refine ⟨?_, hrooted', ?_⟩
        · refine List.chain'_cons.mpr ⟨hdec _ rfl rfl rfl, ?_⟩
          rw [List.chain'_cons']
          refine ⟨fun y _ => ?_, hchain⟩
          intro hy
          cases hy
        · exact getLast?_cons_cons_prop _ _ _
            (getLast?_cons_prop _ _ (by simp) hlast)

/-- The examining function used to read examined edges off a trace. -/
def examEdge (s : KStep) : Option Edge :=
  if s.kind = KKind.examine then s.currentEdge else none

/-- The edges examined by the Kruskal loop are an initial run of the
remaining edge list. -/
theorem kruskalLoop_examined (n : ℕ) (sorted : List Edge) :
    ∀ (l : List Edge) (st : KState),
      (kruskalLoop n sorted l st).1.filterMap examEdge <+: l := by
  intro l
  induction l with
  | nil => intro st; exact List.nil_prefix
  | cons e rest ih =>
    intro st
    rw [kruskalLoop]
    by_cases hroots : (findAux n st.parent e.«from»).1 ≠
        (findAux n (findAux n st.parent e.«from»).2 e.«to»).1
    · rw [if_pos hroots]
      by_cases hbreak : (((st.mst ++ [e]).length : ℤ)) = (n : ℤ) - 1
      · rw [if_pos hbreak]
        simp only [examEdge, List.filterMap_cons, reduceCtorEq, if_true, if_false,
          reduceIte]
        exact List.cons_prefix_cons.mpr ⟨rfl, List.nil_prefix⟩
      · rw [if_neg hbreak]
        simp only [examEdge, List.filterMap_cons, reduceCtorEq, if_true, if_false,
          reduceIte]
        exact List.cons_prefix_cons.mpr ⟨rfl, ih _⟩
    · rw [if_neg hroots]
      by_cases hbreak : ((st.mst.length : ℤ)) = (n : ℤ) - 1
      · rw [if_pos hbreak]
        simp only [examEdge, List.filterMap_cons, reduceCtorEq, if_true, if_false,
          reduceIte]
        exact List.cons_prefix_cons.mpr ⟨rfl, List.nil_prefix⟩
      · rw [if_neg hbreak]
        simp only [examEdge, List.filterMap_cons, reduceCtorEq, if_true, if_false,
          reduceIte]
        exact List.cons_prefix_cons.mpr ⟨rfl, ih _⟩

/-- The stopping relation: after an acceptance that completes
`vertexCount - 1` MST edges, no later step examines an edge. -/
def kStop (n : ℕ) (a b : KStep) : Prop :=
  a.kind = KKind.accepted → ((a.mstEdges.length : ℤ)) = (n : ℤ) - 1 →
    b.kind ≠ KKind.examine

/-- The Kruskal loop respects the stopping relation pairwise. -/
theorem kruskalLoop_stop (n : ℕ) (sorted : List Edge) :
    ∀ (l : List Edge) (st : KState),
      (kruskalLoop n sorted l st).1.Pairwise (kStop n) := by
  intro l
  induction l with
  | nil => intro st; exact List.Pairwise.nil
  | cons e rest ih =>
    intro st
    rw [kruskalLoop]
    by_cases hroots : (findAux n st.parent e.«from»).1 ≠
        (findAux n (findAux n st.parent e.«from»).2 e.«to»).1
    · rw [if_pos hroots]
      by_cases hbreak : (((st.mst ++ [e]).length : ℤ)) = (n : ℤ) - 1
      · rw [if_pos hbreak]
        refine List.pairwise_cons.mpr ⟨?_, List.pairwise_cons.mpr ⟨?_, List.Pairwise.nil⟩⟩
        · intro b _ hk; cases hk
        · intro b hb; cases hb
      · rw [if_neg hbreak]
        refine List.pairwise_cons.mpr ⟨?_, List.pairwise_cons.mpr ⟨?_, ih _⟩⟩
        · intro b _ hk; cases hk
        · intro b _ hk hlen
          exact absurd hlen hbreak
    · rw [if_neg hroots]
      by_cases hbreak : ((st.mst.length : ℤ)) = (n : ℤ) - 1
      · rw [if_pos hbreak]
        refine List.pairwise_cons.mpr ⟨?_, List.pairwise_cons.mpr ⟨?_, List.Pairwise.nil⟩⟩
        · intro b _ hk; cases hk
        · intro b hb; cases hb
      · rw [if_neg hbreak]
        refine List.pairwise_cons.mpr ⟨?_, List.pairwise_cons.mpr ⟨?_, ih _⟩⟩
        · intro b _ hk; cases hk
        · intro b _ hk; cases hk

/-- C8: on any in-range edge list, (a) the edges examined by Kruskal
are an initial run of the stable ascending sort of the edge list
(which is sorted by weight and a permutation of the input); (b) every
"examining" step is immediately followed by an acceptance exactly when
the edge's endpoints lie in different union-find components of the
recorded parent forest (the accepted edge being appended to
`mstEdges`), and by a rejection otherwise; (c) once an acceptance
brings `mstEdges` to `vertexCount - 1` edges, no later step examines
an edge. -/
theorem kruskalMST_trace_spec (n : ℕ) (edges : List Edge)
    (hrange : ∀ e ∈ edges, e.«from» < n ∧ e.«to» < n) :
    (kruskalMST n edges).filterMap examEdge <+: edges.mergeSort leWeight ∧
    (edges.mergeSort leWeight).Pairwise (fun a b => a.weight ≤ b.weight) ∧
    (edges.mergeSort leWeight).Perm edges ∧
    (∀ k (hk : k < (kruskalMST n edges).length),
      ((kruskalMST n edges).get ⟨k, hk⟩).kind = KKind.examine →
      ∃ hk1 : k + 1 < (kruskalMST n edges).length,
        kDecision n ((kruskalMST n edges).get ⟨k, hk⟩)
          ((kruskalMST n edges).get ⟨k + 1, hk1⟩)) ∧
    (∀ j k (hj : j < (kruskalMST n edges).length)
        (hk : k < (kruskalMST n edges).length), j < k →
      ((kruskalMST n edges).get ⟨j, hj⟩).kind = KKind.accepted →
      ((((kruskalMST n edges).get ⟨j, hj⟩).mstEdges.length : ℤ)) = (n : ℤ) - 1 →
      ((kruskalMST n edges).get ⟨k, hk⟩).kind ≠ KKind.examine) := by
  have hperm := List.mergeSort_perm edges leWeight
  have hsorted_range : ∀ e ∈ edges.mergeSort leWeight, e.«from» < n ∧ e.«to» < n :=
    fun e he => hrange e (hperm.subset he)
  have hrooted0 : Rooted (fun i => i) n :=
    ⟨fun i hi => hi, fun i _ => ⟨i, 0, rfl, rfl⟩⟩
  obtain ⟨hchain, _, hlast⟩ :=
    kruskalLoop_spec n (edges.mergeSort leWeight) (edges.mergeSort leWeight)
      ⟨fun i => i, fun _ => 0, [], 0⟩ hrooted0 hsorted_range
  have hexam := kruskalLoop_examined n (edges.mergeSort leWeight)
    (edges.mergeSort leWeight) ⟨fun i => i, fun _ => 0, [], 0⟩
  have hstop := kruskalLoop_stop n (edges.mergeSort leWeight)
    (edges.mergeSort leWeight) ⟨fun i => i, fun _ => 0, [], 0⟩
  obtain ⟨initS, body, finalS, hstruct, hinit, hfinal, hbody⟩ :
      ∃ i b f, kruskalMST n edges = (i :: b) ++ [f] ∧ i.kind = KKind.init ∧
        f.kind = KKind.complete ∧
        b = (kruskalLoop n (edges.mergeSort leWeight) (edges.mergeSort leWeight)
          ⟨fun i => i, fun _ => 0, [], 0⟩).1 :=
    ⟨_, _, _, rfl, rfl, rfl, rfl⟩
  rw [← hbody] at hchain hlast hexam hstop
  have hlastfull : ∀ x ∈ (initS :: body).getLast?, x.kind ≠ KKind.examine := by
    refine getLast?_cons_prop _ _ ?_ hlast
    rw [hinit]
    intro h
    cases h
  refine ⟨?_, ?_, hperm, ?_, ?_⟩
  · rw [hstruct, List.filterMap_append,
      List.filterMap_cons_none (by simp [examEdge, hinit]),
      List.filterMap_cons_none (by simp [examEdge, hfinal]),
      List.filterMap_nil, List.append_nil]
    exact hexam
  · have := @List.sorted_mergeSort Edge leWeight
      (fun a b c hab hbc => by
        simp only [leWeight, decide_eq_true_eq] at *; omega)
      (fun a b => by
        simp only [leWeight, Bool.or_eq_true, decide_eq_true_eq]; omega)
      edges
    exact this.imp (fun h => by
      simpa [leWeight, decide_eq_true_eq] using h)
  · -- (b): the verdict follows each examining step
    have hchainfull : (kruskalMST n edges).Chain' (kDecision n) := by
      rw [hstruct, List.chain'_append]
      refine ⟨?_, List.chain'_singleton _, ?_⟩
      · rw [List.chain'_cons']
        refine ⟨?_, hchain⟩
        intro y _
        rw [kDecision, hinit]
        intro h
        cases h
      · intro x hx y hy
        intro hkind
        exact absurd hkind (hlastfull x hx)
    intro k hk hkind
    have hk1 : k + 1 < (kruskalMST n edges).length := by
      by_contra hge
      have hlen2 : (kruskalMST n edges).length = (initS :: body).length + 1 := by
        rw [hstruct]
        simp
      have hkeq : k = (initS :: body).length := by omega
      have : (kruskalMST n edges).get ⟨k, hk⟩ = finalS := by
        have := List.getElem_concat_length (initS :: body) finalS k hkeq
          (by rw [← hstruct]; exact hk)
        rw [← this]
        simp [hstruct, List.get_eq_getElem]
      rw [this, hfinal] at hkind
      cases hkind
    refine ⟨hk1, ?_⟩
    rw [List.chain'_iff_get] at hchainfull
    have := hchainfull k (by omega)
    convert this using 2
  · -- (c): no examining after the MST is complete
    have hpairfull : (kruskalMST n edges).Pairwise (kStop n) := by
      rw [hstruct, List.pairwise_append]
      refine ⟨?_, List.pairwise_singleton _ _, ?_⟩
      · rw [List.pairwise_cons]
        refine ⟨?_, hstop⟩
        intro b _
        rw [kStop, hinit]
        intro h
        cases h
      · intro a _ b hb
        intro _ _
        have hbf : b = finalS := by simpa using hb
        rw [hbf, hfinal]
        intro h
        cases h
    intro j k hj hk hjk hacc hlen
    rw [List.pairwise_iff_get] at hpairfull
    exact hpairfull ⟨j, hj⟩ ⟨k, hk⟩ hjk hacc hlen

/-- Witness for C8 on the six-vertex demo graph of the source. -/
theorem kruskalMST_trace_spec_witness :
    (∀ e ∈ ([⟨0,1,4⟩, ⟨0,2,2⟩, ⟨1,2,1⟩, ⟨1,3,5⟩, ⟨2,3,8⟩, ⟨2,4,10⟩,
        ⟨3,4,2⟩, ⟨3,5,6⟩, ⟨4,5,3⟩] : List Edge), e.«from» < 6 ∧ e.«to» < 6) ∧
    (kruskalMST 6 [⟨0,1,4⟩, ⟨0,2,2⟩, ⟨1,2,1⟩, ⟨1,3,5⟩, ⟨2,3,8⟩, ⟨2,4,10⟩,
        ⟨3,4,2⟩, ⟨3,5,6⟩, ⟨4,5,3⟩]).filterMap examEdge <+:
      ([⟨0,1,4⟩, ⟨0,2,2⟩, ⟨1,2,1⟩, ⟨1,3,5⟩, ⟨2,3,8⟩, ⟨2,4,10⟩,
        ⟨3,4,2⟩, ⟨3,5,6⟩, ⟨4,5,3⟩] : List Edge).mergeSort leWeight :=
  ⟨by decide,
   (kruskalMST_trace_spec 6 [⟨0,1,4⟩, ⟨0,2,2⟩, ⟨1,2,1⟩, ⟨1,3,5⟩, ⟨2,3,8⟩,
      ⟨2,4,10⟩, ⟨3,4,2⟩, ⟨3,5,6⟩, ⟨4,5,3⟩] (by decide)).1⟩

/-! ## Walks and shortest distances

Reference definitions for the shortest-path claims: walks over an
adjacency function, their weights, and the shortest-distance
predicate. -/

/-- `IsWalk adj u l`: the list of `(vertex, weight)` hops `l` is a
walk starting at `u`, each hop being an adjacency entry. -/
def IsWalk (adj : ℕ → List (ℕ × ℤ)) : ℕ → List (ℕ × ℤ) → Prop
  | _, [] => True
  | u, (v, w) :: rest => (v, w) ∈ adj u ∧ IsWalk adj v rest

/-- The final vertex of a walk. -/
def chainEnd (s : ℕ) : List (ℕ × ℤ) → ℕ
  | [] => s
  | (v, _) :: rest => chainEnd v rest

/-- The total weight of a walk. -/
def chainWeight (l : List (ℕ × ℤ)) : ℤ :=
  (l.map (fun vw => vw.2)).sum

/-- `CostReach adj s v c`: some walk from `s` to `v` has weight `c`. -/
def CostReach (adj : ℕ → List (ℕ × ℤ)) (s v : ℕ) (c : ℤ) : Prop :=
  ∃ l, IsWalk adj s l ∧ chainEnd s l = v ∧ chainWeight l = c

/-- `d` is the shortest-walk distance from `s` to `v`: `⊤` when no
walk exists, otherwise the weight of a minimal walk. -/
def IsShortestDist (adj : ℕ → List (ℕ × ℤ)) (s v : ℕ) (d : DistVal) : Prop :=
  (d = ⊤ → ∀ c, ¬ CostReach adj s v c) ∧
  (∀ k : ℤ, d = (k : DistVal) → CostReach adj s v k ∧
    ∀ c, CostReach adj s v c → k ≤ c)

theorem CostReach.refl (adj : ℕ → List (ℕ × ℤ)) (s : ℕ) :
    CostReach adj s s 0 :=
  ⟨[], trivial, rfl, rfl⟩

theorem isWalk_append {adj : ℕ → List (ℕ × ℤ)} :
    ∀ (l₁ l₂ : List (ℕ × ℤ)) (s : ℕ),
      IsWalk adj s (l₁ ++ l₂) ↔
        IsWalk adj s l₁ ∧ IsWalk adj (chainEnd s l₁) l₂ := by
  intro l₁
  induction l₁ with
  | nil => intro l₂ s; simp [IsWalk, chainEnd]
  | cons vw rest ih =>
    intro l₂ s
    obtain ⟨v, w⟩ := vw
    simp only [List.cons_append, IsWalk, chainEnd]
    rw [show rest.append l₂ = rest ++ l₂ from rfl, ih l₂ v, and_assoc]

theorem chainEnd_append (l₁ l₂ : List (ℕ × ℤ)) (s : ℕ) :
    chainEnd s (l₁ ++ l₂) = chainEnd (chainEnd s l₁) l₂ := by
  induction l₁ generalizing s with
  | nil => rfl
  | cons vw rest ih => obtain ⟨v, w⟩ := vw; simp [chainEnd, ih]

theorem chainWeight_append (l₁ l₂ : List (ℕ × ℤ)) :
    chainWeight (l₁ ++ l₂) = chainWeight l₁ + chainWeight l₂ := by
  simp [chainWeight]

/-- A single-hop extension of a reachability witness. -/
theorem CostReach.snoc {adj : ℕ → List (ℕ × ℤ)} {s a x : ℕ} {c w : ℤ}
    (h : CostReach adj s a c) (hx : (x, w) ∈ adj a) :
    CostReach adj s x (c + w) := by
  obtain ⟨l, hl, hend, hw⟩ := h
  refine ⟨l ++ [(x, w)], ?_, ?_, ?_⟩
  · rw [isWalk_append]
    exact ⟨hl, by rw [hend]; exact ⟨hx, trivial⟩⟩
  · rw [chainEnd_append, hend]; rfl
  · rw [chainWeight_append, hw]; simp [chainWeight]

/-- With non-negative adjacency weights every walk has non-negative
weight. -/
theorem chainWeight_nonneg {adj : ℕ → List (ℕ × ℤ)}
    (hnn : ∀ u v w, (v, w) ∈ adj u → 0 ≤ w) :
    ∀ (l : List (ℕ × ℤ)) (s : ℕ), IsWalk adj s l → 0 ≤ chainWeight l := by
  intro l
  induction l with
  | nil => intro s _; simp [chainWeight]
  | cons vw rest ih =>
    intro s h
    obtain ⟨v, w⟩ := vw
    obtain ⟨hmem, hrest⟩ := h
    have h1 := hnn s v w hmem
    have h2 := ih v hrest
    simp only [chainWeight, List.map_cons, List.sum_cons]
    simp [chainWeight] at h2
    omega

/-- The shortest distance is unique. -/
theorem isShortestDist_unique {adj : ℕ → List (ℕ × ℤ)} {s v : ℕ}
    {d d' : DistVal} (h : IsShortestDist adj s v d)
    (h' : IsShortestDist adj s v d') : d = d' := by
  cases d with
  | none =>
    cases d' with
    | none => rfl
    | some k' =>
      exact absurd (h'.2 k' rfl).1 (h.1 rfl k')
  | some k =>
    cases d' with
    | none => exact absurd (h.2 k rfl).1 (h'.1 rfl k)
    | some k' =>
      obtain ⟨hr, hmin⟩ := h.2 k rfl
      obtain ⟨hr', hmin'⟩ := h'.2 k' rfl
      have h1 := hmin k' hr'
      have h2 := hmin' k hr
      have : k = k' := le_antisymm h1 h2
      rw [this]

/-! ### Dijkstra's minimum scan -/

/-- Specification of the fold inside `dijkstraFindMin`. -/
theorem findMinFold_spec (d : ℕ → DistVal) (vis : ℕ → Bool) :
    ∀ (L : List ℕ) (md : DistVal) (mv : Option ℕ),
      (mv = none → md = ⊤) → (∀ u, mv = some u → vis u = false ∧ d u = md ∧ md ≠ ⊤) →
      ((L.foldl (fun acc v => if vis v = false ∧ d v < acc.1 then (d v, some v) else acc)
          (md, mv)).2 = none →
        (L.foldl (fun acc v => if vis v = false ∧ d v < acc.1 then (d v, some v) else acc)
          (md, mv)).1 = ⊤) ∧
      (∀ u, (L.foldl (fun acc v => if vis v = false ∧ d v < acc.1 then (d v, some v) else acc)
          (md, mv)).2 = some u →
        vis u = false ∧
        d u = (L.foldl (fun acc v => if vis v = false ∧ d v < acc.1 then (d v, some v) else acc)
          (md, mv)).1 ∧
        (L.foldl (fun acc v => if vis v = false ∧ d v < acc.1 then (d v, some v) else acc)
          (md, mv)).1 ≠ ⊤ ∧ (u ∈ L ∨ mv = some u)) ∧
      (L.foldl (fun acc v => if vis v = false ∧ d v < acc.1 then (d v, some v) else acc)
          (md, mv)).1 ≤ md ∧
      (∀ v ∈ L, vis v = false →
        ¬(d v < (L.foldl (fun acc v => if vis v = false ∧ d v < acc.1 then (d v, some v) else acc)
          (md, mv)).1)) := by
  intro L
  induction L with
  | nil =>
    intro md mv h1 h2
    refine ⟨fun h => h1 h, fun u hu => ?_, le_rfl, by simp⟩
    obtain ⟨ha, hb, hc⟩ := h2 u hu
    exact ⟨ha, hb, hc, Or.inr hu⟩
  | cons v L ih =>
    intro md mv h1 h2
    rw [List.foldl_cons]
    by_cases hcond : vis v = false ∧ d v < md
    · rw [if_pos hcond]
      obtain ⟨ih1, ih2, ih3, ih4⟩ := ih (d v) (some v)
        (by intro h; cases h)
        (by intro u hu
            rw [Option.some_inj] at hu
            subst hu
            exact ⟨hcond.1, rfl, fun h => by rw [h] at hcond; exact absurd hcond.2 (by simp)⟩)
      refine ⟨ih1, ?_, le_trans ih3 hcond.2.le, ?_⟩
      · intro u hu
        obtain ⟨ha, hb, hc, hd⟩ := ih2 u hu
        refine ⟨ha, hb, hc, ?_⟩
        rcases hd with h | h
        · exact Or.inl (List.mem_cons_of_mem v h)
        · rw [Option.some_inj] at h
          subst h
          exact Or.inl (List.mem_cons_self _ _)
      · intro x hx hvx
        rcases List.mem_cons.mp hx with h | h
        · subst h
          intro hlt
          have := lt_of_lt_of_le hlt ih3
          exact absurd this (lt_irrefl _)
        · exact ih4 x h hvx
    · rw [if_neg hcond]
      obtain ⟨ih1, ih2, ih3, ih4⟩ := ih md mv h1 h2
      refine ⟨ih1, ?_, ih3, ?_⟩
      · intro u hu
        obtain ⟨ha, hb, hc, hd⟩ := ih2 u hu
        refine ⟨ha, hb, hc, ?_⟩
        rcases hd with h | h
        · exact Or.inl (List.mem_cons_of_mem v h)
        · exact Or.inr h
      · intro x hx hvx
        rcases List.mem_cons.mp hx with h | h
        · subst h
          intro hlt
          have hnlt : ¬(d x < md) := fun hh => hcond ⟨hvx, hh⟩
          exact hnlt (lt_of_lt_of_le hlt ih3)
        · exact ih4 x h hvx

/-- Specification of `dijkstraFindMin`. -/
theorem dijkstraFindMin_spec (n : ℕ) (d : ℕ → DistVal) (vis : ℕ → Bool) :
    (∀ u, dijkstraFindMin n d vis = some u →
      u < n ∧ vis u = false ∧ d u ≠ ⊤ ∧
      ∀ v < n, vis v = false → d u ≤ d v) ∧
    (dijkstraFindMin n d vis = none →
      ∀ v < n, vis v = false → d v = ⊤) := by
  obtain ⟨h1, h2, h3, h4⟩ := findMinFold_spec d vis (List.range n) ⊤ none
    (fun _ => rfl) (fun u hu => by cases hu)
  unfold dijkstraFindMin
  constructor
  · intro u hu
    obtain ⟨ha, hb, hc, hd⟩ := h2 u hu
    have hun : u < n := by
      rcases hd with h | h
      · exact List.mem_range.mp h
      · cases h
    refine ⟨hun, ha, by rw [hb]; exact hc, ?_⟩
    intro v hv hvis
    have := h4 v (List.mem_range.mpr hv) hvis
    rw [← hb] at this
    exact le_of_not_lt this
  · intro hnone v hv hvis
    have := h4 v (List.mem_range.mpr hv) hvis
    rw [h1 hnone] at this
    rcases lt_or_eq_of_le (le_top : d v ≤ ⊤) with h | h
    · exact absurd h this
    · exact h

/-! ### The symmetric adjacency view -/

theorem mem_foldl_adj (u : ℕ) :
    ∀ (l : List Edge) (acc : List (ℕ × ℤ)) (x : ℕ × ℤ),
      x ∈ l.foldl
        (fun acc e =>
          (acc ++ (if e.«from» = u then [(e.«to», e.weight)] else [])) ++
            (if e.«to» = u then [(e.«from», e.weight)] else [])) acc ↔
      x ∈ acc ∨ ∃ e ∈ l, (e.«from» = u ∧ e.«to» = x.1 ∧ e.weight = x.2) ∨
        (e.«to» = u ∧ e.«from» = x.1 ∧ e.weight = x.2) := by
  intro l
  induction l with
  | nil => intro acc x; simp
  | cons e l ih =>
    intro acc x
    rw [List.foldl_cons, ih]
    constructor
    · rintro (hacc | he)
      · rw [List.mem_append, List.mem_append] at hacc
        rcases hacc with (h | h) | h
        · exact Or.inl h
        · by_cases hf : e.«from» = u
          · rw [if_pos hf] at h
            simp only [List.mem_singleton] at h
            exact Or.inr ⟨e, List.mem_cons_self _ _,
              Or.inl ⟨hf, by rw [h], by rw [h]⟩⟩
          · rw [if_neg hf] at h; cases h
        · by_cases ht : e.«to» = u
          · rw [if_pos ht] at h
            simp only [List.mem_singleton] at h
            exact Or.inr ⟨e, List.mem_cons_self _ _,
              Or.inr ⟨ht, by rw [h], by rw [h]⟩⟩
          · rw [if_neg ht] at h; cases h
      · obtain ⟨e', he', hcase⟩ := he
        exact Or.inr ⟨e', List.mem_cons_of_mem _ he', hcase⟩
    · rintro (hacc | ⟨e', he', hcase⟩)
      · exact Or.inl (by rw [List.mem_append, List.mem_append]; exact Or.inl (Or.inl hacc))
      · rcases List.mem_cons.mp he' with rfl | hmem
        · left
          rw [List.mem_append, List.mem_append]
          obtain ⟨xv, xw⟩ := x
          rcases hcase with ⟨h1, h2, h3⟩ | ⟨h1, h2, h3⟩
          · refine Or.inl (Or.inr ?_)
            rw [if_pos h1]
            simp only [List.mem_singleton, Prod.mk.injEq]
            simp only at h2 h3
            exact ⟨h2.symm, h3.symm⟩
          · refine Or.inr ?_
            rw [if_pos h1]
            simp only [List.mem_singleton, Prod.mk.injEq]
            simp only at h2 h3
            exact ⟨h2.symm, h3.symm⟩
        · exact Or.inr ⟨e', hmem, hcase⟩

/-- Membership in the symmetric adjacency view. -/
theorem mem_adjList {edges : List Edge} {u : ℕ} {x : ℕ × ℤ} :
    x ∈ adjList edges u ↔
      ∃ e ∈ edges, (e.«from» = u ∧ e.«to» = x.1 ∧ e.weight = x.2) ∨
        (e.«to» = u ∧ e.«from» = x.1 ∧ e.weight = x.2) := by
  rw [adjList, mem_foldl_adj]
  simp

/-- Adjacency targets of an in-range edge list are in range. -/
theorem adjList_target_lt {edges : List Edge} {n : ℕ}
    (hrange : ∀ e ∈ edges, e.«from» < n ∧ e.«to» < n) {u v : ℕ} {w : ℤ}
    (h : (v, w) ∈ adjList edges u) : v < n := by
  rw [mem_adjList] at h
  obtain ⟨e, he, hc⟩ := h
  obtain ⟨h1, h2⟩ := hrange e he
  rcases hc with ⟨_, hv, _⟩ | ⟨_, hv, _⟩
  · simp only at hv; omega
  · simp only at hv; omega

/-- Adjacency weights of a non-negative edge list are non-negative. -/
theorem adjList_weight_nonneg {edges : List Edge}
    (hnn : ∀ e ∈ edges, 0 ≤ e.weight) :
    ∀ u v w, (v, w) ∈ adjList edges u → 0 ≤ w := by
  intro u v w h
  rw [mem_adjList] at h
  obtain ⟨e, he, hc⟩ := h
  have := hnn e he
  rcases hc with ⟨_, _, hw⟩ | ⟨_, _, hw⟩ <;> simp only at hw <;> omega

/-- Any walk from a visited vertex to an unvisited one crosses the
visited boundary: it has a prefix ending at a visited vertex `a`
followed by a hop to an unvisited vertex `x`. -/
theorem walk_cross {adj : ℕ → List (ℕ × ℤ)} (vis : ℕ → Bool) :
    ∀ (l : List (ℕ × ℤ)) (s : ℕ), vis s = true →
      vis (chainEnd s l) = false → IsWalk adj s l →
      ∃ (l₁ : List (ℕ × ℤ)) (x : ℕ) (w : ℤ) (l₂ : List (ℕ × ℤ)),
        l = l₁ ++ (x, w) :: l₂ ∧ IsWalk adj s l₁ ∧
        vis (chainEnd s l₁) = true ∧ vis x = false ∧
        (x, w) ∈ adj (chainEnd s l₁) := by
  intro l
  induction l with
  | nil =>
    intro s hs hu _
    rw [chainEnd] at hu
    rw [hs] at hu
    cases hu
  | cons vw rest ih =>
    intro s hs hu hwalk
    obtain ⟨v, w⟩ := vw
    obtain ⟨hmem, hrest⟩ := hwalk
    by_cases hv : vis v = false
    · exact ⟨[], v, w, rest, rfl, trivial, hs, hv, hmem⟩
    · have hvt : vis v = true := by simpa using hv
      obtain ⟨l₁, x, w', l₂, heq, hw1, hw2, hw3, hw4⟩ :=
        ih v hvt (by rwa [chainEnd] at hu) hrest
      exact ⟨(v, w) :: l₁, x, w', l₂, by rw [heq, List.cons_append],
        ⟨hmem, hw1⟩, hw2, hw3, hw4⟩

/-! ### Dijkstra's invariant -/

/-- The loop invariant of `dijkstraAlgorithm`:
(G) every finite distance is witnessed by a walk of no larger weight;
(B) distances of visited vertices are lower bounds on all walk weights;
(F) every adjacency hop out of a visited vertex has been relaxed;
(D) either nothing is visited yet and distances are initial, or the
source has been visited; (V) visited vertices have finite distance. -/
def DInv (adj : ℕ → List (ℕ × ℤ)) (sv : ℕ) (st : DState) : Prop :=
  (∀ x, st.dist x ≠ ⊤ → ∃ c : ℤ, CostReach adj sv x c ∧ (c : DistVal) ≤ st.dist x) ∧
  (∀ v, st.visited v = true → ∀ c : ℤ, CostReach adj sv v c → st.dist v ≤ (c : DistVal)) ∧
  (∀ a, st.visited a = true → ∀ x w, (x, w) ∈ adj a →
    st.dist x ≤ st.dist a + (w : DistVal)) ∧
  ((∀ v, st.visited v = false) ∧ st.dist = (dijkstraInit sv).dist ∨
    st.visited sv = true) ∧
  (∀ v, st.visited v = true → st.dist v ≠ ⊤)

theorem dInv_init (adj : ℕ → List (ℕ × ℤ)) (sv : ℕ) :
    DInv adj sv (dijkstraInit sv) := by
  refine ⟨?_, ?_, ?_, Or.inl ⟨fun _ => rfl, rfl⟩, ?_⟩
  · intro x hx
    simp only [dijkstraInit] at hx ⊢
    by_cases hxs : x = sv
    · subst hxs
      refine ⟨0, CostReach.refl adj x, ?_⟩
      rw [if_pos rfl]
      simp
    · rw [if_neg hxs] at hx
      exact absurd rfl hx
  · intro v hv; cases hv
  · intro a ha; cases ha
  · intro v hv; cases hv

/-- In the state selected by `dijkstraFindMin`, the chosen vertex's
distance is a lower bound on the weight of every walk to it. -/
theorem dijkstra_select_bound {edges : List Edge} {n sv : ℕ}
    (hrange : ∀ e ∈ edges, e.«from» < n ∧ e.«to» < n)
    (hnn : ∀ e ∈ edges, 0 ≤ e.weight) (hsv : sv < n) {st : DState} {u : ℕ}
    (hinv : DInv (adjList edges) sv st)
    (hu : dijkstraFindMin n st.dist st.visited = some u) :
    ∀ c : ℤ, CostReach (adjList edges) sv u c → st.dist u ≤ (c : DistVal) := by
  obtain ⟨hG, hB, hF, hD, hV⟩ := hinv
  obtain ⟨hun, huvis, hufin, humin⟩ := (dijkstraFindMin_spec n st.dist st.visited).1 u hu
  have hwnn := adjList_weight_nonneg hnn
  intro c hc
  rcases hD with ⟨hnone, hdist⟩ | hsvis
  · -- nothing visited: the initial state, so u must be the source
    have husv : u = sv := by
      by_contra hne
      rw [hdist] at hufin
      simp only [dijkstraInit] at hufin
      rw [if_neg hne] at hufin
      exact absurd rfl hufin
    subst husv
    obtain ⟨l, hwalk, _, hweight⟩ := hc
    have h0 : 0 ≤ c := hweight ▸ chainWeight_nonneg hwnn l u hwalk
    rw [hdist]
    simp only [dijkstraInit, if_pos rfl, if_true]
    exact_mod_cast h0
  · -- the source is visited: cross the visited boundary
    obtain ⟨l, hwalk, hend, hweight⟩ := hc
    obtain ⟨l₁, x, w, l₂, heq, hw1, hw2, hw3, hw4⟩ :=
      walk_cross st.visited l sv hsvis (hend ▸ huvis) hwalk
    set a := chainEnd sv l₁ with ha
    have hxn : x < n := adjList_target_lt hrange hw4
    have hreach_a : CostReach (adjList edges) sv a (chainWeight l₁) :=
      ⟨l₁, hw1, rfl, rfl⟩
    have hda : st.dist a ≤ (chainWeight l₁ : DistVal) := hB a hw2 _ hreach_a
    have hdx : st.dist x ≤ st.dist a + (w : DistVal) := hF a hw2 x w hw4
    have hl₂ : IsWalk (adjList edges) x l₂ := by
      subst heq
      rw [isWalk_append] at hwalk
      exact hwalk.2.2
    have hl₂nn : 0 ≤ chainWeight l₂ := chainWeight_nonneg hwnn l₂ x hl₂
    have hcw : c = chainWeight l₁ + w + chainWeight l₂ := by
      rw [← hweight, heq, chainWeight_append]
      simp only [chainWeight, List.map_cons, List.sum_cons]
      ring
    calc st.dist u ≤ st.dist x := humin x hxn hw3
      _ ≤ st.dist a + (w : DistVal) := hdx
      _ ≤ ((chainWeight l₁ : DistVal) + (w : DistVal)) :=
          add_le_add_right hda _
      _ = ((chainWeight l₁ + w : ℤ) : DistVal) := by push_cast; rfl
      _ ≤ (c : DistVal) := by
          rw [hcw]
          exact_mod_cast by omega

/-- The relaxation loop of one Dijkstra iteration: distances of
visited vertices are untouched, distances never increase, witnesses
are maintained, and every processed adjacency hop ends up relaxed. -/
theorem dijkstraRelax_spec {edges : List Edge} {sv : ℕ} (n u : ℕ) :
    ∀ (l : List (ℕ × ℤ)), (∀ x ∈ l, x ∈ adjList edges u) →
    ∀ st : DState, st.visited u = true →
      (∀ x, st.dist x ≠ ⊤ →
        ∃ c : ℤ, CostReach (adjList edges) sv x c ∧ (c : DistVal) ≤ st.dist x) →
      (∀ v, st.visited v = true → ∀ c : ℤ,
        CostReach (adjList edges) sv v c → st.dist v ≤ (c : DistVal)) →
      (∀ v, (dijkstraRelaxNeighbors n u l st).1.visited v = st.visited v) ∧
      (∀ v, st.visited v = true →
        (dijkstraRelaxNeighbors n u l st).1.dist v = st.dist v) ∧
      (∀ v, (dijkstraRelaxNeighbors n u l st).1.dist v ≤ st.dist v) ∧
      (∀ x, (dijkstraRelaxNeighbors n u l st).1.dist x ≠ ⊤ →
        ∃ c : ℤ, CostReach (adjList edges) sv x c ∧
          (c : DistVal) ≤ (dijkstraRelaxNeighbors n u l st).1.dist x) ∧
      (∀ x w, (x, w) ∈ l →
        (dijkstraRelaxNeighbors n u l st).1.dist x ≤
          (dijkstraRelaxNeighbors n u l st).1.dist u + (w : DistVal)) := by
  intro l
  induction l with
  | nil =>
    intro hsub st huvis hG hB
    exact ⟨fun v => rfl, fun v _ => rfl, fun v => le_rfl, hG, by simp⟩
  | cons xw rest ih =>
    intro hsub st huvis hG hB
    obtain ⟨x, w⟩ := xw
    have hxadj : (x, w) ∈ adjList edges u := hsub _ (List.mem_cons_self _ _)
    have hsub' : ∀ y ∈ rest, y ∈ adjList edges u :=
      fun y hy => hsub y (List.mem_cons_of_mem _ hy)
    rw [dijkstraRelaxNeighbors]
    by_cases hcond : st.visited x = false ∧ st.dist u + (w : DistVal) < st.dist x
    · rw [if_pos hcond]
      set st' : DState :=
        { st with dist := Function.update st.dist x (st.dist u + (w : DistVal)),
                  prev := Function.update st.prev x (some u) } with hst'
      have hufin : st.dist u ≠ ⊤ := by
        intro htop
        rw [htop] at hcond
        have := hcond.2
        rw [top_add] at this
        exact absurd this (by simp)
      have hxu : x ≠ u := by
        intro h
        rw [h] at hcond
        rw [huvis] at hcond
        cases hcond.1
      have hG' : ∀ y, st'.dist y ≠ ⊤ →
          ∃ c : ℤ, CostReach (adjList edges) sv y c ∧ (c : DistVal) ≤ st'.dist y := by
        intro y hy
        by_cases hyx : y = x
        · subst hyx
          obtain ⟨cu, hcu, hcule⟩ := hG u hufin
          refine ⟨cu + w, hcu.snoc hxadj, ?_⟩
          show ((cu + w : ℤ) : DistVal) ≤ Function.update st.dist y (st.dist u + (w : DistVal)) y
          rw [Function.update_same]
          push_cast
          exact add_le_add_right hcule _
        · have : st'.dist y = st.dist y := Function.update_noteq hyx _ _
          rw [this] at hy ⊢
          exact hG y hy
      have hB' : ∀ v, st'.visited v = true → ∀ c : ℤ,
          CostReach (adjList edges) sv v c → st'.dist v ≤ (c : DistVal) := by
        intro v hv c hc
        have hvx : v ≠ x := by
          intro h
          rw [h] at hv
          rw [hcond.1] at hv
          cases hv
        have : st'.dist v = st.dist v := Function.update_noteq hvx _ _
        rw [this]
        exact hB v hv c hc
      obtain ⟨ih1, ih2, ih3, ih4, ih5⟩ := ih hsub' st' huvis hG' hB'
      have hdist'u : st'.dist u = st.dist u := Function.update_noteq (by omega) _ _
      refine ⟨ih1, ?_, ?_, ih4, ?_⟩
      · intro v hv
        rw [ih2 v hv]
        exact Function.update_noteq (by
          intro h
          rw [h] at hv
          rw [hcond.1] at hv
          cases hv) _ _
      · intro v
        refine le_trans (ih3 v) ?_
        by_cases hvx : v = x
        · subst hvx
          have heq : st'.dist v = st.dist u + (w : DistVal) :=
            Function.update_same _ _ _
          rw [heq]
          exact le_of_lt hcond.2
        · have heq : st'.dist v = st.dist v := Function.update_noteq hvx _ _
          rw [heq]
      · intro y w' hy
        rcases List.mem_cons.mp hy with h | h
        · rw [Prod.mk.injEq] at h
          obtain ⟨hyx, hww⟩ := h
          rw [hyx, hww]
          have h1 : (dijkstraRelaxNeighbors n u rest st').1.dist x ≤ st'.dist x :=
            ih3 x
          have h2 : st'.dist x = st.dist u + (w : DistVal) :=
            Function.update_same _ _ _
          have h3 : (dijkstraRelaxNeighbors n u rest st').1.dist u = st.dist u := by
            rw [ih2 u huvis, hdist'u]
          rw [h3]
          rw [h2] at h1
          exact h1
        · exact ih5 y w' h
    · rw [if_neg hcond]
      obtain ⟨ih1, ih2, ih3, ih4, ih5⟩ := ih hsub' st huvis hG hB
      refine ⟨ih1, ih2, ih3, ih4, ?_⟩
      intro y w' hy
      rcases List.mem_cons.mp hy with h | h
      · rw [Prod.mk.injEq] at h
        obtain ⟨hyx, hww⟩ := h
        rw [hyx, hww]
        have hdu : (dijkstraRelaxNeighbors n u rest st).1.dist u = st.dist u :=
          ih2 u huvis
        by_cases hvy : st.visited x = true
        · -- x already visited: its optimal distance beats any relaxation
          have hdy : (dijkstraRelaxNeighbors n u rest st).1.dist x = st.dist x :=
            ih2 x hvy
          rw [hdy, hdu]
          by_cases hutop : st.dist u = ⊤
          · rw [hutop, top_add]
            exact le_top
          · obtain ⟨cu, hcu, hcule⟩ := hG u hutop
            have hreach : CostReach (adjList edges) sv x (cu + w) := hcu.snoc hxadj
            refine le_trans (hB x hvy _ hreach) ?_
            push_cast
            exact add_le_add_right hcule _
        · -- not relaxed because no improvement
          have hvy' : st.visited x = false := by
            cases hvv : st.visited x
            · rfl
            · exact absurd hvv hvy
          have hnlt : ¬(st.dist u + (w : DistVal) < st.dist x) :=
            fun hh => hcond ⟨hvy', hh⟩
          have := le_of_not_lt hnlt
          rw [hdu]
          exact le_trans (ih3 x) this
      · exact ih5 y w' h

/-- One Dijkstra iteration body (select a minimum vertex, mark it
visited, relax its neighbours) preserves the invariant, and marks a
previously unvisited vertex below `n`. -/
theorem dijkstra_iter_spec {edges : List Edge} {n sv : ℕ}
    (hrange : ∀ e ∈ edges, e.«from» < n ∧ e.«to» < n)
    (hnn : ∀ e ∈ edges, 0 ≤ e.weight) (hsv : sv < n) {st : DState} {u : ℕ}
    (hinv : DInv (adjList edges) sv st)
    (hu : dijkstraFindMin n st.dist st.visited = some u) :
    DInv (adjList edges) sv
      (dijkstraRelaxNeighbors n u (adjList edges u)
        { st with visited := Function.update st.visited u true }).1 ∧
    (∀ v, (dijkstraRelaxNeighbors n u (adjList edges u)
        { st with visited := Function.update st.visited u true }).1.visited v
      = Function.update st.visited u true v) ∧
    st.visited u = false ∧ u < n := by
  obtain ⟨hun, huvis, hufin, humin⟩ :=
    (dijkstraFindMin_spec n st.dist st.visited).1 u hu
  have hubound : ∀ c : ℤ, CostReach (adjList edges) sv u c →
      st.dist u ≤ (c : DistVal) :=
    dijkstra_select_bound hrange hnn hsv hinv hu
  obtain ⟨hG, hB, hF, hD, hV⟩ := hinv
  set st' : DState := { st with visited := Function.update st.visited u true }
    with hst'
  have hst'd : st'.dist = st.dist := rfl
  have hst'v : ∀ v, st'.visited v = Function.update st.visited u true v :=
    fun v => rfl
  have hvis' : ∀ v, st'.visited v = true → v = u ∨ st.visited v = true := by
    intro v hv
    by_cases hvu : v = u
    · exact Or.inl hvu
    · right
      rw [hst'v v, Function.update_noteq hvu] at hv
      exact hv
  have hB' : ∀ v, st'.visited v = true → ∀ c : ℤ,
      CostReach (adjList edges) sv v c → st'.dist v ≤ (c : DistVal) := by
    intro v hv c hc
    rw [hst'd]
    rcases hvis' v hv with h | h
    · subst h; exact hubound c hc
    · exact hB v h c hc
  have huvis' : st'.visited u = true := by
    rw [hst'v u]; exact Function.update_same _ _ _
  have hG0 : ∀ x, st'.dist x ≠ ⊤ → ∃ c : ℤ,
      CostReach (adjList edges) sv x c ∧ (c : DistVal) ≤ st'.dist x := by
    rw [hst'd]; exact hG
  obtain ⟨r1, r2, r3, r4, r5⟩ :=
    @dijkstraRelax_spec edges sv n u (adjList edges u)
      (fun x hx => hx) st' huvis' hG0 hB'
  set out := (dijkstraRelaxNeighbors n u (adjList edges u) st').1 with hout
  refine ⟨⟨r4, ?_, ?_, ?_, ?_⟩, fun v => (r1 v).trans (hst'v v), huvis, hun⟩
  · -- (B) for the output state
    intro v hv c hc
    rw [r1 v] at hv
    rw [r2 v hv]
    exact hB' v hv c hc
  · -- (F) for the output state
    intro a ha x w hxw
    rw [r1 a] at ha
    by_cases hau : a = u
    · subst hau
      exact r5 x w hxw
    · have hsta : st.visited a = true := by
        rw [hst'v a, Function.update_noteq hau] at ha
        exact ha
      have h1 : out.dist a = st.dist a := by
        rw [r2 a ha, hst'd]
      have h3 : st.dist x ≤ st.dist a + (w : DistVal) := hF a hsta x w hxw
      rw [h1]
      exact le_trans (r3 x) h3
  · -- (D) for the output state: the source is visited
    right
    rw [r1 sv, hst'v sv]
    rcases hD with ⟨hnone, hdist⟩ | hsvis
    · have husv : u = sv := by
        by_contra hne
        rw [hdist] at hufin
        simp only [dijkstraInit] at hufin
        rw [if_neg hne] at hufin
        exact absurd rfl hufin
      rw [← husv]
      exact Function.update_same _ _ _
    · by_cases hsu : sv = u
      · rw [hsu]; exact Function.update_same _ _ _
      · rw [Function.update_noteq hsu]; exact hsvis
  · -- (V) for the output state
    intro v hv htop
    rw [r1 v] at hv
    have hle := r3 v
    rw [htop] at hle
    have hst'top : st'.dist v = ⊤ := top_le_iff.mp hle
    rcases hvis' v hv with h | h
    · subst h
      rw [hst'd] at hst'top
      exact hufin hst'top
    · rw [hst'd] at hst'top
      exact hV v h hst'top

/-- Running the main loop for `count` more iterations, when `count`
iterations suffice to cover the unvisited part of the vertex range,
preserves the invariant and ends with every vertex either visited or
at infinite distance. -/
theorem dijkstraLoop_end {edges : List Edge} {n sv : ℕ}
    (hrange : ∀ e ∈ edges, e.«from» < n ∧ e.«to» < n)
    (hnn : ∀ e ∈ edges, 0 ≤ e.weight) (hsv : sv < n) :
    ∀ (count : ℕ) (st : DState), DInv (adjList edges) sv st →
      n ≤ count +
        ((Finset.range n).filter (fun v => st.visited v = true)).card →
      DInv (adjList edges) sv (dijkstraLoop n edges count st).1 ∧
      ∀ v < n, (dijkstraLoop n edges count st).1.visited v = true ∨
        (dijkstraLoop n edges count st).1.dist v = ⊤ := by
  intro count
  induction count with
  | zero =>
    intro st hinv hcard
    rw [dijkstraLoop]
    refine ⟨hinv, ?_⟩
    have hsubset : (Finset.range n).filter (fun v => st.visited v = true) ⊆
        Finset.range n := Finset.filter_subset _ _
    have hcle : ((Finset.range n).filter
        (fun v => st.visited v = true)).card ≤ (Finset.range n).card :=
      Finset.card_le_card hsubset
    rw [Finset.card_range] at hcle
    have heq : (Finset.range n).filter (fun v => st.visited v = true) =
        Finset.range n := by
      apply Finset.eq_of_subset_of_card_le hsubset
      rw [Finset.card_range]
      omega
    intro v hv
    left
    have : v ∈ (Finset.range n).filter (fun v => st.visited v = true) := by
      rw [heq]
      exact Finset.mem_range.mpr hv
    exact (Finset.mem_filter.mp this).2
  | succ count ih =>
    intro st hinv hcard
    rw [dijkstraLoop]
    cases hfm : dijkstraFindMin n st.dist st.visited with
    | none =>
      refine ⟨hinv, ?_⟩
      intro v hv
      cases hvv : st.visited v with
      | true => exact Or.inl rfl
      | false =>
        exact Or.inr ((dijkstraFindMin_spec n st.dist st.visited).2 hfm v hv hvv)
    | some u =>
      obtain ⟨hinv', hvis', huvis, hun⟩ :=
        dijkstra_iter_spec hrange hnn hsv hinv hfm
      set out := (dijkstraRelaxNeighbors n u (adjList edges u)
        { st with visited := Function.update st.visited u true }).1 with hout
      have hfilter : (Finset.range n).filter (fun v => out.visited v = true) =
          insert u ((Finset.range n).filter (fun v => st.visited v = true)) := by
        ext v
        simp only [Finset.mem_filter, Finset.mem_insert, Finset.mem_range]
        constructor
        · rintro ⟨hv, hvt⟩
          rw [hvis' v] at hvt
          by_cases hvu : v = u
          · exact Or.inl hvu
          · rw [Function.update_noteq hvu] at hvt
            exact Or.inr ⟨hv, hvt⟩
        · rintro (rfl | ⟨hv, hvt⟩)
          · refine ⟨hun, ?_⟩
            rw [hvis' v]
            exact Function.update_same _ _ _
          · refine ⟨hv, ?_⟩
            rw [hvis' v]
            by_cases hvu : v = u
            · subst hvu; exact Function.update_same _ _ _
            · rw [Function.update_noteq hvu]; exact hvt
      have hnotmem : u ∉ (Finset.range n).filter
          (fun v => st.visited v = true) := by
        intro hmem
        rw [Finset.mem_filter] at hmem
        rw [huvis] at hmem
        cases hmem.2
      have hcard' : n ≤ count +
          ((Finset.range n).filter (fun v => out.visited v = true)).card := by
        rw [hfilter, Finset.card_insert_of_not_mem hnotmem]
        omega
      exact ih out hinv' hcard'

/-- At a state satisfying the invariant in which every vertex of the
range is visited or at infinite distance, every distance below `n` is
the true shortest-walk distance. -/
theorem dijkstra_end_shortest {edges : List Edge} {n sv : ℕ}
    (hrange : ∀ e ∈ edges, e.«from» < n ∧ e.«to» < n)
    (hnn : ∀ e ∈ edges, 0 ≤ e.weight) (hsv : sv < n) {st : DState}
    (hinv : DInv (adjList edges) sv st)
    (hend : ∀ v < n, st.visited v = true ∨ st.dist v = ⊤) :
    ∀ v < n, IsShortestDist (adjList edges) sv v (st.dist v) := by
  obtain ⟨hG, hB, hF, hD, hV⟩ := hinv
  have hsvvis : st.visited sv = true := by
    rcases hD with ⟨hnone, hdist⟩ | h
    · rcases hend sv hsv with h | h
      · exact h
      · rw [hdist] at h
        simp only [dijkstraInit, if_pos rfl] at h
        cases h
    · exact h
  intro v hv
  constructor
  · -- infinite distance means unreachable
    intro htop c hc
    have hvv : st.visited v = false := by
      cases hvv : st.visited v with
      | false => rfl
      | true => exact absurd htop (hV v hvv)
    obtain ⟨l, hwalk, hendw, hweight⟩ := hc
    obtain ⟨l₁, x, w, l₂, heq, hw1, hw2, hw3, hw4⟩ :=
      walk_cross st.visited l sv hsvvis (by rw [hendw]; exact hvv) hwalk
    have hxn : x < n := adjList_target_lt hrange hw4
    have hax := hF _ hw2 x w hw4
    have hatop : st.dist (chainEnd sv l₁) ≠ ⊤ := hV _ hw2
    have hxtop : st.dist x = ⊤ := by
      rcases hend x hxn with h | h
      · rw [h] at hw3; cases hw3
      · exact h
    rw [hxtop] at hax
    cases ha : st.dist (chainEnd sv l₁) with
    | none => exact hatop ha
    | some a =>
      rw [ha] at hax
      have htopeq := top_le_iff.mp hax
      rw [WithTop.add_eq_top] at htopeq
      rcases htopeq with h | h
      · exact absurd h (by simp)
      · exact absurd h WithTop.coe_ne_top
  · -- finite distance is achieved and minimal
    intro k hk
    have hfin : st.dist v ≠ ⊤ := by rw [hk]; exact WithTop.coe_ne_top
    have hvv : st.visited v = true := by
      rcases hend v hv with h | h
      · exact h
      · exact absurd h hfin
    obtain ⟨c, hreach, hle⟩ := hG v hfin
    have hge := hB v hvv c hreach
    have hck : c = k := by
      rw [hk] at hle hge
      exact_mod_cast le_antisymm hle hge
    subst hck
    refine ⟨hreach, ?_⟩
    intro c' hc'
    have := hB v hvv c' hc'
    rw [hk] at this
    exact_mod_cast this

/-- The default example graph of `DijkstraVisualizer` (edge `id`
strings dropped). -/
def dijkstraDemoEdges : List Edge :=
  [⟨0, 1, 4⟩, ⟨0, 2, 2⟩, ⟨1, 2, 1⟩, ⟨1, 3, 5⟩, ⟨2, 3, 8⟩,
   ⟨2, 4, 10⟩, ⟨3, 4, 2⟩, ⟨3, 5, 6⟩, ⟨4, 5, 3⟩]

/-- C1: for every graph with in-range endpoints and non-negative edge
weights (taken as undirected via the symmetric adjacency view) and
every in-range source, the distances array in the final step of the
Dijkstra trace holds, at each vertex, the true shortest-walk distance
from the source (with `⊤`, modelling `Infinity`, for unreachable
vertices); and on the 6-vertex demo graph with source 0 the final
distances are exactly `[0, 3, 2, 8, 10, 13]`. -/
theorem dijkstra_shortest_paths :
    (∀ (n : ℕ) (edges : List Edge) (sv : ℕ),
      (∀ e ∈ edges, e.«from» < n ∧ e.«to» < n) →
      (∀ e ∈ edges, 0 ≤ e.weight) → sv < n →
      ∀ last, (dijkstraAlgorithm n edges sv).getLast? = some last →
        ∀ v < n,
          IsShortestDist (adjList edges) sv v (last.distances.getD v ⊤)) ∧
    (dijkstraAlgorithm 6 dijkstraDemoEdges 0).getLast?.map DStep.distances =
      some [(0 : DistVal), 3, 2, 8, 10, 13] := by
  constructor
  · intro n edges sv hrange hnn hsv last hlast v hv
    have hform : (dijkstraAlgorithm n edges sv).getLast? =
        some { kind := .complete,
               distances :=
                 snapDist n (dijkstraLoop n edges n (dijkstraInit sv)).1.dist,
               visited :=
                 snapVisited n
                   (dijkstraLoop n edges n (dijkstraInit sv)).1.visited,
               previous :=
                 snapPrev n (dijkstraLoop n edges n (dijkstraInit sv)).1.prev,
               currentVertex := none, minVertex := none } := by
      rw [dijkstraAlgorithm, dijkstraRun]
      exact List.getLast?_concat _
    rw [hform] at hlast
    injection hlast with hlast
    obtain ⟨hinv, hend⟩ := dijkstraLoop_end hrange hnn hsv n (dijkstraInit sv)
      (dInv_init (adjList edges) sv) (Nat.le_add_right n _)
    have hdist : last.distances.getD v ⊤ =
        (dijkstraLoop n edges n (dijkstraInit sv)).1.dist v := by
      rw [← hlast]
      simp only [snapDist]
      rw [getD_snap]
      rw [if_pos hv]
    rw [hdist]
    exact dijkstra_end_shortest hrange hnn hsv hinv hend v hv
  · decide

theorem dijkstra_shortest_paths_witness :
    IsShortestDist (adjList dijkstraDemoEdges) 0 5
      ((((dijkstraAlgorithm 6 dijkstraDemoEdges 0).getLast?).getD
        { kind := .init, distances := [], visited := [], previous := [],
          currentVertex := none, minVertex := none }).distances.getD 5 ⊤) :=
  dijkstra_shortest_paths.1 6 dijkstraDemoEdges 0 (by decide) (by decide)
    (by decide) _ (by decide) 5 (by decide)

/-! ### Floyd-Warshall -/

/-- Assignment `m[a][b] = v` on a matrix held as a function. -/
def updMat {α : Type} (d : ℕ → ℕ → α) (a b : ℕ) (v : α) : ℕ → ℕ → α :=
  fun i j => if i = a ∧ j = b then v else d i j

/-- Snapshot of the top-left `n × n` corner of a matrix. -/
def snapMat {α : Type} (n : ℕ) (f : ℕ → ℕ → α) : List (List α) :=
  (List.range n).map (fun i => (List.range n).map (f i))

/-- The mutable state of `floydWarshallAlgorithm`: the `distances`
and `next` matrices. -/
structure FWState where
  dist : ℕ → ℕ → ℤ
  next : ℕ → ℕ → Option ℕ

/-- Which push-site of `floydWarshallAlgorithm` produced a step. -/
inductive FWKind where
  | init
  | kIter
  | update
  | complete
deriving DecidableEq, Repr

/-- One `FloydWarshallStep` of the trace (`step` counter and
`description` dropped; `k` is an integer because the init step
records `k = -1`). -/
structure FWStep where
  kind : FWKind
  distances : List (List ℤ)
  next : List (List (Option ℕ))
  k : ℤ
  i : Option ℕ
  j : Option ℕ
  improvement : Option Bool
deriving DecidableEq, Repr

/-- The `for (let j = 0; ...)` innermost loop for fixed `k` and `i`. -/
def fwInnerJ (n k i : ℕ) : List ℕ → FWState → FWState × List FWStep
  | [], st => (st, [])
  | j :: js, st =>
    if i ≠ j ∧ st.dist i k + st.dist k j < st.dist i j then
      let st' : FWState :=
        { dist := updMat st.dist i j (st.dist i k + st.dist k j),
          next := updMat st.next i j (st.next i k) }
      let step : FWStep :=
        { kind := .update, distances := snapMat n st'.dist,
          next := snapMat n st'.next, k := (k : ℤ), i := some i,
          j := some j, improvement := some true }
      let r := fwInnerJ n k i js st'
      (r.1, step :: r.2)
    else fwInnerJ n k i js st

/-- The `for (let i = 0; ...)` middle loop for fixed `k`. -/
def fwInnerI (n k : ℕ) : List ℕ → FWState → FWState × List FWStep
  | [], st => (st, [])
  | i :: is, st =>
    let r := fwInnerJ n k i (List.range n) st
    let r' := fwInnerI n k is r.1
    (r'.1, r.2 ++ r'.2)

/-- The `for (let k = 0; ...)` outer loop. -/
def fwOuter (n : ℕ) : List ℕ → FWState → FWState × List FWStep
  | [], st => (st, [])
  | k :: ks, st =>
    let kStep : FWStep :=
      { kind := .kIter, distances := snapMat n st.dist,
        next := snapMat n st.next, k := (k : ℤ), i := none, j := none,
        improvement := none }
    let r := fwInnerI n k (List.range n) st
    let r' := fwOuter n ks r.1
    (r'.1, kStep :: (r.2 ++ r'.2))

/-- The matrices after initialization: `INF = 999` everywhere, `0` on
the diagonal, then each edge assigns its weight (later edges win). -/
def fwInit (n : ℕ) (edges : List Edge) : FWState :=
  { dist := edges.foldl (fun d e => updMat d e.«from» e.«to» e.weight)
      (fun i j => if i = j then 0 else 999),
    next := edges.foldl (fun d e => updMat d e.«from» e.«to» (some e.«to»))
      (fun _ _ => none) }

/-- The whole of `floydWarshallAlgorithm`: the trace and the final
state. -/
def fwRun (n : ℕ) (edges : List Edge) : List FWStep × FWState :=
  let st0 := fwInit n edges
  let initStep : FWStep :=
    { kind := .init, distances := snapMat n st0.dist,
      next := snapMat n st0.next, k := -1, i := none, j := none,
      improvement := none }
  let r := fwOuter n (List.range n) st0
  let completeStep : FWStep :=
    { kind := .complete, distances := snapMat n r.1.dist,
      next := snapMat n r.1.next, k := (n : ℤ), i := none, j := none,
      improvement := none }
  ((initStep :: r.2) ++ [completeStep], r.1)

/-- The trace of `floydWarshallAlgorithm`. -/
def floydWarshallAlgorithm (n : ℕ) (edges : List Edge) : List FWStep :=
  (fwRun n edges).1

/-- The final Floyd-Warshall state. -/
def fwFinal (n : ℕ) (edges : List Edge) : FWState :=
  (fwRun n edges).2

/-- The directed adjacency view used by Bellman-Ford: each edge is a
single hop from its `from` vertex. -/
def dirAdj (edges : List Edge) (u : ℕ) : List (ℕ × ℤ) :=
  edges.filterMap
    (fun e => if e.«from» = u then some (e.«to», e.weight) else none)

/-- The complete-graph adjacency view in which Floyd-Warshall
operates: every hop `u → v` with `u ≠ v`, `v < n`, weighted by the
initial matrix entry (`999` for missing edges). -/
def fwAdj (n : ℕ) (edges : List Edge) (u : ℕ) : List (ℕ × ℤ) :=
  (List.range n).filterMap
    (fun v => if v = u then none else some (v, (fwInit n edges).dist u v))

/-- Embedding of a finite JavaScript number into the
infinity-carrying distance domain. -/
def intToDistVal (z : ℤ) : DistVal := (z : DistVal)

/-- C6 counterexample: on the negative-cycle-free graph with the
single edge `1 → 0` of weight `1` and source `0`, the final
Bellman-Ford distances are `[0, Infinity]` while row `0` of the final
Floyd-Warshall matrix is `[0, 999]`: the `INF = 999` sentinel is not
`Infinity`. -/
theorem bellmanFord_fw_row_cex :
    ∃ bfLast fwLast,
      (bellmanFordAlgorithm 2 [⟨1, 0, 1⟩] 0).getLast? = some bfLast ∧
      (floydWarshallAlgorithm 2 [⟨1, 0, 1⟩]).getLast? = some fwLast ∧
      bfLast.distances ≠
        (fwLast.distances.getD 0 []).map intToDistVal := by
  refine ⟨((bellmanFordAlgorithm 2 [⟨1, 0, 1⟩] 0).getLast?).getD
      { kind := .init, distances := [], previous := [], currentEdge := none,
        relaxationCount := 0, hasNegativeCycle := false },
    ((floydWarshallAlgorithm 2 [⟨1, 0, 1⟩]).getLast?).getD
      { kind := .init, distances := [], next := [], k := 0, i := none,
        j := none, improvement := none }, by decide, by decide, by decide⟩

/-! ### Shortening walks to simple paths -/

/-- A duplicated element splits a list in two places. -/
theorem dup_split {α : Type} {x : α} {v : List α} (h : List.Duplicate x v) :
    ∃ v₁ v₂, v = v₁ ++ x :: v₂ ∧ x ∈ v₂ := by
  induction h with
  | cons_mem hmem => exact ⟨[], _, rfl, hmem⟩
  | cons_duplicate hdup ih =>
    obtain ⟨v₁, v₂, heq, hmem⟩ := ih
    exact ⟨_ :: v₁, v₂, by rw [heq, List.cons_append], hmem⟩

/-- The `i`-th vertex visited by a walk is the end of its `i`-edge
prefix. -/
theorem verts_getD_eq_chainEnd :
    ∀ (l : List (ℕ × ℤ)) (s : ℕ) (i : ℕ), i ≤ l.length →
      (s :: l.map Prod.fst).getD i 0 = chainEnd s (l.take i) := by
  intro l
  induction l with
  | nil =>
    intro s i hi
    have : i = 0 := by simpa using hi
    subst this
    rfl
  | cons vw rest ih =>
    intro s i hi
    obtain ⟨v, w⟩ := vw
    cases i with
    | zero => rfl
    | succ i =>
      simp only [List.map_cons, List.take_succ_cons, chainEnd]
      have := ih v i (by simpa using hi)
      simpa using this

/-- A list of naturals below `n` that is longer than `n` has a
duplicate. -/
theorem long_list_not_nodup {v : List ℕ} {n : ℕ}
    (hall : ∀ x ∈ v, x < n) (hlen : n < v.length) : ¬ v.Nodup := by
  intro hnd
  have hsub : v.toFinset ⊆ Finset.range n := by
    intro x hx
    rw [List.mem_toFinset] at hx
    exact Finset.mem_range.mpr (hall x hx)
  have hcard := Finset.card_le_card hsub
  rw [Finset.card_range, List.toFinset_card_of_nodup hnd] at hcard
  omega

/-- All vertices reached along a walk are below `n` when adjacency
targets are. -/
theorem walk_verts_lt {adj : ℕ → List (ℕ × ℤ)} {n : ℕ}
    (htgt : ∀ u v w, (v, w) ∈ adj u → v < n) :
    ∀ (l : List (ℕ × ℤ)) (s : ℕ), IsWalk adj s l →
      ∀ x ∈ l.map Prod.fst, x < n := by
  intro l
  induction l with
  | nil => intro s _ x hx; cases hx
  | cons vw rest ih =>
    intro s hw x hx
    obtain ⟨v, w⟩ := vw
    obtain ⟨hmem, hrest⟩ := hw
    simp only [List.map_cons] at hx
    rcases List.mem_cons.mp hx with h | h
    · rw [h]
      exact htgt s v w hmem
    · exact ih v hrest x h

/-- Cutting a walk between two visits of the same vertex yields a
strictly shorter walk with the same end and no larger weight. -/
theorem walk_cut {adj : ℕ → List (ℕ × ℤ)}
    (hnn : ∀ u v w, (v, w) ∈ adj u → 0 ≤ w) {l : List (ℕ × ℤ)} {s : ℕ}
    (hw : IsWalk adj s l) {i j : ℕ} (hij : i < j) (hjl : j ≤ l.length)
    (heq : chainEnd s (l.take i) = chainEnd s (l.take j)) :
    ∃ l', IsWalk adj s l' ∧ chainEnd s l' = chainEnd s l ∧
      chainWeight l' ≤ chainWeight l ∧ l'.length < l.length := by
  have hsplit : l = l.take j ++ l.drop j := (List.take_append_drop j l).symm
  have htj : l.take j = l.take i ++ ((l.drop i).take (j - i)) := by
    rw [← List.take_add]
    congr 1
    omega
  have hw1 : IsWalk adj s (l.take j) ∧
      IsWalk adj (chainEnd s (l.take j)) (l.drop j) := by
    rw [← isWalk_append, ← hsplit]
    exact hw
  have hw2 : IsWalk adj s (l.take i) ∧
      IsWalk adj (chainEnd s (l.take i)) ((l.drop i).take (j - i)) := by
    rw [← isWalk_append, ← htj]
    exact hw1.1
  refine ⟨l.take i ++ l.drop j, ?_, ?_, ?_, ?_⟩
  · rw [isWalk_append]
    exact ⟨hw2.1, heq ▸ hw1.2⟩
  · rw [chainEnd_append, heq, ← chainEnd_append, ← hsplit]
  · have hmid : 0 ≤ chainWeight ((l.drop i).take (j - i)) :=
      chainWeight_nonneg hnn _ _ hw2.2
    have : chainWeight l =
        chainWeight (l.take i) + chainWeight ((l.drop i).take (j - i)) +
          chainWeight (l.drop j) := by
      conv_lhs => rw [hsplit]
      rw [chainWeight_append, htj, chainWeight_append]
    rw [chainWeight_append]
    omega
  · rw [List.length_append, List.length_take, List.length_drop]
    omega

/-- Every walk can be shortened to one with fewer than `n` edges, the
same endpoint, and no larger weight, when weights are non-negative and
all vertices lie below `n`. -/
theorem walk_shorten {adj : ℕ → List (ℕ × ℤ)} {n : ℕ}
    (hnn : ∀ u v w, (v, w) ∈ adj u → 0 ≤ w)
    (htgt : ∀ u v w, (v, w) ∈ adj u → v < n) {s : ℕ} (hs : s < n) :
    ∀ (L : ℕ) (l : List (ℕ × ℤ)), l.length ≤ L → IsWalk adj s l →
      ∃ l', IsWalk adj s l' ∧ chainEnd s l' = chainEnd s l ∧
        chainWeight l' ≤ chainWeight l ∧ l'.length < n := by
  intro L
  induction L with
  | zero =>
    intro l hl hw
    have : l = [] := List.eq_nil_of_length_eq_zero (by omega)
    subst this
    exact ⟨[], trivial, rfl, le_rfl, by omega⟩
  | succ L ih =>
    intro l hl hw
    by_cases hln : l.length < n
    · exact ⟨l, hw, rfl, le_rfl, hln⟩
    · -- pigeonhole: the visited vertex list has a duplicate
      have hvl : ∀ x ∈ s :: l.map Prod.fst, x < n := by
        intro x hx
        rcases List.mem_cons.mp hx with h | h
        · subst h; exact hs
        · exact walk_verts_lt htgt l s hw x h
      have hnd : ¬ (s :: l.map Prod.fst).Nodup :=
        long_list_not_nodup hvl (by simp; omega)
      obtain ⟨x, hdup⟩ := List.exists_duplicate_iff_not_nodup.mpr hnd
      obtain ⟨v₁, v₂, hveq, hxv₂⟩ := dup_split hdup
      obtain ⟨v₃, v₄, hv₂⟩ := List.append_of_mem hxv₂
      rw [hv₂] at hveq
      have hlenv : (s :: l.map Prod.fst).length = l.length + 1 := by simp
      rw [hveq] at hlenv
      simp only [List.length_append, List.length_cons] at hlenv
      set i := v₁.length with hi
      set j := v₁.length + 1 + v₃.length with hj
      have hgi : (s :: l.map Prod.fst).getD i 0 = x := by
        rw [hveq, List.getD_append_right _ _ _ _ le_rfl]
        simp
      have hgj : (s :: l.map Prod.fst).getD j 0 = x := by
        rw [hveq]
        rw [List.getD_append_right _ _ _ _ (by omega : v₁.length ≤ j)]
        have hjv : j - v₁.length = v₃.length + 1 := by omega
        rw [hjv]
        show (x :: (v₃ ++ x :: v₄)).getD (v₃.length + 1) 0 = x
        rw [List.getD_cons_succ]
        rw [List.getD_append_right _ _ _ _ le_rfl]
        simp
      have hij : i < j := by omega
      have hjl : j ≤ l.length := by omega
      have hchain : chainEnd s (l.take i) = chainEnd s (l.take j) := by
        rw [← verts_getD_eq_chainEnd l s i (by omega),
          ← verts_getD_eq_chainEnd l s j (by omega), hgi, hgj]
      obtain ⟨l', hw', hend', hwt', hlen'⟩ := walk_cut hnn hw hij hjl hchain
      obtain ⟨l'', hw'', hend'', hwt'', hlen''⟩ :=
        ih l' (by omega) hw'
      exact ⟨l'', hw'', hend''.trans hend', le_trans hwt'' hwt', hlen''⟩

/-! ### Bellman-Ford computes shortest walk distances -/

/-- Membership in the directed adjacency view. -/
theorem mem_dirAdj {edges : List Edge} {u : ℕ} {v : ℕ} {w : ℤ} :
    (v, w) ∈ dirAdj edges u ↔
      ∃ e ∈ edges, e.«from» = u ∧ e.«to» = v ∧ e.weight = w := by
  unfold dirAdj
  rw [List.mem_filterMap]
  constructor
  · rintro ⟨e, hmem, he⟩
    by_cases hfu : e.«from» = u
    · rw [if_pos hfu] at he
      injection he with he
      rw [Prod.mk.injEq] at he
      exact ⟨e, hmem, hfu, he.1, he.2⟩
    · rw [if_neg hfu] at he
      cases he
  · rintro ⟨e, hmem, hfu, htv, hww⟩
    refine ⟨e, hmem, ?_⟩
    rw [if_pos hfu, htv, hww]

/-- Every finite Bellman-Ford distance is the exact weight of some
walk from the source. -/
def bfWitness (edges : List Edge) (sv : ℕ) (s : BFState) : Prop :=
  ∀ v, s.dist v ≠ ⊤ →
    ∃ c : ℤ, CostReach (dirAdj edges) sv v c ∧ s.dist v = (c : DistVal)

/-- A pass that relaxed nothing left the state unchanged and found no
relaxable edge. -/
theorem bfRelaxEdges_changed_false (n : ℕ) :
    ∀ (es : List Edge) (rc : ℕ) (s : BFState),
      (bfRelaxEdges n rc s es).2.1 = false →
      (bfRelaxEdges n rc s es).1 = s ∧ ∀ e ∈ es, ¬bfRelaxable s.dist e := by
  intro es
  induction es with
  | nil => intro rc s _; exact ⟨rfl, fun e he => absurd he (List.not_mem_nil e)⟩
  | cons e es ih =>
    intro rc s hch
    rw [bfRelaxEdges] at hch ⊢
    by_cases hrel : bfRelaxable s.dist e
    · rw [if_pos hrel] at hch
      cases hch
    · rw [if_neg hrel] at hch ⊢
      obtain ⟨h1, h2⟩ := ih rc s hch
      refine ⟨h1, ?_⟩
      intro e' he'
      rcases List.mem_cons.mp he' with h | h
      · rw [h]; exact hrel
      · exact h2 e' h

/-- Relaxation passes never increase a distance. -/
theorem bfRelaxEdges_mono (n : ℕ) :
    ∀ (es : List Edge) (rc : ℕ) (s : BFState) (v : ℕ),
      (bfRelaxEdges n rc s es).1.dist v ≤ s.dist v := by
  intro es
  induction es with
  | nil => intro rc s v; exact le_rfl
  | cons e es ih =>
    intro rc s v
    rw [bfRelaxEdges]
    by_cases hrel : bfRelaxable s.dist e
    · rw [if_pos hrel]
      refine le_trans (ih _ _ v) ?_
      show Function.update s.dist e.«to»
        (s.dist e.«from» + (e.weight : DistVal)) v ≤ s.dist v
      by_cases hv : v = e.«to»
      · subst hv
        rw [Function.update_same]
        exact le_of_lt hrel.2
      · rw [Function.update_noteq hv]
    · rw [if_neg hrel]
      exact ih _ _ v

/-- After a full pass, every edge of the processed list is relaxed
with respect to the distances at the start of the pass. -/
theorem bfRelaxEdges_bound (n : ℕ) :
    ∀ (es : List Edge) (rc : ℕ) (s : BFState), ∀ e ∈ es,
      (bfRelaxEdges n rc s es).1.dist e.«to» ≤
        s.dist e.«from» + (e.weight : DistVal) := by
  intro es
  induction es with
  | nil => intro rc s e he; cases he
  | cons e₀ es ih =>
    intro rc s e he
    rw [bfRelaxEdges]
    by_cases hrel : bfRelaxable s.dist e₀
    · rw [if_pos hrel]
      set s' : BFState := bfRelax s e₀ with hs'
      have hs'le : ∀ x, s'.dist x ≤ s.dist x := by
        intro x
        show Function.update s.dist e₀.«to»
          (s.dist e₀.«from» + (e₀.weight : DistVal)) x ≤ s.dist x
        by_cases hx : x = e₀.«to»
        · subst hx
          rw [Function.update_same]
          exact le_of_lt hrel.2
        · rw [Function.update_noteq hx]
      rcases List.mem_cons.mp he with h | h
      · subst h
        have h1 : s'.dist e.«to» = s.dist e.«from» + (e.weight : DistVal) :=
          Function.update_same _ _ _
        refine le_trans (bfRelaxEdges_mono n es _ s' e.«to») ?_
        rw [h1]
      · refine le_trans (ih _ s' e h) ?_
        exact add_le_add_right (hs'le e.«from») _
    · rw [if_neg hrel]
      rcases List.mem_cons.mp he with h | h
      · subst h
        rw [bfRelaxable] at hrel
        push_neg at hrel
        by_cases htop : s.dist e.«from» = ⊤
        · rw [htop, top_add]
          exact le_top
        · refine le_trans (bfRelaxEdges_mono n es _ s e.«to») ?_
          exact le_of_not_lt fun hh => absurd (hrel htop) (not_le.mpr hh)
      · exact ih _ s e h

/-- The witness invariant survives a relaxation pass. -/
theorem bfRelaxEdges_witness (n : ℕ) {edges : List Edge} {sv : ℕ} :
    ∀ (es : List Edge), (∀ e ∈ es, e ∈ edges) →
      ∀ (rc : ℕ) (s : BFState), bfWitness edges sv s →
      bfWitness edges sv (bfRelaxEdges n rc s es).1 := by
  intro es
  induction es with
  | nil => intro _ rc s hw; exact hw
  | cons e es ih =>
    intro hsub rc s hw
    have hsub' : ∀ e' ∈ es, e' ∈ edges :=
      fun e' he' => hsub e' (List.mem_cons_of_mem _ he')
    rw [bfRelaxEdges]
    by_cases hrel : bfRelaxable s.dist e
    · rw [if_pos hrel]
      refine ih hsub' _ _ ?_
      intro v hv
      by_cases hve : v = e.«to»
      · subst hve
        obtain ⟨c, hc, heq⟩ := hw e.«from» hrel.1
        refine ⟨c + e.weight, hc.snoc ?_, ?_⟩
        · exact mem_dirAdj.mpr ⟨e, hsub e (List.mem_cons_self _ _), rfl, rfl, rfl⟩
        · show Function.update s.dist e.«to»
            (s.dist e.«from» + (e.weight : DistVal)) e.«to» = _
          rw [Function.update_same, heq]
          push_cast
          rfl
      · have : (bfRelax s e).dist v = s.dist v := Function.update_noteq hve _ _
        rw [this] at hv ⊢
        exact hw v hv
    · rw [if_neg hrel]
      exact ih hsub' _ _ hw

/-- The outer passes never increase a distance. -/
theorem bfPasses_mono (n : ℕ) (edges : List Edge) :
    ∀ (iters : ℕ) (s : BFState) (rc : ℕ) (v : ℕ),
      (bfPasses n edges iters s rc).1.dist v ≤ s.dist v := by
  intro iters
  induction iters with
  | zero => intro s rc v; exact le_rfl
  | succ iters ih =>
    intro s rc v
    rw [bfPasses]
    by_cases hch : (bfRelaxEdges n rc s edges).2.1 = true
    · rw [if_pos hch]
      exact le_trans (ih _ _ v) (bfRelaxEdges_mono n edges rc s v)
    · rw [if_neg hch]
      exact bfRelaxEdges_mono n edges rc s v

/-- The witness invariant survives the outer passes. -/
theorem bfPasses_witness (n : ℕ) {edges : List Edge} {sv : ℕ} :
    ∀ (iters : ℕ) (s : BFState) (rc : ℕ), bfWitness edges sv s →
      bfWitness edges sv (bfPasses n edges iters s rc).1 := by
  intro iters
  induction iters with
  | zero => intro s rc hw; exact hw
  | succ iters ih =>
    intro s rc hw
    rw [bfPasses]
    by_cases hch : (bfRelaxEdges n rc s edges).2.1 = true
    · rw [if_pos hch]
      exact ih _ _ (bfRelaxEdges_witness n edges (fun e he => he) rc s hw)
    · rw [if_neg hch]
      exact bfRelaxEdges_witness n edges (fun e he => he) rc s hw

/-- At a state where no edge is relaxable, distances bound the weight
of every walk. -/
theorem bf_fixpoint_walk_bound {edges : List Edge} {s : BFState}
    (hfix : ∀ e ∈ edges, ¬bfRelaxable s.dist e) :
    ∀ (l : List (ℕ × ℤ)) (a : ℕ), IsWalk (dirAdj edges) a l →
      s.dist (chainEnd a l) ≤ s.dist a + (chainWeight l : DistVal) := by
  intro l
  induction l with
  | nil =>
    intro a _
    show s.dist a ≤ s.dist a + ((0 : ℤ) : DistVal)
    simp
  | cons vw rest ih =>
    intro a hwalk
    obtain ⟨v, w⟩ := vw
    obtain ⟨hmem, hrest⟩ := hwalk
    obtain ⟨e, hemem, hef, het, hew⟩ := mem_dirAdj.mp hmem
    have hstep : s.dist v ≤ s.dist a + (w : DistVal) := by
      have := hfix e hemem
      rw [bfRelaxable] at this
      push_neg at this
      by_cases htop : s.dist a = ⊤
      · rw [htop, top_add]; exact le_top
      · have := this (by rw [hef]; exact htop)
        rw [hef, het, hew] at this
        exact this
    calc s.dist (chainEnd v rest) ≤ s.dist v + (chainWeight rest : DistVal) :=
          ih v hrest
      _ ≤ (s.dist a + (w : DistVal)) + (chainWeight rest : DistVal) :=
          add_le_add_right hstep _
      _ = s.dist a + (chainWeight ((v, w) :: rest) : DistVal) := by
          have hcw : chainWeight ((v, w) :: rest) = w + chainWeight rest := by
            simp [chainWeight]
          rw [hcw, add_assoc, WithTop.coe_add]

/-- After `iters` passes, distances bound the weight of every walk of
at most `iters` edges. -/
theorem bfPasses_walk_bound (n : ℕ) (edges : List Edge) :
    ∀ (iters : ℕ) (s : BFState) (rc : ℕ) (a : ℕ) (l : List (ℕ × ℤ)),
      IsWalk (dirAdj edges) a l → l.length ≤ iters →
      (bfPasses n edges iters s rc).1.dist (chainEnd a l) ≤
        s.dist a + (chainWeight l : DistVal) := by
  intro iters
  induction iters with
  | zero =>
    intro s rc a l hwalk hlen
    have : l = [] := List.eq_nil_of_length_eq_zero (by omega)
    subst this
    show s.dist a ≤ s.dist a + ((0 : ℤ) : DistVal)
    simp
  | succ iters ih =>
    intro s rc a l hwalk hlen
    rw [bfPasses]
    by_cases hch : (bfRelaxEdges n rc s edges).2.1 = true
    · rw [if_pos hch]
      cases l with
      | nil =>
        show (bfPasses n edges iters _ _).1.dist a ≤
          s.dist a + ((0 : ℤ) : DistVal)
        refine le_trans (bfPasses_mono n edges iters _ _ a) ?_
        refine le_trans (bfRelaxEdges_mono n edges rc s a) ?_
        simp
      | cons vw rest =>
        obtain ⟨v, w⟩ := vw
        obtain ⟨hmem, hrest⟩ := hwalk
        obtain ⟨e, hemem, hef, het, hew⟩ := mem_dirAdj.mp hmem
        have hstep : (bfRelaxEdges n rc s edges).1.dist v ≤
            s.dist a + (w : DistVal) := by
          have := bfRelaxEdges_bound n edges rc s e hemem
          rw [hef, het, hew] at this
          exact this
        calc (bfPasses n edges iters (bfRelaxEdges n rc s edges).1
              (bfRelaxEdges n rc s edges).2.2.1).1.dist (chainEnd v rest) ≤
            (bfRelaxEdges n rc s edges).1.dist v +
              (chainWeight rest : DistVal) :=
              ih _ _ v rest hrest
                (by simp only [List.length_cons] at hlen; omega)
          _ ≤ (s.dist a + (w : DistVal)) + (chainWeight rest : DistVal) :=
              add_le_add_right hstep _
          _ = s.dist a + (chainWeight ((v, w) :: rest) : DistVal) := by
              have hcw : chainWeight ((v, w) :: rest) = w + chainWeight rest := by
                simp [chainWeight]
              rw [hcw, add_assoc, WithTop.coe_add]
    · rw [if_neg hch]
      obtain ⟨hst, hfix⟩ := bfRelaxEdges_changed_false n edges rc s
        (by simpa using hch)
      rw [hst]
      exact bf_fixpoint_walk_bound hfix l a hwalk

/-- After the main relaxation passes, with in-range endpoints,
non-negative weights and an in-range source, Bellman-Ford's distances
are exactly the shortest directed walk distances. -/
theorem bf_shortest {n : ℕ} {edges : List Edge} {sv : ℕ}
    (hrange : ∀ e ∈ edges, e.«from» < n ∧ e.«to» < n)
    (hnn : ∀ e ∈ edges, 0 ≤ e.weight) (hsv : sv < n) :
    ∀ v, IsShortestDist (dirAdj edges) sv v ((bfMainState n edges sv).dist v) := by
  have htgt : ∀ u v w, (v, w) ∈ dirAdj edges u → v < n := by
    intro u v w hm
    obtain ⟨e, he, _, het, _⟩ := mem_dirAdj.mp hm
    rw [← het]
    exact (hrange e he).2
  have hwnn : ∀ u v w, (v, w) ∈ dirAdj edges u → 0 ≤ w := by
    intro u v w hm
    obtain ⟨e, he, _, _, hew⟩ := mem_dirAdj.mp hm
    rw [← hew]
    exact hnn e he
  have hmain : bfMainState n edges sv =
      (bfPasses n edges (n - 1) (bfInitState sv) 0).1 := rfl
  have hw0 : bfWitness edges sv (bfInitState sv) := by
    intro v hv
    simp only [bfInitState] at hv ⊢
    by_cases hvs : v = sv
    · subst hvs
      exact ⟨0, CostReach.refl _ _, by rw [if_pos rfl]; rfl⟩
    · rw [if_neg hvs] at hv
      exact absurd rfl hv
  have hwit : bfWitness edges sv (bfMainState n edges sv) := by
    rw [hmain]
    exact bfPasses_witness n (n - 1) _ 0 hw0
  have hbound : ∀ (l : List (ℕ × ℤ)), IsWalk (dirAdj edges) sv l →
      (bfMainState n edges sv).dist (chainEnd sv l) ≤
        (chainWeight l : DistVal) := by
    intro l hl
    obtain ⟨l', hw', hend', hwt', hlen'⟩ :=
      walk_shorten hwnn htgt hsv l.length l le_rfl hl
    have h1 : (bfMainState n edges sv).dist (chainEnd sv l') ≤
        (bfInitState sv).dist sv + (chainWeight l' : DistVal) := by
      rw [hmain]
      exact bfPasses_walk_bound n edges (n - 1) _ 0 sv l' hw' (by omega)
    rw [hend'] at h1
    have h2 : (bfInitState sv).dist sv = 0 := by
      simp [bfInitState]
    rw [h2, zero_add] at h1
    exact le_trans h1 (by exact_mod_cast hwt')
  intro v
  constructor
  · intro htop c hc
    obtain ⟨l, hl, hend, hwt⟩ := hc
    have := hbound l hl
    rw [hend, htop, hwt] at this
    exact WithTop.coe_ne_top (top_le_iff.mp this)
  · intro k hk
    obtain ⟨c, hreach, heq⟩ := hwit v (by rw [hk]; exact WithTop.coe_ne_top)
    have hck : c = k := by
      rw [hk] at heq
      exact_mod_cast heq.symm
    subst hck
    refine ⟨hreach, ?_⟩
    intro c' hc'
    obtain ⟨l, hl, hend, hwt⟩ := hc'
    have := hbound l hl
    rw [hend, hk, hwt] at this
    exact_mod_cast this

/-! ### Floyd-Warshall computes shortest walk distances -/

/-- The intermediate vertices of a walk: every vertex it reaches
except the final one. -/
def intermVerts (l : List (ℕ × ℤ)) : List ℕ := (l.map Prod.fst).dropLast

/-- All intermediate vertices of a walk lie below `k`. -/
def Interm (l : List (ℕ × ℤ)) (k : ℕ) : Prop := ∀ x ∈ intermVerts l, x < k

/-- Membership in the complete-graph adjacency view. -/
theorem mem_fwAdj {n : ℕ} {edges : List Edge} {u v : ℕ} {w : ℤ} :
    (v, w) ∈ fwAdj n edges u ↔
      v < n ∧ v ≠ u ∧ w = (fwInit n edges).dist u v := by
  unfold fwAdj
  rw [List.mem_filterMap]
  constructor
  · rintro ⟨x, hx, hxe⟩
    by_cases hxu : x = u
    · rw [if_pos hxu] at hxe
      cases hxe
    · rw [if_neg hxu] at hxe
      injection hxe with hxe
      rw [Prod.mk.injEq] at hxe
      obtain ⟨h1, h2⟩ := hxe
      subst h1
      exact ⟨List.mem_range.mp hx, hxu, h2.symm⟩
  · rintro ⟨hvn, hvu, hweq⟩
    refine ⟨v, List.mem_range.mpr hvn, ?_⟩
    rw [if_neg hvu, hweq]

/-- Without self-loop edges the initial matrix has a zero diagonal. -/
theorem fwInit_diag {n : ℕ} {edges : List Edge}
    (hns : ∀ e ∈ edges, e.«from» ≠ e.«to») :
    ∀ i, (fwInit n edges).dist i i = 0 := by
  show ∀ i, (edges.foldl (fun d e => updMat d e.«from» e.«to» e.weight)
    (fun i j => if i = j then 0 else 999)) i i = 0
  have hgen : ∀ (es : List Edge) (d : ℕ → ℕ → ℤ),
      (∀ e ∈ es, e.«from» ≠ e.«to») → (∀ i, d i i = 0) →
      ∀ i, (es.foldl (fun d e => updMat d e.«from» e.«to» e.weight) d) i i = 0 := by
    intro es
    induction es with
    | nil => intro d _ hd i; exact hd i
    | cons e es ih =>
      intro d hes hd i
      rw [List.foldl_cons]
      refine ih _ (fun e' he' => hes e' (List.mem_cons_of_mem _ he')) ?_ i
      intro a
      show (if a = e.«from» ∧ a = e.«to» then e.weight else d a a) = 0
      rw [if_neg]
      · exact hd a
      · rintro ⟨h1, h2⟩
        exact hes e (List.mem_cons_self _ _) (by rw [← h1, ← h2])
  intro i
  exact hgen edges _ hns (fun a => by rw [if_pos rfl]) i

/-- With non-negative edge weights every initial matrix entry is
non-negative. -/
theorem fwInit_nonneg {n : ℕ} {edges : List Edge}
    (hnn : ∀ e ∈ edges, 0 ≤ e.weight) :
    ∀ i j, 0 ≤ (fwInit n edges).dist i j := by
  show ∀ i j, 0 ≤ (edges.foldl (fun d e => updMat d e.«from» e.«to» e.weight)
    (fun i j => if i = j then 0 else 999)) i j
  have hgen : ∀ (es : List Edge) (d : ℕ → ℕ → ℤ),
      (∀ e ∈ es, 0 ≤ e.weight) → (∀ i j, 0 ≤ d i j) →
      ∀ i j, 0 ≤ (es.foldl (fun d e => updMat d e.«from» e.«to» e.weight) d) i j := by
    intro es
    induction es with
    | nil => intro d _ hd i j; exact hd i j
    | cons e es ih =>
      intro d hes hd i j
      rw [List.foldl_cons]
      refine ih _ (fun e' he' => hes e' (List.mem_cons_of_mem _ he')) ?_ i j
      intro a b
      show 0 ≤ (if a = e.«from» ∧ b = e.«to» then e.weight else d a b)
      by_cases h : a = e.«from» ∧ b = e.«to»
      · rw [if_pos h]
        exact hes e (List.mem_cons_self _ _)
      · rw [if_neg h]
        exact hd a b
  intro i j
  refine hgen edges _ hnn ?_ i j
  intro a b
  by_cases h : a = b
  · rw [if_pos h]
  · rw [if_neg h]
    omega

/-- The weights of the complete-graph adjacency are non-negative. -/
theorem fwAdj_weight_nonneg {n : ℕ} {edges : List Edge}
    (hnn : ∀ e ∈ edges, 0 ≤ e.weight) :
    ∀ u v w, (v, w) ∈ fwAdj n edges u → 0 ≤ w := by
  intro u v w hm
  obtain ⟨_, _, hw⟩ := mem_fwAdj.mp hm
  rw [hw]
  exact fwInit_nonneg hnn u v

/-- The targets of the complete-graph adjacency lie below `n`. -/
theorem fwAdj_target_lt {n : ℕ} {edges : List Edge} :
    ∀ u v w, (v, w) ∈ fwAdj n edges u → v < n := by
  intro u v w hm
  exact (mem_fwAdj.mp hm).1

/-- A nonempty walk's visited-vertex list is its intermediate
vertices followed by its end. -/
theorem map_fst_eq_interm_append :
    ∀ (l : List (ℕ × ℤ)) (s : ℕ), l ≠ [] →
      l.map Prod.fst = intermVerts l ++ [chainEnd s l] := by
  intro l
  induction l with
  | nil => intro s h; exact absurd rfl h
  | cons vw rest ih =>
    intro s _
    obtain ⟨v, w⟩ := vw
    cases rest with
    | nil => rfl
    | cons vw' rest' =>
      have hne : (vw' :: rest' : List (ℕ × ℤ)) ≠ [] := List.cons_ne_nil _ _
      have hrec := ih v hne
      have h1 : ((v, w) :: vw' :: rest').map Prod.fst =
          v :: (vw' :: rest').map Prod.fst := rfl
      have h2 : intermVerts ((v, w) :: vw' :: rest') =
          v :: intermVerts (vw' :: rest') := by
        unfold intermVerts
        simp only [List.map_cons]
        rw [List.dropLast_cons_of_ne_nil]
        exact List.cons_ne_nil _ _
      have h3 : chainEnd s ((v, w) :: vw' :: rest') =
          chainEnd v (vw' :: rest') := rfl
      rw [h1, h2, h3, hrec, List.cons_append]

/-- Intermediate vertices of an append with nonempty second part. -/
theorem intermVerts_append {l₁ l₂ : List (ℕ × ℤ)} (h : l₂ ≠ []) :
    intermVerts (l₁ ++ l₂) = l₁.map Prod.fst ++ intermVerts l₂ := by
  unfold intermVerts
  rw [List.map_append]
  have h2 : l₂.map Prod.fst ≠ [] := by
    intro hc
    exact h (List.map_eq_nil.mp hc)
  induction l₁ with
  | nil => simp
  | cons x xs ih =>
    simp only [List.map_cons, List.cons_append]
    rw [List.dropLast_cons_of_ne_nil, ih]
    intro hc
    have := List.append_eq_nil.mp hc
    exact h2 this.2

/-- Splitting a walk at the first intermediate visit of `x`. -/
theorem interm_first_split {x : ℕ} :
    ∀ (l : List (ℕ × ℤ)) (s : ℕ), x ∈ intermVerts l →
      ∃ l₁ l₂, l = l₁ ++ l₂ ∧ l₁ ≠ [] ∧ l₂ ≠ [] ∧
        chainEnd s l₁ = x ∧ x ∉ intermVerts l₁ := by
  intro l
  induction l with
  | nil => intro s h; cases h
  | cons vw rest ih =>
    intro s hx
    obtain ⟨v, w⟩ := vw
    cases rest with
    | nil => cases hx
    | cons vw' rest' =>
      have hiverts : intermVerts ((v, w) :: vw' :: rest') =
          v :: intermVerts (vw' :: rest') := by
        unfold intermVerts
        simp only [List.map_cons]
        rw [List.dropLast_cons_of_ne_nil]
        exact List.cons_ne_nil _ _
      rw [hiverts] at hx
      by_cases hxv : x = v
      · subst hxv
        exact ⟨[(x, w)], vw' :: rest', rfl, List.cons_ne_nil _ _,
          List.cons_ne_nil _ _, rfl, by intro h; cases h⟩
      · have hx' : x ∈ intermVerts (vw' :: rest') := by
          rcases List.mem_cons.mp hx with h | h
          · exact absurd h hxv
          · exact h
        obtain ⟨r₁, r₂, heq, hr₁, hr₂, hend, hnot⟩ := ih v hx'
        refine ⟨(v, w) :: r₁, r₂, by rw [List.cons_append, ← heq],
          List.cons_ne_nil _ _, hr₂, ?_, ?_⟩
        · show chainEnd v r₁ = x
          exact hend
        · intro hc
          have hic : intermVerts ((v, w) :: r₁) = v :: intermVerts r₁ := by
            unfold intermVerts
            simp only [List.map_cons]
            rw [List.dropLast_cons_of_ne_nil]
            intro hnil
            exact hr₁ (List.map_eq_nil.mp hnil)
          rw [hic] at hc
          rcases List.mem_cons.mp hc with h | h
          · exact hxv h
          · exact hnot h

/-- Behaviour of the innermost Floyd-Warshall loop on row `i` for
pivot `k` (the pivot's diagonal entry being zero): other rows, columns
outside the processed list, column `k` and the diagonal are unchanged,
and each processed off-diagonal entry becomes the min of itself and
the two-leg path through `k`. -/
theorem fwInnerJ_spec (n k i : ℕ) :
    ∀ (js : List ℕ) (st : FWState), st.dist k k = 0 →
      (∀ a b, a ≠ i → (fwInnerJ n k i js st).1.dist a b = st.dist a b) ∧
      (∀ b, b ∉ js → (fwInnerJ n k i js st).1.dist i b = st.dist i b) ∧
      ((fwInnerJ n k i js st).1.dist i k = st.dist i k) ∧
      (∀ a, (fwInnerJ n k i js st).1.dist a a = st.dist a a) ∧
      (js.Nodup → ∀ j ∈ js, i ≠ j →
        (fwInnerJ n k i js st).1.dist i j =
          min (st.dist i j) (st.dist i k + st.dist k j)) := by
  intro js
  induction js with
  | nil =>
    intro st _
    exact ⟨fun a b _ => rfl, fun b _ => rfl, rfl, fun a => rfl,
      fun _ j hj => absurd hj (List.not_mem_nil j)⟩
  | cons j js ih =>
    intro st hkk
    rw [fwInnerJ]
    by_cases hcond : i ≠ j ∧ st.dist i k + st.dist k j < st.dist i j
    · rw [if_pos hcond]
      have hik : i ≠ k := by
        intro h
        subst h
        rw [hkk, zero_add] at hcond
        exact lt_irrefl _ hcond.2
      have hjk : j ≠ k := by
        intro h
        subst h
        rw [hkk, add_zero] at hcond
        exact lt_irrefl _ hcond.2
      set st' : FWState :=
        { dist := updMat st.dist i j (st.dist i k + st.dist k j),
          next := updMat st.next i j (st.next i k) } with hst'def
      have hst' : ∀ a b, st'.dist a b =
          if a = i ∧ b = j then st.dist i k + st.dist k j
          else st.dist a b := fun a b => rfl
      have hkk' : st'.dist k k = 0 := by
        rw [hst', if_neg (fun h => hik h.1.symm), hkk]
      obtain ⟨ih1, ih2, ih3, ih4, ih5⟩ := ih st' hkk'
      refine ⟨?_, ?_, ?_, ?_, ?_⟩
      · intro a b ha
        rw [ih1 a b ha, hst', if_neg (fun h => ha h.1)]
      · intro b hb
        rw [ih2 b (fun h => hb (List.mem_cons_of_mem _ h)), hst',
          if_neg (fun (h : i = i ∧ b = j) => hb (by
            rw [h.2]; exact List.mem_cons_self _ _))]
      · rw [ih3, hst', if_neg (fun h => hjk h.2.symm)]
      · intro a
        rw [ih4 a, hst', if_neg (fun h => hcond.1 (h.1.symm.trans h.2))]
      · intro hnd j' hj' hij'
        have hjnotin : j ∉ js := (List.nodup_cons.mp hnd).1
        have hnd' : js.Nodup := (List.nodup_cons.mp hnd).2
        rcases List.mem_cons.mp hj' with h | h
        · subst h
          rw [ih2 j' hjnotin, hst', if_pos ⟨rfl, rfl⟩]
          exact (min_eq_right (le_of_lt hcond.2)).symm
        · have hj'j : j' ≠ j := fun hc => hjnotin (hc ▸ h)
          rw [ih5 hnd' j' h hij',
            hst', if_neg (fun hc => hj'j hc.2),
            hst', if_neg (fun hc => hjk hc.2.symm),
            hst', if_neg (fun hc => hik hc.1.symm)]
    · rw [if_neg hcond]
      obtain ⟨ih1, ih2, ih3, ih4, ih5⟩ := ih st hkk
      refine ⟨ih1, ?_, ih3, ih4, ?_⟩
      · intro b hb
        exact ih2 b (fun h => hb (List.mem_cons_of_mem _ h))
      · intro hnd j' hj' hij'
        have hjnotin : j ∉ js := (List.nodup_cons.mp hnd).1
        have hnd' : js.Nodup := (List.nodup_cons.mp hnd).2
        rcases List.mem_cons.mp hj' with h | h
        · subst h
          rw [ih2 j' hjnotin]
          refine (min_eq_left ?_).symm
          rcases not_and_or.mp hcond with h | h
          · exact absurd hij' h
          · exact le_of_not_lt h
        · exact ih5 hnd' j' h hij'

/-- Behaviour of the middle Floyd-Warshall loop for pivot `k`:
unprocessed rows, row `k`, column `k` and the diagonal are unchanged,
and each processed off-diagonal in-range entry becomes the min of
itself and the two-leg path through `k`. -/
theorem fwInnerI_spec (n k : ℕ) :
    ∀ (is : List ℕ), is.Nodup → ∀ (st : FWState), st.dist k k = 0 →
      (∀ a b, a ∉ is → (fwInnerI n k is st).1.dist a b = st.dist a b) ∧
      (∀ b, (fwInnerI n k is st).1.dist k b = st.dist k b) ∧
      (∀ a, (fwInnerI n k is st).1.dist a k = st.dist a k) ∧
      (∀ a, (fwInnerI n k is st).1.dist a a = st.dist a a) ∧
      (∀ i ∈ is, ∀ j, j < n → i ≠ j →
        (fwInnerI n k is st).1.dist i j =
          min (st.dist i j) (st.dist i k + st.dist k j)) := by
  intro is
  induction is with
  | nil =>
    intro _ st _
    exact ⟨fun a b _ => rfl, fun b => rfl, fun a => rfl, fun a => rfl,
      fun i hi => absurd hi (List.not_mem_nil i)⟩
  | cons i is ih =>
    intro hnd st hkk
    have hinotin : i ∉ is := (List.nodup_cons.mp hnd).1
    have hnd' : is.Nodup := (List.nodup_cons.mp hnd).2
    obtain ⟨j1, j2, j3, j4, j5⟩ := fwInnerJ_spec n k i (List.range n) st hkk
    have hkk₁ : (fwInnerJ n k i (List.range n) st).1.dist k k = 0 := by
      rw [j4 k, hkk]
    obtain ⟨i1, i2, i3, i4, i5⟩ :=
      ih hnd' (fwInnerJ n k i (List.range n) st).1 hkk₁
    have hrowk : ∀ b, (fwInnerJ n k i (List.range n) st).1.dist k b =
        st.dist k b := by
      intro b
      by_cases hki : k = i
      · subst hki
        by_cases hbk : b = k
        · subst hbk; exact j4 b
        · by_cases hbn : b ∈ List.range n
          · rw [j5 (List.nodup_range n) b hbn (fun h => hbk h.symm), hkk,
              zero_add, min_self]
          · exact j2 b hbn
      · exact j1 k b hki
    have hcolk : ∀ a, (fwInnerJ n k i (List.range n) st).1.dist a k =
        st.dist a k := by
      intro a
      by_cases hai : a = i
      · subst hai; exact j3
      · exact j1 a k hai
    have hII : (fwInnerI n k (i :: is) st).1 =
        (fwInnerI n k is (fwInnerJ n k i (List.range n) st).1).1 := rfl
    rw [hII]
    refine ⟨?_, ?_, ?_, ?_, ?_⟩
    · intro a b ha
      rw [i1 a b (fun h => ha (List.mem_cons_of_mem _ h)),
        j1 a b (fun h => ha (h ▸ List.mem_cons_self _ _))]
    · intro b
      rw [i2 b, hrowk b]
    · intro a
      rw [i3 a, hcolk a]
    · intro a
      rw [i4 a, j4 a]
    · intro i' hi' j hj hij
      rcases List.mem_cons.mp hi' with h | h
      · subst h
        rw [i1 i' j hinotin,
          j5 (List.nodup_range n) j (List.mem_range.mpr hj) hij]
      · have hi'i : i' ≠ i := fun hc => hinotin (hc ▸ h)
        rw [i5 i' h j hj hij, j1 i' j hi'i, hcolk i', hrowk j]

/-- The Floyd-Warshall loop invariant after processing pivots `< k`:
the diagonal is zero, every in-range entry is the weight of some walk
with intermediate vertices `< k`, and bounds every such walk from
below. -/
def FWInv (n : ℕ) (edges : List Edge) (k : ℕ) (st : FWState) : Prop :=
  (∀ i, st.dist i i = 0) ∧
  (∀ i j, i < n → j < n →
    ∃ l, IsWalk (fwAdj n edges) i l ∧ chainEnd i l = j ∧ Interm l k ∧
      chainWeight l = st.dist i j) ∧
  (∀ i j, i < n → j < n → ∀ l, IsWalk (fwAdj n edges) i l →
    chainEnd i l = j → Interm l k → st.dist i j ≤ chainWeight l)

theorem fwInv_init {n : ℕ} {edges : List Edge}
    (hns : ∀ e ∈ edges, e.«from» ≠ e.«to») :
    FWInv n edges 0 (fwInit n edges) := by
  refine ⟨fwInit_diag hns, ?_, ?_⟩
  · intro i j hi hj
    by_cases hij : i = j
    · subst hij
      refine ⟨[], trivial, rfl, ?_, ?_⟩
      · intro x hx; cases hx
      · rw [fwInit_diag hns]
        rfl
    · refine ⟨[(j, (fwInit n edges).dist i j)], ?_, rfl, ?_, ?_⟩
      · exact ⟨mem_fwAdj.mpr ⟨hj, fun h => hij h.symm, rfl⟩, trivial⟩
      · intro x hx; cases hx
      · simp [chainWeight]
  · intro i j hi hj l hwalk hend hint
    cases l with
    | nil =>
      rw [chainEnd] at hend
      subst hend
      rw [fwInit_diag hns]
      show (0 : ℤ) ≤ 0
      exact le_refl 0
    | cons vw rest =>
      obtain ⟨v, w⟩ := vw
      cases rest with
      | nil =>
        obtain ⟨hmem, _⟩ := hwalk
        obtain ⟨hvn, hvi, hweq⟩ := mem_fwAdj.mp hmem
        rw [chainEnd, chainEnd] at hend
        subst hend
        rw [hweq]
        simp [chainWeight]
      | cons vw' rest' =>
        exfalso
        have hv : v ∈ intermVerts ((v, w) :: vw' :: rest') := by
          unfold intermVerts
          simp only [List.map_cons]
          rw [List.dropLast_cons_of_ne_nil (List.cons_ne_nil _ _)]
          exact List.mem_cons_self _ _
        exact absurd (hint v hv) (Nat.not_lt_zero v)

/-- Walks starting at the pivot `k` with intermediates `< k + 1` are
bounded below by the pivot row, before the pivot iteration runs. -/
theorem fw_pivot_walk_bound {n : ℕ} {edges : List Edge}
    (hnn : ∀ e ∈ edges, 0 ≤ e.weight) {k : ℕ} (hk : k < n) {st : FWState}
    (hdiag : ∀ i, st.dist i i = 0)
    (hL : ∀ i j, i < n → j < n → ∀ l, IsWalk (fwAdj n edges) i l →
      chainEnd i l = j → Interm l k → st.dist i j ≤ chainWeight l) :
    ∀ (m : ℕ) (l : List (ℕ × ℤ)), l.length ≤ m → ∀ j, j < n →
      IsWalk (fwAdj n edges) k l → chainEnd k l = j → Interm l (k + 1) →
      st.dist k j ≤ chainWeight l := by
  intro m
  induction m with
  | zero =>
    intro l hlen j hj hwalk hend hint
    have : l = [] := List.eq_nil_of_length_eq_zero (by omega)
    subst this
    rw [chainEnd] at hend
    subst hend
    rw [hdiag]
    exact le_refl 0
  | succ m ih =>
    intro l hlen j hj hwalk hend hint
    by_cases hkin : k ∈ intermVerts l
    · obtain ⟨l₁, l₂, heq, h1ne, h2ne, hend₁, hnotin⟩ :=
        interm_first_split l k hkin
      have hsplitw : IsWalk (fwAdj n edges) k l₁ ∧
          IsWalk (fwAdj n edges) (chainEnd k l₁) l₂ := by
        rw [← isWalk_append, ← heq]
        exact hwalk
      have hclaim2 : IsWalk (fwAdj n edges) k l₂ := by
        have := hsplitw.2
        rwa [hend₁] at this
      have hend₂ : chainEnd k l₂ = j := by
        have : chainEnd k l = chainEnd (chainEnd k l₁) l₂ := by
          rw [heq, chainEnd_append]
        rw [hend, hend₁] at this
        exact this.symm
      have hint₂ : Interm l₂ (k + 1) := by
        intro x hx
        refine hint x ?_
        rw [heq, intermVerts_append h2ne]
        exact List.mem_append_right _ hx
      have hlen₂ : l₂.length ≤ m := by
        have : l.length = l₁.length + l₂.length := by
          rw [heq, List.length_append]
        have h1 : 0 < l₁.length := List.length_pos.mpr h1ne
        omega
      have h1nn : 0 ≤ chainWeight l₁ :=
        chainWeight_nonneg (fwAdj_weight_nonneg hnn) l₁ k hsplitw.1
      have := ih l₂ hlen₂ j hj hclaim2 hend₂ hint₂
      have hwl : chainWeight l = chainWeight l₁ + chainWeight l₂ := by
        rw [heq, chainWeight_append]
      omega
    · have hintk : Interm l k := by
        intro x hx
        have := hint x hx
        rcases Nat.lt_succ_iff_lt_or_eq.mp this with h | h
        · exact h
        · exact absurd (h ▸ hx) hkin
      exact hL k j hk hj l hwalk hend hintk

/-- One pivot iteration advances the Floyd-Warshall invariant. -/
theorem fwInv_step {n : ℕ} {edges : List Edge}
    (hnn : ∀ e ∈ edges, 0 ≤ e.weight) {k : ℕ} (hk : k < n) {st : FWState}
    (hinv : FWInv n edges k st) :
    FWInv n edges (k + 1) (fwInnerI n k (List.range n) st).1 := by
  obtain ⟨hdiag, hW, hL⟩ := hinv
  obtain ⟨s1, s2, s3, s4, s5⟩ :=
    fwInnerI_spec n k (List.range n) (List.nodup_range n) st (hdiag k)
  have hR1 : ∀ i j, i < n → j < n → i ≠ j →
      (fwInnerI n k (List.range n) st).1.dist i j =
        min (st.dist i j) (st.dist i k + st.dist k j) :=
    fun i j hi hj hij => s5 i (List.mem_range.mpr hi) j hj hij
  have hdiag' : ∀ a, (fwInnerI n k (List.range n) st).1.dist a a = 0 :=
    fun a => (s4 a).trans (hdiag a)
  refine ⟨hdiag', ?_, ?_⟩
  · -- witnesses
    intro i j hi hj
    by_cases hij : i = j
    · subst hij
      refine ⟨[], trivial, rfl, fun x hx => absurd hx (by
        intro hc
        cases hc), ?_⟩
      rw [hdiag' i]
      rfl
    · rw [hR1 i j hi hj hij]
      rcases le_total (st.dist i j) (st.dist i k + st.dist k j) with hle | hle
      · rw [min_eq_left hle]
        obtain ⟨l, hw, he, hin, hwt⟩ := hW i j hi hj
        exact ⟨l, hw, he, fun x hx => Nat.lt_succ_of_lt (hin x hx), hwt⟩
      · rw [min_eq_right hle]
        obtain ⟨l₁, hw₁, he₁, hin₁, hwt₁⟩ := hW i k hi hk
        obtain ⟨l₂, hw₂, he₂, hin₂, hwt₂⟩ := hW k j hk hj
        refine ⟨l₁ ++ l₂, ?_, ?_, ?_, ?_⟩
        · rw [isWalk_append]
          exact ⟨hw₁, he₁ ▸ hw₂⟩
        · rw [chainEnd_append, he₁, he₂]
        · intro x hx
          by_cases h2ne : l₂ = []
          · subst h2ne
            rw [List.append_nil] at hx
            exact Nat.lt_succ_of_lt (hin₁ x hx)
          · rw [intermVerts_append h2ne] at hx
            rcases List.mem_append.mp hx with h | h
            · by_cases h1ne : l₁ = []
              · subst h1ne
                cases h
              · rw [map_fst_eq_interm_append l₁ i h1ne] at h
                rcases List.mem_append.mp h with h' | h'
                · exact Nat.lt_succ_of_lt (hin₁ x h')
                · have : x = chainEnd i l₁ := List.mem_singleton.mp h'
                  rw [this, he₁]
                  exact Nat.lt_succ_self k
            · exact Nat.lt_succ_of_lt (hin₂ x h)
        · rw [chainWeight_append, hwt₁, hwt₂]
  · -- lower bounds
    intro i j hi hj l hwalk hend hint
    by_cases hij : i = j
    · subst hij
      rw [hdiag' i]
      exact chainWeight_nonneg (fwAdj_weight_nonneg hnn) l i hwalk
    · rw [hR1 i j hi hj hij]
      by_cases hkin : k ∈ intermVerts l
      · obtain ⟨l₁, l₂, heq, h1ne, h2ne, hend₁, hnotin⟩ :=
          interm_first_split l i hkin
        have hsplitw : IsWalk (fwAdj n edges) i l₁ ∧
            IsWalk (fwAdj n edges) (chainEnd i l₁) l₂ := by
          rw [← isWalk_append, ← heq]
          exact hwalk
        have hw₂ : IsWalk (fwAdj n edges) k l₂ := by
          have := hsplitw.2
          rwa [hend₁] at this
        have hend₂ : chainEnd k l₂ = j := by
          have : chainEnd i l = chainEnd (chainEnd i l₁) l₂ := by
            rw [heq, chainEnd_append]
          rw [hend, hend₁] at this
          exact this.symm
        have hint₁ : Interm l₁ k := by
          intro x hx
          have hxl : x ∈ intermVerts l := by
            rw [heq, intermVerts_append h2ne]
            exact List.mem_append_left _ ((List.dropLast_sublist _).subset hx)
          have hlt := hint x hxl
          rcases Nat.lt_succ_iff_lt_or_eq.mp hlt with h | h
          · exact h
          · exact absurd (h ▸ hx) hnotin
        have hint₂ : Interm l₂ (k + 1) := by
          intro x hx
          refine hint x ?_
          rw [heq, intermVerts_append h2ne]
          exact List.mem_append_right _ hx
        have hb₁ : st.dist i k ≤ chainWeight l₁ :=
          hL i k hi hk l₁ hsplitw.1 hend₁ hint₁
        have hb₂ : st.dist k j ≤ chainWeight l₂ :=
          fw_pivot_walk_bound hnn hk hdiag hL l₂.length l₂ le_rfl j hj hw₂
            hend₂ hint₂
        have hwl : chainWeight l = chainWeight l₁ + chainWeight l₂ := by
          rw [heq, chainWeight_append]
        have : st.dist i k + st.dist k j ≤ chainWeight l := by omega
        exact le_trans (min_le_right _ _) this
      · have hintk : Interm l k := by
          intro x hx
          have := hint x hx
          rcases Nat.lt_succ_iff_lt_or_eq.mp this with h | h
          · exact h
          · exact absurd (h ▸ hx) hkin
        exact le_trans (min_le_left _ _)
          (hL i j hi hj l hwalk hend hintk)

/-- Running the outer loop over the remaining pivots completes the
invariant. -/
theorem fwOuter_inv {n : ℕ} {edges : List Edge}
    (hnn : ∀ e ∈ edges, 0 ≤ e.weight) :
    ∀ (m k0 : ℕ), k0 + m = n → ∀ st : FWState, FWInv n edges k0 st →
      FWInv n edges n ((fwOuter n (List.range' k0 m) st).1) := by
  intro m
  induction m with
  | zero =>
    intro k0 hk0 st hinv
    rw [show List.range' k0 0 = [] from rfl, fwOuter]
    have hkn : k0 = n := by omega
    subst hkn
    exact hinv
  | succ m ih =>
    intro k0 hk0 st hinv
    rw [List.range'_succ, fwOuter]
    exact ih (k0 + 1) (by omega) _ (fwInv_step hnn (by omega) hinv)

/-- The final Floyd-Warshall matrix holds, at each in-range pair, the
exact minimum walk weight in the complete sentinel-weighted graph. -/
theorem fw_shortest {n : ℕ} {edges : List Edge}
    (hnn : ∀ e ∈ edges, 0 ≤ e.weight)
    (hns : ∀ e ∈ edges, e.«from» ≠ e.«to») :
    ∀ i j, i < n → j < n →
      (∃ l, IsWalk (fwAdj n edges) i l ∧ chainEnd i l = j ∧
        chainWeight l = (fwFinal n edges).dist i j) ∧
      (∀ l, IsWalk (fwAdj n edges) i l → chainEnd i l = j →
        (fwFinal n edges).dist i j ≤ chainWeight l) := by
  have hfinal : fwFinal n edges =
      (fwOuter n (List.range n) (fwInit n edges)).1 := rfl
  have hinv : FWInv n edges n (fwFinal n edges) := by
    rw [hfinal, List.range_eq_range']
    exact fwOuter_inv hnn n 0 (by omega) _ (fwInv_init hns)
  obtain ⟨hdiag, hW, hL⟩ := hinv
  intro i j hi hj
  constructor
  · obtain ⟨l, hw, he, _, hwt⟩ := hW i j hi hj
    exact ⟨l, hw, he, hwt⟩
  · intro l hwalk hend
    refine hL i j hi hj l hwalk hend ?_
    intro x hx
    have hxm : x ∈ l.map Prod.fst := (List.dropLast_sublist _).subset hx
    exact walk_verts_lt fwAdj_target_lt l i hwalk x hxm

/-! ### Relating the two adjacency views -/

/-- Pairs with no matching edge keep their base matrix entry. -/
theorem fwInit_fold_no_match {a b : ℕ} :
    ∀ (es : List Edge) (d : ℕ → ℕ → ℤ),
      (∀ e ∈ es, ¬(e.«from» = a ∧ e.«to» = b)) →
      (es.foldl (fun d e => updMat d e.«from» e.«to» e.weight) d) a b =
        d a b := by
  intro es
  induction es with
  | nil => intro d _; rfl
  | cons e es ih =>
    intro d hno
    rw [List.foldl_cons]
    rw [ih _ (fun e' he' => hno e' (List.mem_cons_of_mem _ he'))]
    show (if a = e.«from» ∧ b = e.«to» then e.weight else d a b) = d a b
    rw [if_neg]
    rintro ⟨h1, h2⟩
    exact hno e (List.mem_cons_self _ _) ⟨h1.symm, h2.symm⟩

/-- With pairwise-distinct `(from, to)` pairs, the initial matrix
entry of an edge is its weight. -/
theorem fwInit_edge_entry {n : ℕ} {edges : List Edge}
    (hdp : ∀ e₁ ∈ edges, ∀ e₂ ∈ edges,
      e₁.«from» = e₂.«from» → e₁.«to» = e₂.«to» → e₁ = e₂) :
    ∀ e ∈ edges, (fwInit n edges).dist e.«from» e.«to» = e.weight := by
  show ∀ e ∈ edges, (edges.foldl (fun d e => updMat d e.«from» e.«to» e.weight)
    (fun i j => if i = j then 0 else 999)) e.«from» e.«to» = e.weight
  have hgen : ∀ (es : List Edge), (∀ e ∈ es, e ∈ edges) →
      ∀ (d : ℕ → ℕ → ℤ), ∀ e ∈ es,
      (es.foldl (fun d e => updMat d e.«from» e.«to» e.weight) d)
        e.«from» e.«to» = e.weight := by
    intro es
    induction es with
    | nil => intro _ d e he; cases he
    | cons e₀ es ih =>
      intro hsub d e he
      rw [List.foldl_cons]
      by_cases hmem : e ∈ es
      · exact ih (fun x hx => hsub x (List.mem_cons_of_mem _ hx)) _ e hmem
      · have he₀ : e = e₀ := by
          rcases List.mem_cons.mp he with h | h
          · exact h
          · exact absurd h hmem
        subst he₀
        rw [fwInit_fold_no_match es _ ?_]
        · show (if e.«from» = e.«from» ∧ e.«to» = e.«to» then e.weight
            else _) = e.weight
          rw [if_pos ⟨rfl, rfl⟩]
        · intro e' he' hc
          have : e' = e := hdp e' (hsub e' (List.mem_cons_of_mem _ he')) e
            (hsub e (List.mem_cons_self _ _)) hc.1 hc.2
          exact hmem (this ▸ he')
  exact hgen edges (fun x hx => hx) _

/-- A pair with no edge gets the `999` sentinel. -/
theorem fwInit_no_edge {n : ℕ} {edges : List Edge} {a b : ℕ} (hab : a ≠ b)
    (hno : ∀ e ∈ edges, ¬(e.«from» = a ∧ e.«to» = b)) :
    (fwInit n edges).dist a b = 999 := by
  show (edges.foldl (fun d e => updMat d e.«from» e.«to» e.weight)
    (fun i j => if i = j then 0 else 999)) a b = 999
  rw [fwInit_fold_no_match edges _ hno]
  rw [if_neg hab]

/-- Real directed hops are hops of the complete sentinel graph with
the same weight. -/
theorem dirAdj_sub_fwAdj {n : ℕ} {edges : List Edge}
    (hrange : ∀ e ∈ edges, e.«from» < n ∧ e.«to» < n)
    (hns : ∀ e ∈ edges, e.«from» ≠ e.«to»)
    (hdp : ∀ e₁ ∈ edges, ∀ e₂ ∈ edges,
      e₁.«from» = e₂.«from» → e₁.«to» = e₂.«to» → e₁ = e₂) :
    ∀ u v w, (v, w) ∈ dirAdj edges u → (v, w) ∈ fwAdj n edges u := by
  intro u v w hm
  obtain ⟨e, he, hef, het, hew⟩ := mem_dirAdj.mp hm
  refine mem_fwAdj.mpr ⟨?_, ?_, ?_⟩
  · rw [← het]; exact (hrange e he).2
  · rw [← het, ← hef]; exact fun h => hns e he h.symm
  · rw [← hef, ← het, fwInit_edge_entry hdp e he, hew]

/-- Real walks are walks of the complete sentinel graph. -/
theorem dirWalk_to_fwWalk {n : ℕ} {edges : List Edge}
    (hrange : ∀ e ∈ edges, e.«from» < n ∧ e.«to» < n)
    (hns : ∀ e ∈ edges, e.«from» ≠ e.«to»)
    (hdp : ∀ e₁ ∈ edges, ∀ e₂ ∈ edges,
      e₁.«from» = e₂.«from» → e₁.«to» = e₂.«to» → e₁ = e₂) :
    ∀ (l : List (ℕ × ℤ)) (a : ℕ), IsWalk (dirAdj edges) a l →
      IsWalk (fwAdj n edges) a l := by
  intro l
  induction l with
  | nil => intro a _; trivial
  | cons vw rest ih =>
    intro a hw
    obtain ⟨v, w⟩ := vw
    obtain ⟨hmem, hrest⟩ := hw
    exact ⟨dirAdj_sub_fwAdj hrange hns hdp a v w hmem, ih v hrest⟩

/-- Each sentinel-graph hop is either a real hop or a `999` hop. -/
theorem fwAdj_hop_classify {n : ℕ} {edges : List Edge}
    (hdp : ∀ e₁ ∈ edges, ∀ e₂ ∈ edges,
      e₁.«from» = e₂.«from» → e₁.«to» = e₂.«to» → e₁ = e₂) :
    ∀ a v w, (v, w) ∈ fwAdj n edges a →
      (v, w) ∈ dirAdj edges a ∨ w = 999 := by
  intro a v w hm
  obtain ⟨hvn, hva, hweq⟩ := mem_fwAdj.mp hm
  by_cases hedge : ∃ e ∈ edges, e.«from» = a ∧ e.«to» = v
  · obtain ⟨e, he, hef, het⟩ := hedge
    left
    refine mem_dirAdj.mpr ⟨e, he, hef, het, ?_⟩
    rw [hweq, ← hef, ← het, fwInit_edge_entry hdp e he]
  · right
    rw [hweq]
    refine fwInit_no_edge (fun h => hva h.symm) ?_
    intro e he hc
    exact hedge ⟨e, he, hc.1, hc.2⟩

/-- A sentinel-graph walk is a real walk or weighs at least `999`. -/
theorem fwWalk_classify {n : ℕ} {edges : List Edge}
    (hnn : ∀ e ∈ edges, 0 ≤ e.weight)
    (hdp : ∀ e₁ ∈ edges, ∀ e₂ ∈ edges,
      e₁.«from» = e₂.«from» → e₁.«to» = e₂.«to» → e₁ = e₂) :
    ∀ (l : List (ℕ × ℤ)) (a : ℕ), IsWalk (fwAdj n edges) a l →
      IsWalk (dirAdj edges) a l ∨ 999 ≤ chainWeight l := by
  intro l
  induction l with
  | nil => intro a _; left; trivial
  | cons vw rest ih =>
    intro a hw
    obtain ⟨v, w⟩ := vw
    obtain ⟨hmem, hrest⟩ := hw
    have hwnn : 0 ≤ w := fwAdj_weight_nonneg hnn a v w hmem
    have hrnn : 0 ≤ chainWeight rest :=
      chainWeight_nonneg (fwAdj_weight_nonneg hnn) rest v hrest
    have hcw : chainWeight ((v, w) :: rest) = w + chainWeight rest := by
      simp [chainWeight]
    rcases fwAdj_hop_classify hdp a v w hmem with h | h
    · rcases ih v hrest with h' | h'
      · exact Or.inl ⟨h, h'⟩
      · right
        omega
    · right
      omega

/-- Pointwise transfer: under the amended hypotheses Bellman-Ford's
final distance at each vertex is the corresponding Floyd-Warshall row
entry. -/
theorem bf_fw_pointwise {n : ℕ} {edges : List Edge} {sv : ℕ}
    (hrange : ∀ e ∈ edges, e.«from» < n ∧ e.«to» < n)
    (hnn : ∀ e ∈ edges, 0 ≤ e.weight)
    (hns : ∀ e ∈ edges, e.«from» ≠ e.«to»)
    (hdp : ∀ e₁ ∈ edges, ∀ e₂ ∈ edges,
      e₁.«from» = e₂.«from» → e₁.«to» = e₂.«to» → e₁ = e₂)
    (hsv : sv < n)
    (hreach : ∀ v < n, ∃ c : ℤ, CostReach (dirAdj edges) sv v c ∧ c < 999) :
    ∀ v, v < n → (bfMainState n edges sv).dist v =
      (((fwFinal n edges).dist sv v : ℤ) : DistVal) := by
  intro v hv
  obtain ⟨c₀, hc₀, h999⟩ := hreach v hv
  have hbf := bf_shortest hrange hnn hsv v
  obtain ⟨hfwW, hfwb⟩ := fw_shortest hnn hns sv v hsv hv
  cases hd : (bfMainState n edges sv).dist v with
  | none => exact absurd hc₀ (hbf.1 hd c₀)
  | some k =>
    obtain ⟨hkreach, hkmin⟩ := hbf.2 k hd
    have hkc : k ≤ c₀ := hkmin c₀ hc₀
    obtain ⟨lfw, hlw, hle, hlwt⟩ := hfwW
    obtain ⟨lr, hlr, hlre, hlrw⟩ := hkreach
    have h1 : (fwFinal n edges).dist sv v ≤ k := by
      have := hfwb lr (dirWalk_to_fwWalk hrange hns hdp lr sv hlr) hlre
      omega
    have h2 : k ≤ (fwFinal n edges).dist sv v := by
      rcases fwWalk_classify hnn hdp lfw sv hlw with h | h
      · have hcr : CostReach (dirAdj edges) sv v (chainWeight lfw) :=
          ⟨lfw, h, hle, rfl⟩
        have := hkmin _ hcr
        omega
      · omega
    have : (fwFinal n edges).dist sv v = k := le_antisymm h1 h2
    rw [this]
    rfl

/-- The Bellman-Ford trace ends with a step carrying the post-pass
distances. -/
theorem bf_last_distances (n : ℕ) (edges : List Edge) (sv : ℕ) :
    ∃ last, (bellmanFordAlgorithm n edges sv).getLast? = some last ∧
      last.distances = snapDist n (bfMainState n edges sv).dist := by
  simp only [bellmanFordAlgorithm, bfMainState, bfRun]
  cases h : edges.find?
      (fun e => decide (bfRelaxable
        (bfPasses n edges (n - 1) (bfInitState sv) 0).1.dist e)) with
  | some ed =>
    simp only [h, List.cons_append]
    exact ⟨_, getLast?_cons_append_pair _ _ _ _, rfl⟩
  | none =>
    simp only [h, List.cons_append]
    exact ⟨_, getLast?_cons_append_pair _ _ _ _, rfl⟩

/-- The Floyd-Warshall trace ends with a step carrying the final
matrix. -/
theorem fw_last_distances (n : ℕ) (edges : List Edge) :
    ∃ last, (floydWarshallAlgorithm n edges).getLast? = some last ∧
      last.distances = snapMat n (fwFinal n edges).dist := by
  simp only [floydWarshallAlgorithm, fwFinal, fwRun]
  exact ⟨_, List.getLast?_concat _, rfl⟩

/-- C6 (amended): for graphs with in-range endpoints, non-negative
weights, no self-loops, pairwise-distinct `(from, to)` pairs, an
in-range source, and every vertex reachable from the source at a cost
below the `INF = 999` sentinel, the distances array in the final step
of the Bellman-Ford trace equals (as JavaScript numbers, i.e. after
embedding the finite Floyd-Warshall entries into `ℤ ∪ {∞}`) row `sv`
of the final distance matrix of the Floyd-Warshall trace. -/
theorem bellmanFord_matches_fw_row (n : ℕ) (edges : List Edge) (sv : ℕ)
    (hrange : ∀ e ∈ edges, e.«from» < n ∧ e.«to» < n)
    (hnn : ∀ e ∈ edges, 0 ≤ e.weight)
    (hns : ∀ e ∈ edges, e.«from» ≠ e.«to»)
    (hdp : ∀ e₁ ∈ edges, ∀ e₂ ∈ edges,
      e₁.«from» = e₂.«from» → e₁.«to» = e₂.«to» → e₁ = e₂)
    (hsv : sv < n)
    (hreach : ∀ v < n, ∃ c : ℤ, CostReach (dirAdj edges) sv v c ∧ c < 999) :
    ∀ bfLast, (bellmanFordAlgorithm n edges sv).getLast? = some bfLast →
    ∀ fwLast, (floydWarshallAlgorithm n edges).getLast? = some fwLast →
      bfLast.distances =
        (fwLast.distances.getD sv []).map intToDistVal := by
  intro bfLast hbfL fwLast hfwL
  obtain ⟨bl, hbl, hbld⟩ := bf_last_distances n edges sv
  rw [hbfL] at hbl
  injection hbl with hbl
  obtain ⟨fl, hfl, hfld⟩ := fw_last_distances n edges
  rw [hfwL] at hfl
  injection hfl with hfl
  rw [← hbl] at hbld
  rw [← hfl] at hfld
  rw [hbld, hfld]
  have hrow : (snapMat n (fwFinal n edges).dist).getD sv [] =
      (List.range n).map ((fwFinal n edges).dist sv) := by
    unfold snapMat
    rw [getD_snap, if_pos hsv]
  have hcomp : ((List.range n).map ((fwFinal n edges).dist sv)).map
      intToDistVal =
      (List.range n).map
        (fun v => (((fwFinal n edges).dist sv v : ℤ) : DistVal)) := by
    rw [List.map_map]
    rfl
  rw [hrow, hcomp]
  unfold snapDist
  refine List.map_congr_left ?_
  intro v hv
  exact bf_fw_pointwise hrange hnn hns hdp hsv hreach v (List.mem_range.mp hv)

theorem bellmanFord_matches_fw_row_witness :
    (((bellmanFordAlgorithm 2 [⟨0, 1, 3⟩] 0).getLast?).getD
        { kind := .init, distances := [], previous := [], currentEdge := none,
          relaxationCount := 0, hasNegativeCycle := false }).distances =
      ((((floydWarshallAlgorithm 2 [⟨0, 1, 3⟩]).getLast?).getD
        { kind := .init, distances := [], next := [], k := 0, i := none,
          j := none, improvement := none }).distances.getD 0 []).map
        intToDistVal := by
  refine bellmanFord_matches_fw_row 2 [⟨0, 1, 3⟩] 0 (by decide) (by decide)
    (by decide) (by decide) (by decide) ?_ _ (by decide) _ (by decide)
  intro v hv
  interval_cases v
  · exact ⟨0, CostReach.refl _ _, by decide⟩
  · exact ⟨3, ⟨[(1, 3)], ⟨by decide, trivial⟩, rfl, rfl⟩, by decide⟩

/-! ### KMP versus naive search (C3) -/

/-- The pattern occurs in the text at start offset `s` (in the
undefined-faithful JavaScript reading of character accesses). -/
def occursAt (t p : List Char) (s : ℕ) : Prop :=
  ∀ j < p.length, t.get? (s + j) = p.get? j

instance (t p : List Char) (s : ℕ) : Decidable (occursAt t p s) := by
  unfold occursAt
  infer_instance

/-- The canonical sorted list of match start offsets. -/
def canonMatches (t p : List Char) : List ℕ :=
  (List.range (t.length + 1 - p.length)).filter
    (fun s => decide (occursAt t p s))

/-- `p.take L` is a suffix of `p.take i` (`L ≤ i`): a border once
also `L < i`. -/
def IsBorder (p : List Char) (i L : ℕ) : Prop :=
  L ≤ i ∧ ∀ j < L, p.get? (i - L + j) = p.get? j

theorem isBorder_zero (p : List Char) (i : ℕ) : IsBorder p i 0 :=
  ⟨Nat.zero_le i, fun j hj => absurd hj (Nat.not_lt_zero j)⟩

/-- A border of a border is a border. -/
theorem isBorder_trans {p : List Char} {i b a : ℕ}
    (h₁ : IsBorder p i b) (h₂ : IsBorder p b a) : IsBorder p i a := by
  obtain ⟨hb, h₁⟩ := h₁
  obtain ⟨ha, h₂⟩ := h₂
  refine ⟨le_trans ha hb, ?_⟩
  intro j hj
  have e₁ := h₁ (b - a + j) (by omega)
  rw [show i - b + (b - a + j) = i - a + j by omega] at e₁
  rw [e₁]
  exact h₂ j hj

/-- Two nested borders of the same prefix are borders of each other. -/
theorem isBorder_nest {p : List Char} {i b a : ℕ}
    (h₁ : IsBorder p i a) (h₂ : IsBorder p i b) (hab : a ≤ b) :
    IsBorder p b a := by
  obtain ⟨ha, h₁⟩ := h₁
  obtain ⟨hb, h₂⟩ := h₂
  refine ⟨hab, ?_⟩
  intro j hj
  have e₂ := h₂ (b - a + j) (by omega)
  rw [show i - b + (b - a + j) = i - a + j by omega] at e₂
  rw [← e₂]
  exact h₁ j hj

/-- Extending a border by one matching character. -/
theorem isBorder_extend {p : List Char} {i L : ℕ}
    (h : IsBorder p i L) (hc : p.get? i = p.get? L) :
    IsBorder p (i + 1) (L + 1) := by
  obtain ⟨hL, h⟩ := h
  refine ⟨by omega, ?_⟩
  intro j hj
  rcases Nat.lt_succ_iff_lt_or_eq.mp hj with hjL | hjL
  · have := h j hjL
    rw [show i + 1 - (L + 1) + j = i - L + j by omega]
    exact this
  · subst hjL
    rw [show i + 1 - (j + 1) + j = i by omega]
    exact hc

/-- Shrinking a positive border by its last character. -/
theorem isBorder_shrink {p : List Char} {i L : ℕ}
    (h : IsBorder p (i + 1) (L + 1)) :
    IsBorder p i L ∧ p.get? i = p.get? L := by
  obtain ⟨hL, h⟩ := h
  constructor
  · refine ⟨by omega, ?_⟩
    intro j hj
    have := h j (by omega)
    rw [show i + 1 - (L + 1) + j = i - L + j by omega] at this
    exact this
  · have := h L (Nat.lt_succ_self L)
    rw [show i + 1 - (L + 1) + L = i by omega] at this
    exact this

/-- The inner comparison loop of a naive window reaches `j = m`
exactly when the rest of the window matches. -/
theorem naiveScan_spec (t p : List Char) (i : ℕ) (ms : List ℕ) :
    ∀ (fuel j comps : ℕ), j ≤ p.length → p.length - j ≤ fuel →
      ((naiveScan t p i ms fuel j comps).2.1 = p.length ↔
        ∀ j', j ≤ j' → j' < p.length → t.get? (i + j') = p.get? j') := by
  intro fuel
  induction fuel with
  | zero =>
    intro j comps hj hfuel
    have hjm : j = p.length := by omega
    subst hjm
    rw [naiveScan]
    exact ⟨fun _ j' h1 h2 => by omega, fun _ => rfl⟩
  | succ fuel ih =>
    intro j comps hj hfuel
    rw [naiveScan]
    by_cases hcond : j < p.length ∧ t.get? (i + j) = p.get? j
    · rw [if_pos hcond]
      have := ih (j + 1) (comps + 1) (by omega) (by omega)
      rw [this]
      constructor
      · intro hall j' h1 h2
        rcases Nat.lt_or_ge j' (j + 1) with h | h
        · have : j' = j := by omega
          subst this
          exact hcond.2
        · exact hall j' h h2
      · intro hall j' h1 h2
        exact hall j' (by omega) h2
    · rw [if_neg hcond]
      show (j = p.length ↔ _)
      constructor
      · intro hjm j' h1 h2
        omega
      · intro hall
        by_contra hne
        have hjlt : j < p.length := by omega
        exact hcond ⟨hjlt, hall j le_rfl hjlt⟩

/-- A naive window appends its start exactly when the pattern occurs
there. -/
theorem naiveWindow_matches (t p : List Char) (i : ℕ) (ms : List ℕ)
    (comps : ℕ) :
    (naiveWindow t p i ms comps).2.1 =
      if occursAt t p i then ms ++ [i] else ms := by
  unfold naiveWindow
  have hspec := naiveScan_spec t p i ms p.length 0 comps (Nat.zero_le _)
    (by omega)
  by_cases hocc : occursAt t p i
  · rw [if_pos hocc]
    have hj : (naiveScan t p i ms p.length 0 comps).2.1 = p.length :=
      hspec.mpr (fun j' _ h2 => hocc j' h2)
    simp [hj]
  · rw [if_neg hocc]
    have hj : ¬(naiveScan t p i ms p.length 0 comps).2.1 = p.length := by
      intro hc
      exact hocc (fun j hj => hspec.mp hc j (Nat.zero_le _) hj)
    simp only [if_neg hj]
    by_cases hlt : i + (naiveScan t p i ms p.length 0 comps).2.1 < t.length
    · rw [if_pos hlt]
    · rw [if_neg hlt]

/-- The naive outer loop appends exactly the occurrences among the
window starts it visits, in order. -/
theorem naiveWindows_matches (t p : List Char) :
    ∀ (count i : ℕ) (ms : List ℕ) (comps : ℕ),
      (naiveWindows t p count i ms comps).2.1 =
        ms ++ (List.range' i count).filter
          (fun s => decide (occursAt t p s)) := by
  intro count
  induction count with
  | zero =>
    intro i ms comps
    simp [naiveWindows]
  | succ count ih =>
    intro i ms comps
    rw [naiveWindows]
    show (naiveWindows t p count (i + 1) (naiveWindow t p i ms comps).2.1
      (naiveWindow t p i ms comps).2.2).2.1 = _
    rw [ih, naiveWindow_matches, List.range'_succ, List.filter_cons]
    by_cases hocc : occursAt t p i
    · rw [if_pos hocc]
      simp [hocc]
    · rw [if_neg hocc]
      simp [hocc]

/-- The naive search reports exactly the canonical match list. -/
theorem naiveSearch_matches (t p : List Char) :
    (naiveSearch t p).2 = canonMatches t p := by
  unfold naiveSearch canonMatches
  by_cases hmn : p.length ≤ t.length
  · simp only [if_pos hmn]
    rw [naiveWindows_matches, List.nil_append, List.range_eq_range']
    have heq : t.length - p.length + 1 = t.length + 1 - p.length := by omega
    rw [heq]
  · simp only [if_neg hmn]
    have : t.length + 1 - p.length = 0 := by omega
    rw [this]
    rfl

/-- `v` is the length of the longest proper border of the
`(k+1)`-character prefix of `p`. -/
def CorrectLps (p : List Char) (k v : ℕ) : Prop :=
  IsBorder p (k + 1) v ∧ v ≤ k ∧
  ∀ L, IsBorder p (k + 1) L → L ≤ k → L ≤ v

/-- The failure-function loop computes longest proper borders. -/
theorem buildLpsAux_spec (p : List Char) :
    ∀ (fuel i len : ℕ) (lps : List ℕ),
      1 ≤ i → i ≤ p.length → len < i →
      2 * (p.length - i) + len + 1 ≤ fuel →
      lps.length = p.length →
      (∀ k, k < i → CorrectLps p k (lps.getD k 0)) →
      IsBorder p i len →
      (∀ L, L ≤ i → IsBorder p (i + 1) L → L ≤ len + 1) →
      (buildLpsAux p fuel i len lps).length = p.length ∧
      ∀ k, k < p.length →
        CorrectLps p k ((buildLpsAux p fuel i len lps).getD k 0) := by
  intro fuel
  induction fuel with
  | zero =>
    intro i len lps h1 h2 h3 hfuel
    omega
  | succ fuel ih =>
    intro i len lps h1 h2 h3 hfuel hlen hcorr hbord hmax
    rw [buildLpsAux]
    by_cases hil : i < p.length
    · rw [if_pos hil]
      by_cases hch : p.get? i = p.get? len
      · rw [if_pos hch]
        have hset : ∀ k, (lps.set i (len + 1)).getD k 0 =
            if k = i then len + 1 else lps.getD k 0 := by
          intro k
          rw [getD_set]
          by_cases hk : k = i
          · subst hk
            rw [if_pos ⟨rfl, by omega⟩, if_pos rfl]
          · rw [if_neg (fun hc => hk hc.1.symm), if_neg hk]
        have hcorri : CorrectLps p i (len + 1) :=
          ⟨isBorder_extend hbord hch, by omega,
            fun L hL hLle => hmax L (by omega) hL⟩
        refine ih (i + 1) (len + 1) _ (by omega) (by omega) (by omega)
          (by omega) (by rw [List.length_set]; exact hlen) ?_ 
          (isBorder_extend hbord hch) ?_
        · intro k hk
          rcases Nat.lt_succ_iff_lt_or_eq.mp hk with h | h
          · rw [hset, if_neg (by omega)]
            exact hcorr k h
          · subst h
            rw [hset, if_pos rfl]
            exact hcorri
        · intro L hL hLb
          cases L with
          | zero => omega
          | succ L' =>
            obtain ⟨hb', hc'⟩ := isBorder_shrink hLb
            have := hcorri.2.2 L' hb' (by omega)
            omega
      · rw [if_neg hch]
        by_cases hlz : len ≠ 0
        · rw [if_pos hlz]
          obtain ⟨hlb, hlle, hlmax⟩ := hcorr (len - 1) (by omega)
          rw [show len - 1 + 1 = len by omega] at hlb hlmax
          refine ih i (lps.getD (len - 1) 0) lps h1 h2 (by omega) (by omega)
            hlen hcorr (isBorder_trans hbord hlb) ?_
          intro L hL hLb
          cases L with
          | zero => omega
          | succ L' =>
            obtain ⟨hb', hc'⟩ := isBorder_shrink hLb
            have hL'len : L' ≤ len := by
              have := hmax (L' + 1) hL hLb
              omega
            have hL'ne : L' ≠ len := by
              intro hc
              subst hc
              exact hch (hc'.trans rfl)
            have hnest : IsBorder p len L' :=
              isBorder_nest hb' hbord (by omega)
            have := hlmax L' hnest (by omega)
            omega
        · rw [if_neg hlz]
          push_neg at hlz
          subst hlz
          have hset : ∀ k, (lps.set i 0).getD k 0 =
              if k = i then 0 else lps.getD k 0 := by
            intro k
            rw [getD_set]
            by_cases hk : k = i
            · subst hk
              rw [if_pos ⟨rfl, by omega⟩, if_pos rfl]
            · rw [if_neg (fun hc => hk hc.1.symm), if_neg hk]
          have hcorri : CorrectLps p i 0 := by
            refine ⟨isBorder_zero p _, Nat.zero_le _, ?_⟩
            intro L hLb hLle
            cases L with
            | zero => exact le_rfl
            | succ L' =>
              obtain ⟨hb', hc'⟩ := isBorder_shrink hLb
              have : L' + 1 ≤ 0 + 1 := hmax (L' + 1) (by omega) hLb
              have hL0 : L' = 0 := by omega
              subst hL0
              exact absurd hc' hch
          refine ih (i + 1) 0 _ (by omega) (by omega) (by omega) (by omega)
            (by rw [List.length_set]; exact hlen) ?_ (isBorder_zero p _) ?_
          · intro k hk
            rcases Nat.lt_succ_iff_lt_or_eq.mp hk with h | h
            · rw [hset, if_neg (by omega)]
              exact hcorr k h
            · subst h
              rw [hset, if_pos rfl]
              exact hcorri
          · intro L hL hLb
            cases L with
            | zero => omega
            | succ L' =>
              obtain ⟨hb', hc'⟩ := isBorder_shrink hLb
              have := hcorri.2.2 L' hb' (by omega)
              omega
    · rw [if_neg hil]
      exact ⟨hlen, fun k hk => hcorr k (by omega)⟩

/-- `buildFailureFunction` computes, at each index `k`, the length of
the longest proper border of the `(k+1)`-prefix of the pattern. -/
theorem buildFailureFunction_spec (p : List Char) :
    (buildFailureFunction p).length = p.length ∧
    ∀ k, k < p.length →
      CorrectLps p k ((buildFailureFunction p).getD k 0) := by
  unfold buildFailureFunction
  by_cases hm : p.length = 0
  · rw [hm]
    rw [buildLpsAux]
    rw [if_neg (by omega)]
    refine ⟨by simp [hm], ?_⟩
    intro k hk
    omega
  · refine buildLpsAux_spec p (2 * p.length + 1) 1 0
      (List.replicate p.length 0) le_rfl (by omega) (by omega) (by omega)
      (by simp) ?_ (isBorder_zero p 1) ?_
    · intro k hk
      have hk0 : k = 0 := by omega
      subst hk0
      rw [getD_replicate_zero]
      exact ⟨isBorder_zero p 1, le_rfl, fun L _ hL => hL⟩
    · intro L hL _
      omega

/-- The canonical matches from start offset `s₀` onwards. -/
def kmpRest (t p : List Char) (s₀ : ℕ) : List ℕ :=
  (List.range' s₀ (t.length + 1 - p.length - s₀)).filter
    (fun s => decide (occursAt t p s))

theorem kmpRest_stop {t p : List Char} {s₀ : ℕ}
    (h : t.length + 1 - p.length ≤ s₀) : kmpRest t p s₀ = [] := by
  unfold kmpRest
  rw [show t.length + 1 - p.length - s₀ = 0 by omega]
  rfl

theorem kmpRest_peel {t p : List Char} {s₀ : ℕ}
    (h : s₀ < t.length + 1 - p.length) (hocc : occursAt t p s₀) :
    kmpRest t p s₀ = s₀ :: kmpRest t p (s₀ + 1) := by
  unfold kmpRest
  rw [show t.length + 1 - p.length - s₀ =
    (t.length + 1 - p.length - (s₀ + 1)) + 1 by omega, List.range'_succ,
    List.filter_cons]
  simp [hocc]

theorem kmpRest_skip {t p : List Char} {s₀ : ℕ}
    (hocc : ¬ occursAt t p s₀) :
    kmpRest t p s₀ = kmpRest t p (s₀ + 1) := by
  by_cases h : s₀ < t.length + 1 - p.length
  · unfold kmpRest
    rw [show t.length + 1 - p.length - s₀ =
      (t.length + 1 - p.length - (s₀ + 1)) + 1 by omega, List.range'_succ,
      List.filter_cons]
    simp [hocc]
  · rw [kmpRest_stop (by omega), kmpRest_stop (by omega)]

theorem kmpRest_deadzone {t p : List Char} :
    ∀ (d a : ℕ), (∀ s, a ≤ s → s < a + d → ¬ occursAt t p s) →
      kmpRest t p a = kmpRest t p (a + d) := by
  intro d
  induction d with
  | zero => intro a _; rfl
  | succ d ih =>
    intro a hdead
    rw [kmpRest_skip (hdead a le_rfl (by omega))]
    rw [ih (a + 1) (fun s h1 h2 => hdead s (by omega) (by omega))]
    congr 1
    omega

/-- The KMP scanning loop appends exactly the canonical occurrences
from the current candidate start onwards, given a correct failure
function and the matched-prefix invariant. -/
theorem kmpLoop_spec (t p : List Char) (lps : List ℕ) (hm : 1 ≤ p.length)
    (hcorr : ∀ k, k < p.length → CorrectLps p k (lps.getD k 0)) :
    ∀ (fuel ti pi : ℕ) (ms : List ℕ),
      2 * (t.length - ti) + pi + 1 ≤ fuel →
      ti ≤ t.length → pi < p.length → pi ≤ ti →
      (∀ j, j < pi → t.get? (ti - pi + j) = p.get? j) →
      (kmpLoop t p lps fuel ti pi ms).2 = ms ++ kmpRest t p (ti - pi) := by
  intro fuel
  induction fuel with
  | zero =>
    intro ti pi ms hfuel
    omega
  | succ fuel ih =>
    intro ti pi ms hfuel hti hpi hpiti hsuf
    rw [kmpLoop]
    by_cases htn : ti < t.length
    · rw [if_pos htn]
      by_cases hch : t.get? ti = p.get? pi
      · rw [if_pos hch]
        by_cases hcompl : pi + 1 = p.length
        · rw [if_pos hcompl]
          have hocc : occursAt t p (ti - pi) := by
            intro j hj
            rcases Nat.lt_or_ge j pi with h | h
            · exact hsuf j h
            · have hjpi : j = pi := by omega
              subst hjpi
              rw [show ti - j + j = ti by omega]
              exact hch
          have hrange : ti - pi < t.length + 1 - p.length := by omega
          obtain ⟨hpb, hple, hpmax⟩ := hcorr pi hpi
          rw [hcompl] at hpb
          set pi' := lps.getD pi 0 with hpi'def
          have hsuf' : ∀ j, j < pi' →
              t.get? (ti + 1 - pi' + j) = p.get? j := by
            intro j hj
            have hb := hpb.2 j hj
            have ho := hocc (p.length - pi' + j) (by omega)
            rw [show ti - pi + (p.length - pi' + j) = ti + 1 - pi' + j
              by omega] at ho
            rw [ho]
            exact hb
          have hrec := ih (ti + 1) pi' (ms ++ [ti + 1 - (pi + 1)])
            (by omega) (by omega) (by omega) (by omega) hsuf'
          show (kmpLoop t p lps fuel (ti + 1) pi'
            (ms ++ [ti + 1 - (pi + 1)])).2 = _
          rw [hrec]
          have hdead : ∀ s, ti - pi + 1 ≤ s → s < ti + 1 - pi' →
              ¬ occursAt t p s := by
            intro s h1 h2 hso
            have hLb : IsBorder p (pi + 1) (ti + 1 - s) := by
              refine ⟨by omega, ?_⟩
              intro j hj
              have h1' := hocc (p.length - (ti + 1 - s) + j) (by omega)
              rw [show ti - pi + (p.length - (ti + 1 - s) + j) = s + j
                by omega] at h1'
              have h2' := hso j (by omega)
              rw [h1'] at h2'
              rw [hcompl]
              exact h2'
            have := hpmax (ti + 1 - s) hLb (by omega)
            omega
          have hjoin : kmpRest t p (ti - pi + 1) =
              kmpRest t p (ti + 1 - pi') := by
            have := kmpRest_deadzone ((ti + 1 - pi') - (ti - pi + 1))
              (ti - pi + 1) (fun s hs1 hs2 => hdead s hs1 (by omega))
            rw [this]
            congr 1
            omega
          rw [show ti + 1 - (pi + 1) = ti - pi by omega, ← hjoin,
            List.append_assoc, List.singleton_append,
            ← kmpRest_peel hrange hocc]
        · rw [if_neg hcompl]
          have hsuf' : ∀ j, j < pi + 1 →
              t.get? (ti + 1 - (pi + 1) + j) = p.get? j := by
            intro j hj
            rw [show ti + 1 - (pi + 1) + j = ti - pi + j by omega]
            rcases Nat.lt_or_ge j pi with h | h
            · exact hsuf j h
            · have hjpi : j = pi := by omega
              subst hjpi
              rw [show ti - j + j = ti by omega]
              exact hch
          have hrec := ih (ti + 1) (pi + 1) ms (by omega) (by omega)
            (by omega) (by omega) hsuf'
          show (kmpLoop t p lps fuel (ti + 1) (pi + 1) ms).2 = _
          rw [hrec, show ti + 1 - (pi + 1) = ti - pi by omega]
      · rw [if_neg hch]
        by_cases hpz : pi ≠ 0
        · rw [if_pos hpz]
          obtain ⟨hpb, hple, hpmax⟩ := hcorr (pi - 1) (by omega)
          rw [show pi - 1 + 1 = pi by omega] at hpb hpmax
          set pi' := lps.getD (pi - 1) 0 with hpi'def
          have hsuf' : ∀ j, j < pi' →
              t.get? (ti - pi' + j) = p.get? j := by
            intro j hj
            have hb := hpb.2 j hj
            have ht := hsuf (pi - pi' + j) (by omega)
            rw [show ti - pi + (pi - pi' + j) = ti - pi' + j by omega] at ht
            rw [ht]
            exact hb
          have hrec := ih ti pi' ms (by omega) hti (by omega) (by omega)
            hsuf'
          show (kmpLoop t p lps fuel ti pi' ms).2 = _
          rw [hrec]
          have hdead : ∀ s, ti - pi ≤ s → s < ti - pi' →
              ¬ occursAt t p s := by
            intro s h1 h2 hso
            by_cases hs0 : s = ti - pi
            · subst hs0
              have := hso pi hpi
              rw [show ti - pi + pi = ti by omega] at this
              exact hch this
            · have hLb : IsBorder p pi (ti - s) := by
                refine ⟨by omega, ?_⟩
                intro j hj
                have ht := hsuf (pi - (ti - s) + j) (by omega)
                rw [show ti - pi + (pi - (ti - s) + j) = s + j by omega] at ht
                have h2' := hso j (by omega)
                rw [ht] at h2'
                exact h2' 
              have := hpmax (ti - s) hLb (by omega)
              omega
          have hjoin : kmpRest t p (ti - pi) = kmpRest t p (ti - pi') := by
            have := kmpRest_deadzone ((ti - pi') - (ti - pi)) (ti - pi)
              (fun s hs1 hs2 => hdead s hs1 (by omega))
            rw [this]
            congr 1
            omega
          rw [hjoin]
        · rw [if_neg hpz]
          push_neg at hpz
          subst hpz
          have hrec := ih (ti + 1) 0 ms (by omega) (by omega) (by omega)
            (by omega) (fun j hj => absurd hj (Nat.not_lt_zero j))
          show (kmpLoop t p lps fuel (ti + 1) 0 ms).2 = _
          rw [hrec]
          have hnocc : ¬ occursAt t p ti := by
            intro hso
            have := hso 0 (by omega)
            rw [Nat.add_zero] at this
            exact hch this
          rw [show ti - 0 = ti by omega, kmpRest_skip hnocc,
            show ti + 1 - 0 = ti + 1 by omega]
    · rw [if_neg htn]
      rw [kmpRest_stop (by omega), List.append_nil]

/-- KMP reports exactly the canonical match list for non-empty
patterns. -/
theorem kmpSearch_matches (t p : List Char) (hp : p ≠ []) :
    (kmpSearch t p).2 = canonMatches t p := by
  have hm : 1 ≤ p.length := List.length_pos.mpr hp
  obtain ⟨hlen, hcorr⟩ := buildFailureFunction_spec p
  show (kmpLoop t p (buildFailureFunction p) (2 * t.length + 1) 0 0 []).2 = _
  rw [kmpLoop_spec t p _ hm hcorr (2 * t.length + 1) 0 0 [] (by omega)
    (by omega) (by omega) (by omega)
    (fun j hj => absurd hj (Nat.not_lt_zero j))]
  rw [List.nil_append]
  show (List.range' 0 (t.length + 1 - p.length - 0)).filter _ = _
  rw [Nat.sub_zero]
  unfold canonMatches
  rw [List.range_eq_range']

/-- The last element of a trace of the form `init :: (main ++ [final])`. -/
theorem getLast?_cons_append_one {α : Type} (x a : α) (l : List α) :
    (x :: (l ++ [a])).getLast? = some a := by
  rw [show x :: (l ++ [a]) = (x :: l) ++ [a] by simp]
  exact List.getLast?_concat _

/-- C3 counterexample: for text `"A"` and the empty pattern, the final
Naive step records matches `[0, 1]` while the final KMP step records
no matches at all. -/
theorem kmp_naive_match_sets_cex :
    ∃ kl nl, ((kmpSearch ['A'] []).1).getLast? = some kl ∧
      ((naiveSearch ['A'] []).1).getLast? = some nl ∧
      0 ∈ nl.«matches» ∧ 0 ∉ kl.«matches» := by
  refine ⟨((kmpSearch ['A'] []).1.getLast?).getD
      { kind := .init, textIndex := 0, patternIndex := 0, isMatch := false,
        «matches» := [] },
    ((naiveSearch ['A'] []).1.getLast?).getD
      { kind := .init, textIndex := 0, patternIndex := 0, windowStart := 0,
        isMatch := false, isCompleteMatch := false, «matches» := [],
        comparisons := 0 },
    by decide, by decide, by decide, by decide⟩

/-- C3 (amended): for every text and every NON-EMPTY pattern, the set
of match start offsets recorded in the final step of the KMP trace
equals the set of match start offsets recorded in the final step of
the Naive search trace (both are in fact the same sorted list of all
occurrence offsets). -/
theorem kmp_naive_match_sets (t p : List Char) (hp : p ≠ []) :
    ∀ kl, ((kmpSearch t p).1).getLast? = some kl →
    ∀ nl, ((naiveSearch t p).1).getLast? = some nl →
      ∀ x, x ∈ kl.«matches» ↔ x ∈ nl.«matches» := by
  intro kl hkl nl hnl x
  have h1 : ((kmpSearch t p).1).getLast? = some
      { kind := .complete, textIndex := t.length - 1, patternIndex := 0,
        isMatch := false, «matches» := (kmpSearch t p).2 } := by
    show ((_ :: (_ ++ [_])) : List KMPStep).getLast? = _
    exact getLast?_cons_append_one _ _ _
  have h2 : ((naiveSearch t p).1).getLast? = some
      { kind := .complete, textIndex := t.length - 1, patternIndex := 0,
        windowStart := t.length - p.length, isMatch := false,
        isCompleteMatch := false, «matches» := (naiveSearch t p).2,
        comparisons :=
          (if p.length ≤ t.length then
            naiveWindows t p (t.length - p.length + 1) 0 [] 0
          else ([], [], 0)).2.2 } := by
    show ((_ :: (_ ++ [_])) : List NaiveStep).getLast? = _
    exact getLast?_cons_append_one _ _ _
  rw [h1] at hkl
  injection hkl with hkl
  rw [h2] at hnl
  injection hnl with hnl
  rw [← hkl, ← hnl]
  show x ∈ (kmpSearch t p).2 ↔ x ∈ (naiveSearch t p).2
  rw [kmpSearch_matches t p hp, naiveSearch_matches]

theorem kmp_naive_match_sets_witness :
    0 ∈ (((kmpSearch ['A', 'B', 'A'] ['A']).1.getLast?).getD
      { kind := .init, textIndex := 0, patternIndex := 0, isMatch := false,
        «matches» := [] }).«matches» ↔
    0 ∈ (((naiveSearch ['A', 'B', 'A'] ['A']).1.getLast?).getD
      { kind := .init, textIndex := 0, patternIndex := 0, windowStart := 0,
        isMatch := false, isCompleteMatch := false, «matches» := [],
        comparisons := 0 }).«matches» :=
  kmp_naive_match_sets ['A', 'B', 'A'] ['A'] (by decide) _ (by decide) _
    (by decide) 0

/-! ## Huffman coding (`HuffmanVisualizer.tsx`)

`HuffmanNode` is modelled as a binary tree (`id` strings dropped;
`char: string | null` becomes the leaf/node distinction).  The
enumeration order of `Object.entries(freq)` is modelled as
first-occurrence order of the characters.  Codes are bit lists with
`false` for `"0"` and `true` for `"1"`. -/

/-- A Huffman tree node. -/
inductive HTree where
  | leaf (c : Char) (freq : ℕ)
  | node (freq : ℕ) (left right : HTree)
deriving DecidableEq, Repr

/-- The frequency of a node. -/
def HTree.freq : HTree → ℕ
  | .leaf _ f => f
  | .node f _ _ => f

/-- The sort comparator `(a, b) => a.freq - b.freq` (ascending by
frequency; `Array.prototype.sort` is stable). -/
def leFreq (a b : HTree) : Bool := a.freq ≤ b.freq

/-- The characters of a text in first-occurrence order (the key order
of the `freq` object). -/
def firstOccs (text : List Char) : List Char :=
  text.foldl (fun acc c => if c ∈ acc then acc else acc ++ [c]) []

/-- The initial leaf nodes. -/
def huffLeaves (text : List Char) : List HTree :=
  (firstOccs text).map (fun c => HTree.leaf c (text.count c))

/-- The `while (queue.length > 1)` merge loop of `buildHuffmanTree`:
take the two front nodes, merge them, push the merged node at the back
and re-sort. -/
def huffLoop : List HTree → List HTree
  | [] => []
  | [t] => [t]
  | l :: r :: rest =>
    huffLoop ((rest ++ [HTree.node (l.freq + r.freq) l r]).mergeSort leFreq)
termination_by q => q.length
decreasing_by
  simp [List.length_mergeSort]

/-- `buildHuffmanTree`: the root of the merge loop (`queue[0]`,
`none` for empty input). -/
def buildHuffmanTree (text : List Char) : Option HTree :=
  (huffLoop ((huffLeaves text).mergeSort leFreq)).head?

/-- `generateHuffmanCodes`: depth-first code assignment, left `"0"`
first, the empty code replaced by `"0"` at a leaf
(`codes[root.char] = code || "0"`). -/
def genCodes : HTree → List Bool → List (Char × List Bool)
  | .leaf c _, code => [(c, if code = [] then [false] else code)]
  | .node _ l r, code =>
    genCodes l (code ++ [false]) ++ genCodes r (code ++ [true])

/-- Encoding: concatenate each character's code in input order
(`text.split('').map(char => huffmanCodes[char]).join('')`). -/
def huffEncode (codes : List (Char × List Bool)) (text : List Char) :
    List Bool :=
  (text.map (fun c => (codes.lookup c).getD [])).flatten

/-- Modelled from the claim's wording (no decoder exists in the
source): greedy decoding, repeatedly matching some code of the table
against the front of the bit string and emitting its character.
`fuel` bounds the number of emitted characters; every produced code is
nonempty, so `bits.length` is enough. -/
def huffDecodeAux (codes : List (Char × List Bool)) :
    ℕ → List Bool → List Char
  | 0, _ => []
  | fuel + 1, bits =>
    if bits = [] then []
    else
      match codes.find? (fun e => e.2.isPrefixOf bits) with
      | some e => e.1 :: huffDecodeAux codes fuel (bits.drop e.2.length)
      | none => []

/-- Greedy decoding of a whole bit string. -/
def huffDecode (codes : List (Char × List Bool)) (bits : List Bool) :
    List Char :=
  huffDecodeAux codes bits.length bits

/-- The characters at the leaves of a tree, left to right. -/
def leavesChars : HTree → List Char
  | .leaf c _ => [c]
  | .node _ l r => leavesChars l ++ leavesChars r

/-- The leaf characters of a whole queue. -/
def charsOf (q : List HTree) : List Char := q.flatMap leavesChars

theorem firstOccs_nodup (text : List Char) : (firstOccs text).Nodup := by
  unfold firstOccs
  have hgen : ∀ (l : List Char) (acc : List Char), acc.Nodup →
      (l.foldl (fun acc c => if c ∈ acc then acc else acc ++ [c]) acc).Nodup := by
    intro l
    induction l with
    | nil => intro acc h; exact h
    | cons c l ih =>
      intro acc h
      rw [List.foldl_cons]
      by_cases hc : c ∈ acc
      · rw [if_pos hc]
        exact ih acc h
      · rw [if_neg hc]
        refine ih _ ?_
        rw [List.nodup_append]
        exact ⟨h, List.nodup_singleton c,
          fun a ha hb => hc ((List.mem_singleton.mp hb) ▸ ha)⟩
  exact hgen text [] List.nodup_nil

theorem firstOccs_mem (text : List Char) (x : Char) :
    x ∈ firstOccs text ↔ x ∈ text := by
  unfold firstOccs
  have hgen : ∀ (l : List Char) (acc : List Char),
      (x ∈ l.foldl (fun acc c => if c ∈ acc then acc else acc ++ [c]) acc ↔
        x ∈ acc ∨ x ∈ l) := by
    intro l
    induction l with
    | nil => intro acc; simp
    | cons c l ih =>
      intro acc
      rw [List.foldl_cons]
      by_cases hc : c ∈ acc
      · rw [if_pos hc, ih]
        constructor
        · rintro (h | h)
          · exact Or.inl h
          · exact Or.inr (List.mem_cons_of_mem _ h)
        · rintro (h | h)
          · exact Or.inl h
          · rcases List.mem_cons.mp h with h | h
            · exact Or.inl (h ▸ hc)
            · exact Or.inr h
      · rw [if_neg hc, ih]
        constructor
        · rintro (h | h)
          · rcases List.mem_append.mp h with h | h
            · exact Or.inl h
            · exact Or.inr (List.mem_cons.mpr
                (Or.inl (List.mem_singleton.mp h)))
          · exact Or.inr (List.mem_cons_of_mem _ h)
        · rintro (h | h)
          · exact Or.inl (List.mem_append_left _ h)
          · rcases List.mem_cons.mp h with h | h
            · exact Or.inl (List.mem_append_right _
                (List.mem_singleton.mpr h))
            · exact Or.inr h
  rw [hgen text []]
  simp

/-- The merge loop returns a single tree carrying (a permutation of)
all the leaf characters of its input queue. -/
theorem huffLoop_singleton :
    ∀ (N : ℕ) (q : List HTree), q.length ≤ N → q ≠ [] →
      ∃ root, huffLoop q = [root] ∧ List.Perm (leavesChars root) (charsOf q) := by
  intro N
  induction N with
  | zero =>
    intro q hlen hne
    cases q with
    | nil => exact absurd rfl hne
    | cons a l => simp at hlen
  | succ N ih =>
    intro q hlen hne
    match q with
    | [] => exact absurd rfl hne
    | [t] =>
      refine ⟨t, by rw [huffLoop], ?_⟩
      unfold charsOf
      simp
    | l :: r :: rest =>
      rw [huffLoop]
      have hslen : ((rest ++ [HTree.node (l.freq + r.freq) l r]).mergeSort
          leFreq).length = rest.length + 1 := by
        rw [List.length_mergeSort, List.length_append]
        rfl
      have hsne : (rest ++ [HTree.node (l.freq + r.freq) l r]).mergeSort
          leFreq ≠ [] := by
        intro hc
        rw [hc] at hslen
        simp at hslen
      obtain ⟨root, hroot, hperm⟩ := ih _ (by
        rw [hslen]
        have : (l :: r :: rest).length = rest.length + 2 := by simp
        omega) hsne
      refine ⟨root, hroot, hperm.trans ?_⟩
      have h1 : List.Perm
          (charsOf ((rest ++ [HTree.node (l.freq + r.freq) l r]).mergeSort
            leFreq)) (charsOf (rest ++ [HTree.node (l.freq + r.freq) l r])) :=
        (List.mergeSort_perm _ _).flatMap_right leavesChars
      refine h1.trans ?_
      unfold charsOf
      rw [List.flatMap_append]
      show List.Perm (charsOf rest ++ (leavesChars l ++ leavesChars r ++ []))
        (leavesChars l ++ (leavesChars r ++ charsOf rest))
      rw [List.append_nil]
      have hac := @List.perm_append_comm Char (charsOf rest)
        (leavesChars l ++ leavesChars r)
      simpa using hac

/-- A nonempty input yields a root whose leaf characters are a
permutation of the first-occurrence character list. -/
theorem buildHuffmanTree_root (text : List Char) (htext : text ≠ []) :
    ∃ root, buildHuffmanTree text = some root ∧
      List.Perm (leavesChars root) (firstOccs text) := by
  have hfo : firstOccs text ≠ [] := by
    cases text with
    | nil => exact absurd rfl htext
    | cons c l =>
      intro hc
      have : c ∈ firstOccs (c :: l) :=
        (firstOccs_mem _ c).mpr (List.mem_cons_self _ _)
      rw [hc] at this
      cases this
  have hlne : (huffLeaves text).mergeSort leFreq ≠ [] := by
    intro hc
    have h1 : ((huffLeaves text).mergeSort leFreq).length = 0 := by
      rw [hc]; rfl
    rw [List.length_mergeSort] at h1
    unfold huffLeaves at h1
    rw [List.length_map] at h1
    exact hfo (List.eq_nil_of_length_eq_zero h1)
  obtain ⟨root, hroot, hperm⟩ := huffLoop_singleton
    ((huffLeaves text).mergeSort leFreq).length _ le_rfl hlne
  refine ⟨root, ?_, ?_⟩
  · unfold buildHuffmanTree
    rw [hroot]
    rfl
  · refine hperm.trans ?_
    have h1 : List.Perm (charsOf ((huffLeaves text).mergeSort leFreq))
        (charsOf (huffLeaves text)) :=
      (List.mergeSort_perm _ _).flatMap_right leavesChars
    refine h1.trans ?_
    unfold charsOf huffLeaves
    rw [List.flatMap_map]
    have : ∀ (cs : List Char),
        cs.flatMap (fun c => leavesChars (HTree.leaf c (text.count c))) =
          cs := by
      intro cs
      induction cs with
      | nil => rfl
      | cons c cs ih =>
        rw [List.flatMap_cons, ih]
        rfl
    rw [this]

/-- The keys of the code table are the leaf characters in order. -/
theorem genCodes_keys :
    ∀ (tr : HTree) (pre : List Bool),
      (genCodes tr pre).map Prod.fst = leavesChars tr := by
  intro tr
  induction tr with
  | leaf c f => intro pre; rfl
  | node f l r ihl ihr =>
    intro pre
    show ((genCodes l (pre ++ [false]) ++ genCodes r (pre ++ [true])).map
      Prod.fst) = leavesChars l ++ leavesChars r
    rw [List.map_append, ihl, ihr]

/-- Every code in the table extends the prefix it was generated
under. -/
theorem genCodes_prefix :
    ∀ (tr : HTree) (pre : List Bool), ∀ e ∈ genCodes tr pre,
      ∃ s, e.2 = pre ++ s := by
  intro tr
  induction tr with
  | leaf c f =>
    intro pre e he
    have : e = (c, if pre = [] then [false] else pre) :=
      List.mem_singleton.mp he
    subst this
    by_cases hp : pre = []
    · subst hp
      exact ⟨[false], by rw [if_pos rfl]; rfl⟩
    · exact ⟨[], by rw [if_neg hp, List.append_nil]⟩
  | node f l r ihl ihr =>
    intro pre e he
    rcases List.mem_append.mp he with h | h
    · obtain ⟨s, hs⟩ := ihl (pre ++ [false]) e h
      exact ⟨[false] ++ s, by rw [hs, List.append_assoc]⟩
    · obtain ⟨s, hs⟩ := ihr (pre ++ [true]) e h
      exact ⟨[true] ++ s, by rw [hs, List.append_assoc]⟩

/-- No code in the table is empty. -/
theorem genCodes_ne_nil :
    ∀ (tr : HTree) (pre : List Bool), ∀ e ∈ genCodes tr pre, e.2 ≠ [] := by
  intro tr pre e he
  cases tr with
  | leaf c f =>
    have : e = (c, if pre = [] then [false] else pre) :=
      List.mem_singleton.mp he
    subst this
    by_cases hp : pre = []
    · rw [if_pos hp]
      exact List.cons_ne_nil _ _
    · rw [if_neg hp]
      exact hp
  | node f l r =>
    rcases List.mem_append.mp he with h | h
    · obtain ⟨s, hs⟩ := genCodes_prefix l (pre ++ [false]) e h
      rw [hs, List.append_assoc]
      simp
    · obtain ⟨s, hs⟩ := genCodes_prefix r (pre ++ [true]) e h
      rw [hs, List.append_assoc]
      simp

/-- Codes of distinct characters are prefix-incomparable. -/
theorem genCodes_incomp :
    ∀ (tr : HTree) (pre : List Bool), ∀ e₁ ∈ genCodes tr pre,
      ∀ e₂ ∈ genCodes tr pre, e₁.1 ≠ e₂.1 → ¬ e₁.2 <+: e₂.2 := by
  intro tr
  induction tr with
  | leaf c f =>
    intro pre e₁ h₁ e₂ h₂ hne
    have he₁ : e₁ = (c, if pre = [] then [false] else pre) :=
      List.mem_singleton.mp h₁
    have he₂ : e₂ = (c, if pre = [] then [false] else pre) :=
      List.mem_singleton.mp h₂
    rw [he₁, he₂] at hne
    exact absurd rfl hne
  | node f l r ihl ihr =>
    intro pre e₁ h₁ e₂ h₂ hne hpref
    rcases List.mem_append.mp h₁ with hm₁ | hm₁ <;>
      rcases List.mem_append.mp h₂ with hm₂ | hm₂
    · exact ihl _ e₁ hm₁ e₂ hm₂ hne hpref
    · obtain ⟨s₁, hs₁⟩ := genCodes_prefix l (pre ++ [false]) e₁ hm₁
      obtain ⟨s₂, hs₂⟩ := genCodes_prefix r (pre ++ [true]) e₂ hm₂
      obtain ⟨tail, htail⟩ := hpref
      rw [hs₁, hs₂, List.append_assoc, List.append_assoc,
        List.append_assoc] at htail
      have := List.append_cancel_left htail
      rw [show ([false] : List Bool) ++ (s₁ ++ tail) =
        false :: (s₁ ++ tail) from rfl,
        show ([true] : List Bool) ++ s₂ = true :: s₂ from rfl] at this
      injection this with hh
      cases hh
    · obtain ⟨s₁, hs₁⟩ := genCodes_prefix r (pre ++ [true]) e₁ hm₁
      obtain ⟨s₂, hs₂⟩ := genCodes_prefix l (pre ++ [false]) e₂ hm₂
      obtain ⟨tail, htail⟩ := hpref
      rw [hs₁, hs₂, List.append_assoc, List.append_assoc,
        List.append_assoc] at htail
      have := List.append_cancel_left htail
      rw [show ([true] : List Bool) ++ (s₁ ++ tail) =
        true :: (s₁ ++ tail) from rfl,
        show ([false] : List Bool) ++ s₂ = false :: s₂ from rfl] at this
      injection this with hh
      cases hh
    · exact ihr _ e₁ hm₁ e₂ hm₂ hne hpref

/-- With duplicate-free keys, entries are determined by their key. -/
theorem key_inj {α β : Type} [DecidableEq α] :
    ∀ (l : List (α × β)), (l.map Prod.fst).Nodup →
      ∀ e₁ ∈ l, ∀ e₂ ∈ l, e₁.1 = e₂.1 → e₁ = e₂ := by
  intro l
  induction l with
  | nil => intro _ e₁ h₁; cases h₁
  | cons e l ih =>
    intro hnd e₁ h₁ e₂ h₂ hkey
    rw [List.map_cons, List.nodup_cons] at hnd
    rcases List.mem_cons.mp h₁ with hh₁ | hh₁ <;>
      rcases List.mem_cons.mp h₂ with hh₂ | hh₂
    · rw [hh₁, hh₂]
    · exfalso
      subst hh₁
      exact hnd.1 (hkey ▸ List.mem_map_of_mem Prod.fst hh₂)
    · exfalso
      subst hh₂
      exact hnd.1 (hkey ▸ List.mem_map_of_mem Prod.fst hh₁)
    · exact ih hnd.2 e₁ hh₁ e₂ hh₂ hkey

/-- With duplicate-free keys, `lookup` finds the entry's value. -/
theorem lookup_of_mem {α β : Type} [DecidableEq α] [BEq α] [LawfulBEq α] :
    ∀ (l : List (α × β)), (l.map Prod.fst).Nodup →
      ∀ e ∈ l, l.lookup e.1 = some e.2 := by
  intro l
  induction l with
  | nil => intro _ e he; cases he
  | cons hd l ih =>
    intro hnd e he
    rw [List.map_cons, List.nodup_cons] at hnd
    obtain ⟨a, b⟩ := hd
    rcases List.mem_cons.mp he with hh | hh
    · rw [hh]
      show List.lookup a ((a, b) :: l) = some b
      rw [List.lookup_cons]
      simp
    · have hmem : e.1 ∈ l.map Prod.fst := List.mem_map_of_mem Prod.fst hh
      have hne : e.1 ≠ a := by
        intro hc
        rw [hc] at hmem
        exact hnd.1 hmem
      show List.lookup e.1 ((a, b) :: l) = some e.2
      rw [List.lookup_cons]
      have hbeq : (e.1 == a) = false := by
        simpa using hne
      rw [hbeq]
      exact ih hnd.2 e hh

/-- `find?` of a uniquely satisfied predicate. -/
theorem find?_unique {α : Type} :
    ∀ (l : List α) (p : α → Bool) (a : α), a ∈ l → p a = true →
      (∀ b ∈ l, p b = true → b = a) → l.find? p = some a := by
  intro l
  induction l with
  | nil => intro p a ha; cases ha
  | cons h l ih =>
    intro p a ha hpa huniq
    rw [List.find?]
    by_cases hph : p h = true
    · rw [hph]
      rw [huniq h (List.mem_cons_self _ _) hph]
    · rw [Bool.not_eq_true] at hph
      rw [hph]
      have hal : a ∈ l := by
        rcases List.mem_cons.mp ha with hh | hh
        · exfalso
          rw [hh] at hpa
          rw [hpa] at hph
          cases hph
        · exact hh
      exact ih p a hal hpa
        (fun b hb hpb => huniq b (List.mem_cons_of_mem _ hb) hpb)

/-- Greedy decoding inverts encoding over any prefix-incomparable
table with duplicate-free keys and nonempty codes. -/
theorem huffDecodeAux_encode (table : List (Char × List Bool))
    (hnd : (table.map Prod.fst).Nodup)
    (hne : ∀ e ∈ table, e.2 ≠ [])
    (hincomp : ∀ e₁ ∈ table, ∀ e₂ ∈ table, e₁.1 ≠ e₂.1 → ¬ e₁.2 <+: e₂.2) :
    ∀ (text : List Char) (fuel : ℕ),
      (∀ c ∈ text, c ∈ table.map Prod.fst) →
      (huffEncode table text).length ≤ fuel →
      huffDecodeAux table fuel (huffEncode table text) = text := by
  intro text
  induction text with
  | nil =>
    intro fuel _ _
    show huffDecodeAux table fuel [] = []
    cases fuel with
    | zero => rfl
    | succ fuel =>
      rw [huffDecodeAux, if_pos rfl]
  | cons c rest ih =>
    intro fuel hkeys hfuel
    have hc : c ∈ table.map Prod.fst := hkeys c (List.mem_cons_self _ _)
    obtain ⟨e, hemem, heq⟩ := List.mem_map.mp hc
    obtain ⟨c', code⟩ := e
    have hc' : c' = c := heq
    subst hc'
    have hlook : table.lookup c' = some code := lookup_of_mem table hnd _ hemem
    have hencode : huffEncode table (c' :: rest) =
        code ++ huffEncode table rest := by
      unfold huffEncode
      rw [List.map_cons, List.flatten_cons, hlook]
      rfl
    rw [hencode] at hfuel ⊢
    have hcne : code ≠ [] := hne _ hemem
    cases fuel with
    | zero =>
      exfalso
      rw [List.length_append] at hfuel
      have : 1 ≤ code.length := by
        cases code with
        | nil => exact absurd rfl hcne
        | cons _ _ => simp
      omega
    | succ fuel =>
      rw [huffDecodeAux]
      have hbitsne : code ++ huffEncode table rest ≠ [] := by
        intro hcon
        exact hcne (List.append_eq_nil.mp hcon).1
      rw [if_neg hbitsne]
      have hfind : table.find?
          (fun e => e.2.isPrefixOf (code ++ huffEncode table rest)) =
            some (c', code) := by
        refine find?_unique table _ (c', code) hemem ?_ ?_
        · rw [List.isPrefixOf_iff_prefix]
          exact List.prefix_append _ _
        · intro b hb hpb
          rw [List.isPrefixOf_iff_prefix] at hpb
          have hcp : code <+: code ++ huffEncode table rest :=
            List.prefix_append _ _
          by_cases hbc : b.1 = c'
          · exact key_inj table hnd b hb (c', code) hemem hbc
          · exfalso
            rcases List.prefix_or_prefix_of_prefix hpb hcp with h | h
            · exact hincomp b hb (c', code) hemem hbc h
            · exact hincomp (c', code) hemem b hb
                (fun hcon => hbc hcon.symm) h
      rw [hfind]
      show c' :: huffDecodeAux table fuel
          ((code ++ huffEncode table rest).drop code.length) = c' :: rest
      rw [List.drop_left]
      rw [ih fuel (fun x hx => hkeys x (List.mem_cons_of_mem _ hx)) ?_]
      rw [List.length_append] at hfuel
      have : 1 ≤ code.length := by
        cases code with
        | nil => exact absurd rfl hcne
        | cons _ _ => simp
      omega

/-- C2: for every non-empty input text, encoding with the produced
Huffman code table and then greedily decoding the bit string
reconstructs the original text exactly; in the single-distinct-
character case the single leaf's code is `"0"` (here `[false]`). -/
theorem huffman_roundtrip (text : List Char) (htext : text ≠ []) :
    ∃ root, buildHuffmanTree text = some root ∧
      huffDecode (genCodes root [])
        (huffEncode (genCodes root []) text) = text ∧
      (∀ c f, root = HTree.leaf c f →
        genCodes root [] = [(c, [false])]) := by
  obtain ⟨root, hroot, hperm⟩ := buildHuffmanTree_root text htext
  refine ⟨root, hroot, ?_, ?_⟩
  · have hkeys : (genCodes root []).map Prod.fst = leavesChars root :=
      genCodes_keys root []
    have hnd : ((genCodes root []).map Prod.fst).Nodup := by
      rw [hkeys]
      exact hperm.nodup_iff.mpr (firstOccs_nodup text)
    have hmem : ∀ c ∈ text, c ∈ (genCodes root []).map Prod.fst := by
      intro c hc
      rw [hkeys, hperm.mem_iff, firstOccs_mem]
      exact hc
    exact huffDecodeAux_encode (genCodes root []) hnd
      (genCodes_ne_nil root []) (genCodes_incomp root []) text _ hmem le_rfl
  · intro c f hleaf
    rw [hleaf]
    rfl

theorem huffman_roundtrip_witness :
    ∃ root, buildHuffmanTree ['A', 'B', 'A'] = some root ∧
      huffDecode (genCodes root [])
        (huffEncode (genCodes root []) ['A', 'B', 'A']) = ['A', 'B', 'A'] ∧
      (∀ c f, root = HTree.leaf c f →
        genCodes root [] = [(c, [false])]) :=
  huffman_roundtrip ['A', 'B', 'A'] (by decide)
